import Mathlib

/-!
# Praetorian file-processing core: registry and pipeline

A shallow embedding of the Go packages `internal/adapters/parsers`
(decoders and `ParserRegistry`) and `internal/services/validation`
(`FilePipeline`), followed by theorems about them.

Conventions of the embedding:

* a Go `string` is a Lean `String`; byte slices holding file content are
  `Option String`, `none` being the nil slice;
* a Go `error` is its message (`String`); a `(T, error)` result where exactly
  one component is set is an `Except String T`;
* `map[string]T` is an association list with unique keys (`mapGet`, `mapSet`);
* `context.Context` is represented by the value of `ctx.Err()`:
  `none` while the context is live, `some msg` once it is cancelled;
* third-party decoders (`yaml.Unmarshal`, `json.Unmarshal`, ...) and
  `filepath.Base` / `filepath.Dir` are parameters, collected in `Externals`;
* `strings.ToLower` is modelled on ASCII letters.
-/

namespace Praetorian

/-! ## Strings and paths (Go standard library) -/

/-- Go `strings.ToLower`, on ASCII letters. -/
def ToLower (s : String) : String := ⟨s.data.map Char.toLower⟩

/-- Go `strings.HasPrefix`. -/
def startsWith (s pre : String) : Bool := pre.data.isPrefixOf s.data

/-- Go `strings.HasSuffix`. -/
def endsWith (s suf : String) : Bool := suf.data.reverse.isPrefixOf s.data.reverse

/-- Go `strings.TrimPrefix`: drop `pre` from the front of `s` when it is there. -/
def trimLeading (s pre : String) : String :=
  if startsWith s pre then ⟨s.data.drop pre.data.length⟩ else s

/-- Backward scan of `filepath.Ext`: the argument is the reversed path, `acc`
the characters already passed (in path order). -/
def extScan : List Char → List Char → List Char
  | [], _ => []
  | c :: rest, acc =>
    if c = '/' then []
    else if c = '.' then '.' :: acc
    else extScan rest (c :: acc)

/-- Go `filepath.Ext` (Unix separator): the suffix beginning at the final dot
of the final path element, empty when that element has no dot. -/
def Ext (path : String) : String := ⟨extScan path.data.reverse []⟩

/-- Go `filepath.IsAbs` (Unix). -/
def IsAbs (path : String) : Bool := startsWith path "/"

/-- Go `unicode.IsSpace`. -/
def isSpace (c : Char) : Bool :=
  c = '\t' || c = '\n' || c = '\x0b' || c = '\x0c' || c = '\r' || c = ' ' ||
  c.toNat = 0x85 || c.toNat = 0xA0 || c.toNat = 0x1680 ||
  (0x2000 ≤ c.toNat && c.toNat ≤ 0x200a) ||
  c.toNat = 0x2028 || c.toNat = 0x2029 || c.toNat = 0x202f ||
  c.toNat = 0x205f || c.toNat = 0x3000

/-- Go `strings.TrimSpace`. -/
def TrimSpace (s : String) : String :=
  ⟨((s.data.dropWhile isSpace).reverse.dropWhile isSpace).reverse⟩

/-- Split a character list on `'\n'`; `cur` is the current line, reversed. -/
def splitNewlines : List Char → List Char → List String
  | [], cur => [⟨cur.reverse⟩]
  | c :: rest, cur =>
    if c = '\n' then ⟨cur.reverse⟩ :: splitNewlines rest []
    else splitNewlines rest (c :: cur)

/-- Go `strings.Index(s, "=")` style search for one character: the position of
its first occurrence. -/
def indexOfChar (c : Char) : List Char → Option Nat
  | [] => none
  | d :: rest => if d = c then some 0 else (indexOfChar c rest).map (· + 1)

/-- Go `fmt` rendering of a `[]error` under `%v`: the messages separated by
blanks, in square brackets. -/
def formatErrors (errs : List String) : String :=
  "[" ++ " ".intercalate errs ++ "]"

/-! ## Maps and dynamically typed values -/

/-- Lookup in a Go map. -/
def mapGet {β : Type} : List (String × β) → String → Option β
  | [], _ => none
  | (k, v) :: m, key => if k = key then some v else mapGet m key

/-- Assignment `m[key] = v` in a Go map. -/
def mapSet {β : Type} : List (String × β) → String → β → List (String × β)
  | [], key, v => [(key, v)]
  | (k, w) :: m, key, v =>
    if k = key then (k, v) :: m else (k, w) :: mapSet m key v

/-- The values an `interface{}` holds in decoded configuration data. -/
inductive Value where
  | null : Value
  | bool : Bool → Value
  | num : Int → Value
  | str : String → Value
  | seq : List Value → Value
  | map : List (String × Value) → Value

/-- Go `map[string]interface{}`. -/
abbrev DataMap := List (String × Value)

/-- One decoded file, `models.ConfigData` (the capture time is left out). -/
structure ConfigData where
  Filename : String
  Format : String
  Data : DataMap
  Metadata : DataMap

/-- The value of `ctx.Err()`: `none` for a live context. -/
abbrev Context := Option String

/-- The interface `models.FileProcessor`. -/
structure FileProcessor where
  CanProcess : String → Bool
  Process : Context → String → Option String → Except String ConfigData
  GetSupportedExtensions : List String

/-- The interface `models.FileReader`, restricted to the two methods the
pipeline calls. -/
structure FileReader where
  ReadFile : String → Except String (Option String)
  FileExists : String → Bool

/-- Library functions the decoders call. A decoder that unmarshals into a
`map[string]interface{}` variable leaves it nil (`none`) or set. -/
structure Externals where
  yamlUnmarshal : String → Except String (Option DataMap)
  jsonUnmarshal : String → Except String (Option DataMap)
  tomlUnmarshal : String → Except String (Option DataMap)
  hclDecode : String → Except String (Option DataMap)
  xmlDecode : String → Except String (Option DataMap)
  jsonMarshalOk : DataMap → Bool
  filepathBase : String → String
  filepathDir : String → String

/-! ## `parsers/common.go` -/

def supportsExtension (extension : String) (supportedExtensions : List String) : Bool :=
  supportedExtensions.any (fun ext => ext = extension)

def GetFileExtension (filename : String) : String :=
  trimLeading (ToLower (Ext filename)) "."

def ValidateFilenameAndExtension (filename : String) (supportedExtensions : List String) : Bool :=
  if filename = "" then false
  else supportsExtension (GetFileExtension filename) supportedExtensions

/-- Returns the error, `none` for nil. -/
def ValidateContextAndInput (ctx : Context) (filename : String) (content : Option String) :
    Option String :=
  match ctx with
  | some e => some ("context cancelled: " ++ e)
  | none =>
    if filename = "" then some "filename cannot be empty"
    else if content.isNone then some "content cannot be nil"
    else none

def copyExtensions (extensions : List String) : List String := extensions

def countKeys (data : DataMap) : Nat := data.length

def isNestedValue : Value → Bool
  | .map _ => true
  | .seq xs => !xs.isEmpty
  | _ => false

def hasNestedData (data : DataMap) : Bool := data.any (fun kv => isNestedValue kv.2)

def createMetadata (L : Externals) (filename format : String) (data : DataMap) : DataMap :=
  let metadata : DataMap :=
    [("processor", .str format),
     ("file_size", .num data.length),
     ("key_count", .num (countKeys data)),
     ("has_nested", .bool (hasNestedData data))]
  if filename ≠ "" then mapSet metadata "dirname" (.str (L.filepathDir filename))
  else metadata

def createConfigData (L : Externals) (filename format : String) (data : DataMap) : ConfigData :=
  { Filename := filename, Format := format, Data := data,
    Metadata := createMetadata L filename format data }

def removeQuotes (value : String) : String :=
  if value = "" then value
  else if value.length < 2 then value
  else if startsWith value "\"" && endsWith value "\"" then
    ⟨(value.data.drop 1).take (value.length - 2)⟩
  else if startsWith value "'" && endsWith value "'" then
    ⟨(value.data.drop 1).take (value.length - 2)⟩
  else value

def isEmptyContent (content : String) : Bool := content.length = 0

def createEmptyResult : DataMap := []

def splitLines (content : String) : List String := splitNewlines content.data []

def trimLine (line : String) : String := TrimSpace line

def isEmptyLine (line : String) : Bool :=
  line = "" || startsWith line "#" || startsWith line ";" || startsWith line "!"

def findKeyValueSeparator (line : String) : Option Nat := indexOfChar '=' line.data

def extractKeyValue (line : String) (separatorIndex : Nat) : String × String :=
  (TrimSpace ⟨line.data.take separatorIndex⟩,
   TrimSpace ⟨line.data.drop (separatorIndex + 1)⟩)

def isValidKey (key : String) : Bool := key ≠ ""

def parseKeyValue (line : String) : String × String × Bool :=
  match findKeyValueSeparator line with
  | none => ("", "", false)
  | some separatorIndex =>
    let kv := extractKeyValue line separatorIndex
    (kv.1, kv.2, isValidKey kv.1)

/-- The loop body of `parseKeyValueContent` for one line. -/
def parseKeyValueLine (isComment : String → Bool) (result : DataMap) (line : String) : DataMap :=
  let trimmedLine := trimLine line
  if isEmptyLine trimmedLine || isComment trimmedLine then result
  else
    match parseKeyValue trimmedLine with
    | (key, value, true) => mapSet result key (.str (removeQuotes value))
    | (_, _, false) => result

def parseKeyValueContent (content : String) (isComment : String → Bool) :
    Except String DataMap :=
  if isEmptyContent content then .ok createEmptyResult
  else .ok ((splitLines content).foldl (parseKeyValueLine isComment) createEmptyResult)

/-! ## The eight decoders -/

structure YAMLProcessor where
  supportedExtensions : List String

def NewYAMLProcessor : YAMLProcessor := ⟨["yaml", "yml"]⟩

namespace YAMLProcessor

def getFileExtension (_p : YAMLProcessor) (filename : String) : String :=
  trimLeading (ToLower (Ext filename)) "."

def supportsExtension (p : YAMLProcessor) (extension : String) : Bool :=
  p.supportedExtensions.any (fun ext => ext = extension)

def CanProcess (p : YAMLProcessor) (filename : String) : Bool :=
  if filename = "" then false
  else p.supportsExtension (p.getFileExtension filename)

def validateInput (_p : YAMLProcessor) (filename : String) (content : Option String) :
    Option String :=
  if filename = "" then some "filename cannot be empty"
  else if content.isNone then some "content cannot be nil"
  else none

def parseYAML (_p : YAMLProcessor) (L : Externals) (content : String) : Except String DataMap :=
  if content.length = 0 then .ok []
  else
    match L.yamlUnmarshal content with
    | .error e => .error ("YAML unmarshal failed: " ++ e)
    | .ok none => .ok []
    | .ok (some result) => .ok result

def countKeys (_p : YAMLProcessor) (data : DataMap) : Nat := data.length

def hasNestedData (_p : YAMLProcessor) (data : DataMap) : Bool :=
  data.any (fun kv => isNestedValue kv.2)

def createMetadata (p : YAMLProcessor) (L : Externals) (filename : String) (data : DataMap) :
    DataMap :=
  let metadata : DataMap :=
    [("processor", .str "yaml"),
     ("file_size", .num data.length),
     ("key_count", .num (p.countKeys data)),
     ("has_nested", .bool (p.hasNestedData data))]
  if filename ≠ "" then
    mapSet (mapSet metadata "basename" (.str (L.filepathBase filename)))
      "dirname" (.str (L.filepathDir filename))
  else metadata

def createConfigData (p : YAMLProcessor) (L : Externals) (filename : String) (data : DataMap) :
    ConfigData :=
  { Filename := filename, Format := "yaml", Data := data,
    Metadata := p.createMetadata L filename data }

def Process (p : YAMLProcessor) (L : Externals) (ctx : Context) (filename : String)
    (content : Option String) : Except String ConfigData :=
  match ctx with
  | some e => .error ("context cancelled: " ++ e)
  | none =>
    match p.validateInput filename content with
    | some err => .error ("invalid input: " ++ err)
    | none =>
      match p.parseYAML L (content.getD "") with
      | .error err => .error ("failed to parse YAML: " ++ err)
      | .ok data => .ok (p.createConfigData L filename data)

def GetSupportedExtensions (p : YAMLProcessor) : List String := p.supportedExtensions

/-- The decoder seen through the interface `models.FileProcessor`. -/
def toFileProcessor (p : YAMLProcessor) (L : Externals) : FileProcessor :=
  { CanProcess := p.CanProcess, Process := p.Process L,
    GetSupportedExtensions := p.GetSupportedExtensions }

end YAMLProcessor

structure JSONProcessor where
  supportedExtensions : List String

def NewJSONProcessor : JSONProcessor := ⟨["json"]⟩

namespace JSONProcessor

def getFileExtension (_p : JSONProcessor) (filename : String) : String :=
  trimLeading (ToLower (Ext filename)) "."

def supportsExtension (p : JSONProcessor) (extension : String) : Bool :=
  p.supportedExtensions.any (fun ext => ext = extension)

def CanProcess (p : JSONProcessor) (filename : String) : Bool :=
  if filename = "" then false
  else p.supportsExtension (p.getFileExtension filename)

def validateInput (_p : JSONProcessor) (filename : String) (content : Option String) :
    Option String :=
  if filename = "" then some "filename cannot be empty"
  else if content.isNone then some "content cannot be nil"
  else none

def parseJSON (_p : JSONProcessor) (L : Externals) (content : String) : Except String DataMap :=
  if content.length = 0 then .ok []
  else
    match L.jsonUnmarshal content with
    | .error e => .error ("JSON unmarshal failed: " ++ e)
    | .ok none => .ok []
    | .ok (some result) => .ok result

def countKeys (_p : JSONProcessor) (data : DataMap) : Nat := data.length

def hasNestedData (_p : JSONProcessor) (data : DataMap) : Bool :=
  data.any (fun kv => isNestedValue kv.2)

def isValidJSON (_p : JSONProcessor) (L : Externals) (data : DataMap) : Bool :=
  L.jsonMarshalOk data

def createMetadata (p : JSONProcessor) (L : Externals) (filename : String) (data : DataMap) :
    DataMap :=
  let metadata : DataMap :=
    [("processor", .str "json"),
     ("file_size", .num data.length),
     ("key_count", .num (p.countKeys data)),
     ("has_nested", .bool (p.hasNestedData data)),
     ("is_valid", .bool (p.isValidJSON L data))]
  if filename ≠ "" then
    mapSet (mapSet metadata "basename" (.str (L.filepathBase filename)))
      "dirname" (.str (L.filepathDir filename))
  else metadata

def createConfigData (p : JSONProcessor) (L : Externals) (filename : String) (data : DataMap) :
    ConfigData :=
  { Filename := filename, Format := "json", Data := data,
    Metadata := p.createMetadata L filename data }

def Process (p : JSONProcessor) (L : Externals) (ctx : Context) (filename : String)
    (content : Option String) : Except String ConfigData :=
  match ctx with
  | some e => .error ("context cancelled: " ++ e)
  | none =>
    match p.validateInput filename content with
    | some err => .error ("invalid input: " ++ err)
    | none =>
      match p.parseJSON L (content.getD "") with
      | .error err => .error ("failed to parse JSON: " ++ err)
      | .ok data => .ok (p.createConfigData L filename data)

def GetSupportedExtensions (p : JSONProcessor) : List String := p.supportedExtensions

def toFileProcessor (p : JSONProcessor) (L : Externals) : FileProcessor :=
  { CanProcess := p.CanProcess, Process := p.Process L,
    GetSupportedExtensions := p.GetSupportedExtensions }

end JSONProcessor

/-- The shape shared by the `Process` methods of the six decoders built on
`common.go`: input check, parse, wrap a parse error, build the record. -/
def processWith (L : Externals) (format label : String)
    (parse : String → Except String DataMap)
    (ctx : Context) (filename : String) (content : Option String) : Except String ConfigData :=
  match ValidateContextAndInput ctx filename content with
  | some err => .error err
  | none =>
    match parse (content.getD "") with
    | .error err => .error ("failed to parse " ++ label ++ ": " ++ err)
    | .ok data => .ok (createConfigData L filename format data)

structure TOMLProcessor where
  supportedExtensions : List String

def NewTOMLProcessor : TOMLProcessor := ⟨["toml"]⟩

def parseTOMLContent (L : Externals) (content : String) : Except String DataMap :=
  if content.length = 0 then .ok []
  else
    match L.tomlUnmarshal content with
    | .error e => .error ("TOML unmarshal failed: " ++ e)
    | .ok none => .ok []
    | .ok (some result) => .ok result

namespace TOMLProcessor

def CanProcess (p : TOMLProcessor) (filename : String) : Bool :=
  ValidateFilenameAndExtension filename p.supportedExtensions

def Process (_p : TOMLProcessor) (L : Externals) : Context → String → Option String →
    Except String ConfigData :=
  processWith L "toml" "TOML" (parseTOMLContent L)

def GetSupportedExtensions (p : TOMLProcessor) : List String :=
  copyExtensions p.supportedExtensions

def toFileProcessor (p : TOMLProcessor) (L : Externals) : FileProcessor :=
  { CanProcess := p.CanProcess, Process := p.Process L,
    GetSupportedExtensions := p.GetSupportedExtensions }

end TOMLProcessor

structure PropertiesProcessor where
  supportedExtensions : List String

def NewPropertiesProcessor : PropertiesProcessor := ⟨["properties"]⟩

def isPropertiesComment (line : String) : Bool :=
  startsWith line "#" || startsWith line "!"

def parsePropertiesContent (content : String) : Except String DataMap :=
  if isEmptyContent content then .ok createEmptyResult
  else parseKeyValueContent content isPropertiesComment

namespace PropertiesProcessor

def CanProcess (p : PropertiesProcessor) (filename : String) : Bool :=
  ValidateFilenameAndExtension filename p.supportedExtensions

def Process (_p : PropertiesProcessor) (L : Externals) : Context → String → Option String →
    Except String ConfigData :=
  processWith L "properties" "Properties" parsePropertiesContent

def GetSupportedExtensions (p : PropertiesProcessor) : List String :=
  copyExtensions p.supportedExtensions

def toFileProcessor (p : PropertiesProcessor) (L : Externals) : FileProcessor :=
  { CanProcess := p.CanProcess, Process := p.Process L,
    GetSupportedExtensions := p.GetSupportedExtensions }

end PropertiesProcessor

structure INIProcessor where
  supportedExtensions : List String

def NewINIProcessor : INIProcessor := ⟨["ini"]⟩

def isINIComment (line : String) : Bool :=
  startsWith line ";" || startsWith line "#"

def isINISection (line : String) : Bool :=
  startsWith line "[" && endsWith line "]"

def extractINISection (line : String) : String :=
  ⟨(line.data.drop 1).take (line.length - 2)⟩

def parseINIKeyValue (line : String) : String × String × Bool :=
  match findKeyValueSeparator line with
  | none => ("", "", false)
  | some separatorIndex =>
    let kv := extractKeyValue line separatorIndex
    (kv.1, kv.2, isValidKey kv.1)

def setINIValue (result : DataMap) (section_ key value : String) : DataMap :=
  let cleanValue := removeQuotes value
  if section_ ≠ "" then
    match mapGet result section_ with
    | some (.map sectionMap) => mapSet result section_ (.map (mapSet sectionMap key (.str cleanValue)))
    | _ => result
  else mapSet result key (.str cleanValue)

/-- The loop body of `parseINIContentWithSections` for one line; the state is
the result and the current section. -/
def parseINILine (st : DataMap × String) (line : String) : DataMap × String :=
  let trimmedLine := trimLine line
  if isEmptyLine trimmedLine || isINIComment trimmedLine then st
  else if isINISection trimmedLine then
    let currentSection := extractINISection trimmedLine
    (mapSet st.1 currentSection (.map createEmptyResult), currentSection)
  else
    match parseINIKeyValue trimmedLine with
    | (key, value, true) => (setINIValue st.1 st.2 key value, st.2)
    | (_, _, false) => st

def parseINIContentWithSections (content : String) : DataMap :=
  ((splitLines content).foldl parseINILine (createEmptyResult, "")).1

def parseINIContent (content : String) : Except String DataMap :=
  if isEmptyContent content then .ok createEmptyResult
  else .ok (parseINIContentWithSections content)

namespace INIProcessor

def CanProcess (p : INIProcessor) (filename : String) : Bool :=
  ValidateFilenameAndExtension filename p.supportedExtensions

def Process (_p : INIProcessor) (L : Externals) : Context → String → Option String →
    Except String ConfigData :=
  processWith L "ini" "INI" parseINIContent

def GetSupportedExtensions (p : INIProcessor) : List String :=
  copyExtensions p.supportedExtensions

def toFileProcessor (p : INIProcessor) (L : Externals) : FileProcessor :=
  { CanProcess := p.CanProcess, Process := p.Process L,
    GetSupportedExtensions := p.GetSupportedExtensions }

end INIProcessor

structure HCLProcessor where
  supportedExtensions : List String

def NewHCLProcessor : HCLProcessor := ⟨["hcl"]⟩

def parseHCLContent (L : Externals) (content : String) : Except String DataMap :=
  if isEmptyContent content then .ok createEmptyResult
  else
    match L.hclDecode content with
    | .error e => .error ("failed to parse HCL: " ++ e)
    | .ok result => .ok (result.getD [])

namespace HCLProcessor

def CanProcess (p : HCLProcessor) (filename : String) : Bool :=
  ValidateFilenameAndExtension filename p.supportedExtensions

def Process (_p : HCLProcessor) (L : Externals) : Context → String → Option String →
    Except String ConfigData :=
  processWith L "hcl" "HCL" (parseHCLContent L)

def GetSupportedExtensions (p : HCLProcessor) : List String :=
  copyExtensions p.supportedExtensions

def toFileProcessor (p : HCLProcessor) (L : Externals) : FileProcessor :=
  { CanProcess := p.CanProcess, Process := p.Process L,
    GetSupportedExtensions := p.GetSupportedExtensions }

end HCLProcessor

structure XMLProcessor where
  supportedExtensions : List String

def NewXMLProcessor : XMLProcessor := ⟨["xml"]⟩

def parseXMLContent (L : Externals) (content : String) : Except String DataMap :=
  if isEmptyContent content then .ok createEmptyResult
  else
    match L.xmlDecode content with
    | .error e => .error ("failed to parse XML: " ++ e)
    | .ok data => .ok (data.getD [])

namespace XMLProcessor

def CanProcess (p : XMLProcessor) (filename : String) : Bool :=
  ValidateFilenameAndExtension filename p.supportedExtensions

def Process (_p : XMLProcessor) (L : Externals) : Context → String → Option String →
    Except String ConfigData :=
  processWith L "xml" "XML" (parseXMLContent L)

def GetSupportedExtensions (p : XMLProcessor) : List String :=
  copyExtensions p.supportedExtensions

def toFileProcessor (p : XMLProcessor) (L : Externals) : FileProcessor :=
  { CanProcess := p.CanProcess, Process := p.Process L,
    GetSupportedExtensions := p.GetSupportedExtensions }

end XMLProcessor

structure ENVProcessor where
  supportedExtensions : List String

def NewENVProcessor : ENVProcessor := ⟨["env"]⟩

def isENVComment (line : String) : Bool := startsWith line "#"

def parseENVContent (content : String) : Except String DataMap :=
  if isEmptyContent content then .ok createEmptyResult
  else parseKeyValueContent content isENVComment

namespace ENVProcessor

def CanProcess (p : ENVProcessor) (filename : String) : Bool :=
  ValidateFilenameAndExtension filename p.supportedExtensions

def Process (_p : ENVProcessor) (L : Externals) : Context → String → Option String →
    Except String ConfigData :=
  processWith L "env" "ENV" parseENVContent

def GetSupportedExtensions (p : ENVProcessor) : List String :=
  copyExtensions p.supportedExtensions

def toFileProcessor (p : ENVProcessor) (L : Externals) : FileProcessor :=
  { CanProcess := p.CanProcess, Process := p.Process L,
    GetSupportedExtensions := p.GetSupportedExtensions }

end ENVProcessor

/-! ## `parsers/registry.go` and `parsers/parsers.go` -/

structure ParserRegistry where
  processors : List FileProcessor
  byExtension : List (String × FileProcessor)

namespace ParserRegistry

/-- The registry literal `NewParserRegistry` starts from. -/
def empty : ParserRegistry := ⟨[], []⟩

def hasExtensionOverlap (ext1 ext2 : List String) : Bool :=
  ext1.any (fun e1 => ext2.any (fun e2 => e1 = e2))

/-- Returns the error, `none` for nil. -/
def validateNoConflicts (r : ParserRegistry) (newProcessor : FileProcessor) : Option String :=
  let newExtensions := newProcessor.GetSupportedExtensions
  if r.processors.any (fun existing =>
      hasExtensionOverlap newExtensions existing.GetSupportedExtensions)
  then some "extension conflict between processors"
  else none

/-- The argument is `none` for a nil interface value. The result is the
registry after the call and the returned error (`none` for nil). -/
def RegisterProcessor (r : ParserRegistry) (processor : Option FileProcessor) :
    ParserRegistry × Option String :=
  match processor with
  | none => (r, some "processor cannot be nil")
  | some processor =>
    match r.validateNoConflicts processor with
    | some err => (r, some ("processor conflicts with existing: " ++ err))
    | none =>
      ({ processors := r.processors ++ [processor],
         byExtension := processor.GetSupportedExtensions.foldl
           (fun m ext => mapSet m ext processor) r.byExtension },
       none)

def normalizeExtension (_r : ParserRegistry) (extension : String) : String :=
  ToLower (trimLeading extension ".")

def getFileExtension (r : ParserRegistry) (filename : String) : String :=
  r.normalizeExtension (Ext filename)

def GetProcessor (r : ParserRegistry) (filename : String) : Except String FileProcessor :=
  if filename = "" then .error "filename cannot be empty"
  else
    let ext := r.getFileExtension filename
    if ext = "" then .error ("no extension found in filename: " ++ filename)
    else
      match mapGet r.byExtension ext with
      | none => .error ("no processor found for extension: " ++ ext)
      | some processor => .ok processor

def GetAllProcessors (r : ParserRegistry) : List FileProcessor := r.processors

def HasProcessor (r : ParserRegistry) (extension : String) : Bool :=
  (mapGet r.byExtension (r.normalizeExtension extension)).isSome

def GetProcessorCount (r : ParserRegistry) : Nat := r.processors.length

end ParserRegistry

/-- The eight decoders in the order both `RegisterAllProcessors` and
`CreateDefaultRegistry` list them. -/
def builtinProcessors (L : Externals) : List FileProcessor :=
  [NewYAMLProcessor.toFileProcessor L,
   NewJSONProcessor.toFileProcessor L,
   NewTOMLProcessor.toFileProcessor L,
   NewPropertiesProcessor.toFileProcessor L,
   NewINIProcessor.toFileProcessor L,
   NewHCLProcessor.toFileProcessor L,
   NewXMLProcessor.toFileProcessor L,
   NewENVProcessor.toFileProcessor L]

/-- The loop `for _, processor := range processors` with its early return:
the registry reached and the error of the first failing registration. -/
def registerEach : ParserRegistry → List FileProcessor → ParserRegistry × Option String
  | r, [] => (r, none)
  | r, processor :: rest =>
    match r.RegisterProcessor (some processor) with
    | (r1, some err) => (r1, some ("failed to register processor: " ++ err))
    | (r1, none) => registerEach r1 rest

/-- The argument is `none` for a nil registry pointer. -/
def RegisterAllProcessors (L : Externals) (registry : Option ParserRegistry) :
    ParserRegistry × Option String :=
  match registry with
  | none => (ParserRegistry.empty, some "registry cannot be nil")
  | some registry => registerEach registry (builtinProcessors L)

/-- An error stands for the panic. -/
def NewParserRegistry (L : Externals) : Except String ParserRegistry :=
  match RegisterAllProcessors L (some ParserRegistry.empty) with
  | (_, some err) => .error ("Failed to register processors: " ++ err)
  | (registry, none) => .ok registry

/-- An outer error stands for the panic of `NewParserRegistry`; the inner
result is the returned pair, `(nil, err)` or `(registry, nil)`. -/
def CreateDefaultRegistry (L : Externals) : Except String (Except String ParserRegistry) :=
  match NewParserRegistry L with
  | .error panicMsg => .error panicMsg
  | .ok registry =>
    match registerEach registry (builtinProcessors L) with
    | (_, some err) => .ok (.error err)
    | (registry, none) => .ok (.ok registry)

/-! ## `services/validation/pipeline.go` -/

/-- The record `models.PipelineConfig` (durations as integers). -/
structure PipelineConfig where
  MaxWorkers : Int
  Timeout : Int
  RetryAttempts : Int
  BufferSize : Int

structure FilePipeline where
  readers : List FileReader
  processors : List FileProcessor
  config : PipelineConfig

def NewFilePipeline (config : PipelineConfig) : FilePipeline :=
  { readers := [], processors := [], config := config }

structure fileProcessingResult where
  Filename : String
  Data : Option ConfigData
  Error : Option String

namespace FilePipeline

/-- Returns the error, `none` for nil. -/
def validateFilename (_p : FilePipeline) (filename : String) : Option String :=
  if filename = "" then some "filename cannot be empty"
  else if !IsAbs filename && !startsWith filename "./" then
    some "filename must be absolute path or start with ./"
  else none

/-- The loop of `validateFilenames` over the list. -/
def validateEach (p : FilePipeline) : List String → Option String
  | [] => none
  | filename :: rest =>
    match p.validateFilename filename with
    | some err => some ("invalid filename " ++ filename ++ ": " ++ err)
    | none => validateEach p rest

/-- The argument is `none` for a nil slice. Returns the error, `none` for nil. -/
def validateFilenames (p : FilePipeline) (filenames : Option (List String)) : Option String :=
  match filenames with
  | none => some "filenames cannot be nil"
  | some fs =>
    if fs.length = 0 then some "filenames cannot be empty"
    else p.validateEach fs

/-- Returns `none` for the nil processor. -/
def findProcessor (p : FilePipeline) (filename : String) : Option FileProcessor :=
  if p.processors.length = 0 then none
  else p.processors.find? (fun processor => processor.CanProcess filename)

/-- The loop of `readFileContent` over the readers. -/
def readFromFirst (filename : String) : List FileReader → Except String (Option String)
  | [] => .error ("file not found: " ++ filename)
  | reader :: rest =>
    if reader.FileExists filename then reader.ReadFile filename
    else readFromFirst filename rest

def readFileContent (p : FilePipeline) (filename : String) : Except String (Option String) :=
  if p.readers.length = 0 then .error "no file readers registered"
  else readFromFirst filename p.readers

def ProcessFile (p : FilePipeline) (ctx : Context) (filename : String) :
    Except String ConfigData :=
  match p.validateFilename filename with
  | some err => .error ("invalid filename: " ++ err)
  | none =>
    match p.findProcessor filename with
    | none => .error ("no processor found for file: " ++ filename)
    | some processor =>
      match p.readFileContent filename with
      | .error err => .error ("failed to read file " ++ filename ++ ": " ++ err)
      | .ok content => processor.Process ctx filename content

def hasExtensionOverlap (_p : FilePipeline) (ext1 ext2 : List String) : Bool :=
  ext1.any (fun e1 => ext2.any (fun e2 => e1 = e2))

def isProcessorRegistered (p : FilePipeline) (newProcessor : FileProcessor) : Bool :=
  let newExtensions := newProcessor.GetSupportedExtensions
  p.processors.any (fun existing =>
    p.hasExtensionOverlap newExtensions existing.GetSupportedExtensions)

/-- The argument is `none` for a nil interface value. The result is the
pipeline after the call and the returned error (`none` for nil). -/
def RegisterProcessor (p : FilePipeline) (processor : Option FileProcessor) :
    FilePipeline × Option String :=
  match processor with
  | none => (p, some "processor cannot be nil")
  | some processor =>
    if p.isProcessorRegistered processor then (p, some "processor already registered")
    else ({ p with processors := p.processors ++ [processor] }, none)

def GetProcessors (p : FilePipeline) : List FileProcessor := p.processors

def getWorkerCount (p : FilePipeline) : Nat :=
  if p.config.MaxWorkers > 0 then p.config.MaxWorkers.toNat else 4

def processFileWithResult (p : FilePipeline) (ctx : Context) (filename : String) :
    fileProcessingResult :=
  match p.ProcessFile ctx filename with
  | .ok configData => { Filename := filename, Data := some configData, Error := none }
  | .error err => { Filename := filename, Data := none, Error := some err }

/-- The value `collectResults` returns once both channels are closed; its
arguments are everything sent on `results` and on `errors`, in sending order. -/
def collectResults (_p : FilePipeline) (results : List fileProcessingResult)
    (errors : List String) : List ConfigData × Option String :=
  let processed := results.filterMap (fun result => result.Data)
  if errors.length > 0 then (processed, some ("processing errors: " ++ formatErrors errors))
  else (processed, none)

end FilePipeline

/-! ### The worker pool as a transition system

`processFilesConcurrently` starts `getWorkerCount` goroutines running `worker`,
sends the filenames on the buffered channel `jobs`, closes it, and collects
what the workers sent on `results` and `errors` (both buffered to the number
of filenames, so a worker never blocks on a send). A run is a sequence of
events, one per atomic action of the orchestrator, of a worker or of the
context. -/

/-- Where a worker goroutine stands in the body of `worker`. -/
inductive WorkerPhase where
  /-- At `for filename := range jobs`, waiting for a filename. -/
  | receiving : WorkerPhase
  /-- Holding a filename, about to run the `select` on `ctx.Done()`. -/
  | selecting : String → WorkerPhase
  /-- In the `default` branch, about to call `processFileWithResult`. -/
  | processing : String → WorkerPhase
  /-- Left the function (`wg.Done()` has run). -/
  | returned : WorkerPhase
deriving DecidableEq

structure PoolState where
  ctx : Context
  /-- Filenames the orchestrator has not sent yet. -/
  unsent : List String
  /-- Content of the channel `jobs`. -/
  jobs : List String
  jobsClosed : Bool
  workers : List WorkerPhase
  /-- Everything sent on `results`, in order. -/
  results : List fileProcessingResult
  /-- Everything sent on `errors`, in order. -/
  errors : List String

inductive Event where
  /-- The context is cancelled, `ctx.Err()` becoming the given error. -/
  | cancel : String → Event
  /-- The orchestrator sends the next filename on `jobs`. -/
  | send : Event
  /-- The orchestrator closes `jobs`. -/
  | close : Event
  /-- Worker `i` receives from `jobs`, or sees it closed and empty. -/
  | receive : Nat → Event
  /-- Worker `i` runs its `select`. -/
  | select : Nat → Event
  /-- Worker `i` processes its file and sends the outcome. -/
  | process : Nat → Event
deriving DecidableEq

namespace FilePipeline

/-- One atomic action; `none` when the action is not enabled in the state. -/
def step (p : FilePipeline) (s : PoolState) : Event → Option PoolState
  | .cancel err =>
    match s.ctx with
    | none => some { s with ctx := some err }
    | some _ => none
  | .send =>
    match s.unsent with
    | [] => none
    | filename :: rest => some { s with unsent := rest, jobs := s.jobs ++ [filename] }
  | .close =>
    if s.unsent.isEmpty && !s.jobsClosed then some { s with jobsClosed := true } else none
  | .receive i =>
    match s.workers[i]? with
    | some .receiving =>
      match s.jobs with
      | filename :: rest =>
        some { s with jobs := rest, workers := s.workers.set i (.selecting filename) }
      | [] =>
        if s.jobsClosed then some { s with workers := s.workers.set i .returned } else none
    | _ => none
  | .select i =>
    match s.workers[i]? with
    | some (.selecting filename) =>
      match s.ctx with
      | some err =>
        some { s with errors := s.errors ++ [err], workers := s.workers.set i .returned }
      | none => some { s with workers := s.workers.set i (.processing filename) }
    | _ => none
  | .process i =>
    match s.workers[i]? with
    | some (.processing filename) =>
      let result := p.processFileWithResult s.ctx filename
      match result.Error with
      | some err =>
        some { s with errors := s.errors ++ [err], workers := s.workers.set i .receiving }
      | none =>
        some { s with results := s.results ++ [result], workers := s.workers.set i .receiving }
    | _ => none

/-- Run a sequence of events; `none` when one of them is not enabled. -/
def runEvents (p : FilePipeline) : PoolState → List Event → Option PoolState
  | s, [] => some s
  | s, e :: rest =>
    match p.step s e with
    | none => none
    | some s1 => runEvents p s1 rest

/-- The state in which `processFilesConcurrently` starts its goroutines. -/
def initialPool (p : FilePipeline) (ctx : Context) (filenames : List String) : PoolState :=
  { ctx := ctx, unsent := filenames, jobs := [], jobsClosed := false,
    workers := List.replicate p.getWorkerCount .receiving, results := [], errors := [] }

/-- Every filename sent, `jobs` closed and every worker returned: `wg.Wait()`
returns and `collectResults` sees both channels closed. -/
def poolFinished (s : PoolState) : Bool :=
  s.unsent.isEmpty && s.jobsClosed && s.workers.all (fun w => w = .returned)

/-- The value returned under the schedule `sched`; `none` when `sched` is not
a complete run of the pool. -/
def processFilesConcurrently (p : FilePipeline) (ctx : Context) (filenames : List String)
    (sched : List Event) : Option (List ConfigData × Option String) :=
  match p.runEvents (p.initialPool ctx filenames) sched with
  | none => none
  | some s => if poolFinished s then some (p.collectResults s.results s.errors) else none

/-- The value returned under the schedule `sched`; `none` when the workers are
started and `sched` is not a complete run of the pool. A nil record slice is
the empty list. -/
def ProcessFiles (p : FilePipeline) (ctx : Context) (filenames : Option (List String))
    (sched : List Event) : Option (List ConfigData × Option String) :=
  match p.validateFilenames filenames with
  | some err => some ([], some ("invalid filenames: " ++ err))
  | none =>
    if p.processors.length = 0 then some ([], some "no processors registered")
    else p.processFilesConcurrently ctx (filenames.getD []) sched

end FilePipeline

/-! ## Notions used to state the properties -/

/-- The final element of a path: what follows its last `'/'`. -/
def finalElement (path : List Char) : List Char :=
  (path.reverse.takeWhile (fun c => c ≠ '/')).reverse

/-- What follows the last `'.'` of a character sequence. -/
def afterLastDot (s : List Char) : List Char :=
  (s.reverse.takeWhile (fun c => c ≠ '.')).reverse

/-- The lower-cased extension of a filename: the text after the last dot of its
final path element, in lower case. -/
def loweredExtension (filename : String) : String :=
  ToLower ⟨afterLastDot (finalElement filename.data)⟩

/-- An extension in the form the registry looks up: non-empty, in lower case,
without dot and without path separator. -/
def isNormalizedExtension (e : String) : Prop :=
  e ≠ "" ∧ ToLower e = e ∧ '.' ∉ e.data ∧ '/' ∉ e.data

/-- The registry after a sequence of `RegisterProcessor` calls, accepted or
rejected (`none` is a call with a nil processor). -/
def registerCalls (r : ParserRegistry) (calls : List (Option FileProcessor)) : ParserRegistry :=
  calls.foldl (fun acc c => (acc.RegisterProcessor c).1) r

/-- Two decoders claim no common extension. -/
def extensionsDisjoint (a b : FileProcessor) : Prop :=
  ∀ e, e ∈ a.GetSupportedExtensions → e ∉ b.GetSupportedExtensions

/-- The registry invariant: decoders at different positions claim disjoint
extension sets, and the index holds exactly the claimed extensions, each
mapped to the decoder claiming it. -/
def ParserRegistry.WellFormed (r : ParserRegistry) : Prop :=
  r.processors.Pairwise extensionsDisjoint ∧
  ∀ e d, mapGet r.byExtension e = some d ↔ (d ∈ r.processors ∧ e ∈ d.GetSupportedExtensions)

/-! ## Test doubles and sample values -/

/-- The test double `MockFileProcessor` of `parsers/test_interfaces.go` with no
function field set; `SupportedExts` is `none` for a nil slice. (The log
`ProcessedFiles` it keeps is left out.) -/
structure MockFileProcessor where
  SupportedExts : Option (List String)

namespace MockFileProcessor

def CanProcess (_m : MockFileProcessor) (_filename : String) : Bool := true

def Process (_m : MockFileProcessor) (_ctx : Context) (filename : String)
    (_content : Option String) : Except String ConfigData :=
  .ok { Filename := filename, Format := "mock", Data := [("mock", .str "data")], Metadata := [] }

def GetSupportedExtensions (m : MockFileProcessor) : List String :=
  match m.SupportedExts with
  | some exts => exts
  | none => ["mock"]

def toFileProcessor (m : MockFileProcessor) : FileProcessor :=
  { CanProcess := m.CanProcess, Process := m.Process,
    GetSupportedExtensions := m.GetSupportedExtensions }

end MockFileProcessor

/-- A sample instance of the library functions, for concrete evaluations: the
two decoders used in the scenarios accept their sample documents, everything
else is rejected. -/
def sampleExternals : Externals :=
  { yamlUnmarshal := fun content =>
      if content = "k: v" then .ok (some [("k", .str "v")]) else .error "yaml: unsupported",
    jsonUnmarshal := fun content =>
      if content = "\x7b\"k\":1\x7d" then .ok (some [("k", .num 1)])
      else .error "unexpected end of JSON input",
    tomlUnmarshal := fun _ => .error "toml: unsupported",
    hclDecode := fun _ => .error "hcl: unsupported",
    xmlDecode := fun _ => .error "xml: unsupported",
    jsonMarshalOk := fun _ => true,
    filepathBase := fun path => ⟨finalElement path.data⟩,
    filepathDir := fun _ => "." }

/-! ## Notions used to state the pipeline properties -/

/-- The filename a worker holds between receiving it and sending its outcome. -/
def heldFile : WorkerPhase → Option String
  | .selecting filename => some filename
  | .processing filename => some filename
  | _ => none

/-- The filenames held by the workers. -/
def heldFiles (workers : List WorkerPhase) : List String := workers.filterMap heldFile

/-- The schedule has no cancellation event. -/
def noCancel (sched : List Event) : Prop := ∀ msg, Event.cancel msg ∉ sched

/-- The record of the single-file path on a filename, `none` when it fails. -/
def successOf (p : FilePipeline) (ctx : Context) (filename : String) : Option ConfigData :=
  match p.ProcessFile ctx filename with
  | .ok configData => some configData
  | .error _ => none

/-- The records the single-file path gives for the filenames it succeeds on. -/
def successesOf (p : FilePipeline) (ctx : Context) (filenames : List String) : List ConfigData :=
  filenames.filterMap (successOf p ctx)

/-- The error of the single-file path on a filename, `none` when it succeeds. -/
def failureOf (p : FilePipeline) (ctx : Context) (filename : String) : Option String :=
  match p.ProcessFile ctx filename with
  | .ok _ => none
  | .error err => some err

/-- The errors the single-file path gives for the filenames it fails on. -/
def failuresOf (p : FilePipeline) (ctx : Context) (filenames : List String) : List String :=
  filenames.filterMap (failureOf p ctx)

/-- Events of one worker taking every filename of `jobs` in turn. -/
def drainEvents (i : Nat) : List String → List Event
  | [] => []
  | _ :: rest => .receive i :: .select i :: .process i :: drainEvents i rest

/-- Events of workers `i, i+1, ..., i+n-1` each finding `jobs` closed and empty. -/
def leaveEvents (i : Nat) : Nat → List Event
  | 0 => []
  | n + 1 => .receive i :: leaveEvents (i + 1) n

/-- One complete run without cancellation: everything is sent, `jobs` is
closed, worker 0 takes every file, then every worker returns. -/
def sequentialSchedule (p : FilePipeline) (filenames : List String) : List Event :=
  List.replicate filenames.length .send ++ [.close] ++ drainEvents 0 filenames ++
    leaveEvents 0 p.getWorkerCount

/-- What holds in every state of a run without cancellation on `filenames`:
every filename is either done, held by a worker, in `jobs` or not yet sent,
and the channels hold the outcomes of the filenames that are done. -/
def PoolInv (p : FilePipeline) (filenames : List String) (s : PoolState) : Prop :=
  s.ctx = none ∧
  s.workers.length = p.getWorkerCount ∧
  (s.jobsClosed = true → s.unsent = []) ∧
  (WorkerPhase.returned ∈ s.workers → s.jobs = [] ∧ s.jobsClosed = true) ∧
  ∃ done : List String,
    (done ++ heldFiles s.workers ++ s.jobs ++ s.unsent).Perm filenames ∧
    s.results.filterMap (fun r => r.Data) = successesOf p none done ∧
    s.errors = failuresOf p none done

/-- A reader over an in-memory table of files. -/
def tableReader (files : List (String × String)) : FileReader :=
  { ReadFile := fun filename =>
      match mapGet files filename with
      | some content => .ok (some content)
      | none => .error ("file does not exist: " ++ filename),
    FileExists := fun filename => (mapGet files filename).isSome }

/-- The zero value of `models.PipelineConfig`. -/
def defaultConfig : PipelineConfig :=
  { MaxWorkers := 0, Timeout := 0, RetryAttempts := 0, BufferSize := 0 }

/-- A pipeline holding the YAML and the JSON decoder and one reader over the
given files. -/
def yamlJsonPipeline (L : Externals) (files : List (String × String))
    (config : PipelineConfig) : FilePipeline :=
  { readers := [tableReader files],
    processors := [NewYAMLProcessor.toFileProcessor L, NewJSONProcessor.toFileProcessor L],
    config := config }

/-- Substring test, Go `strings.Contains`. -/
def containsStr (s sub : String) : Bool :=
  s.data.tails.any (fun t => sub.data.isPrefixOf t)

/-- How many events a worker in the given phase can still take part in before
it is back at the `range` or has returned. -/
def phaseWeight : WorkerPhase → Nat
  | .receiving => 1
  | .selecting _ => 3
  | .processing _ => 2
  | .returned => 0

/-- A bound on the number of events still to come; every event lowers it. -/
def poolMeasure (s : PoolState) : Nat :=
  (if s.ctx.isNone then 1 else 0) + 4 * s.unsent.length + (if s.jobsClosed then 0 else 1) +
    3 * s.jobs.length + (s.workers.map phaseWeight).sum

/-! ## Notions used to state the decoder properties -/

/-- The double quote character. -/
def doubleQuote : Char := Char.ofNat 34

/-- The single quote character. -/
def singleQuote : Char := Char.ofNat 39

/-- Reference: a value with one matching pair of surrounding quotes removed.
The first and the last character are dropped when the value has at least two
characters and both are double quotes or both are single quotes. -/
def refStripQuotes : List Char → List Char
  | [] => []
  | c :: rest =>
    if rest ≠ [] ∧ (c = doubleQuote ∨ c = singleQuote) ∧ rest.getLast? = some c then rest.dropLast
    else c :: rest

/-- Reference: a trimmed line is a comment when it begins with `#`, `;` or `!`. -/
def refIsComment : List Char → Bool
  | [] => false
  | c :: _ => c = '#' || c = ';' || c = '!'

/-- Reference: the entry one line contributes. Blank lines, comment lines,
lines without `=` and lines with an empty key contribute none; otherwise the
key is the trimmed text before the first `=` and the value the trimmed text
after it, with surrounding quotes removed. -/
def refLineEntry (line : String) : Option (String × String) :=
  let t := (TrimSpace line).data
  if t = [] ∨ refIsComment t = true ∨ '=' ∉ t then none
  else
    let key := TrimSpace ⟨t.takeWhile (fun c => c ≠ '=')⟩
    let value := TrimSpace ⟨(t.dropWhile (fun c => c ≠ '=')).drop 1⟩
    if key = "" then none else some (key, ⟨refStripQuotes value.data⟩)

/-- Reference: the entries of the content, line by line in order. -/
def refEntries (content : String) : List (String × String) :=
  (splitNewlines content.data []).filterMap refLineEntry

/-- Reference: the value of a key after all lines are applied in order, a
later line overwriting an earlier one: that of the last entry with the key. -/
def refLookup (content : String) (key : String) : Option String :=
  ((refEntries content).reverse.find? (fun kv => kv.1 = key)).map (fun kv => kv.2)

/-! ## Notions used to state the INI properties -/

/-- The state of the loop of `parseINIContentWithSections` (result and current
section) after the given lines. -/
def iniState (lines : List String) : DataMap × String :=
  lines.foldl parseINILine (createEmptyResult, "")

/-- The name in the last section header among the lines; empty when there is
no section header. -/
def lastSectionName (lines : List String) : String :=
  match lines.reverse.find? (fun l => isINISection (trimLine l)) with
  | some l => extractINISection (trimLine l)
  | none => ""

/-! ## Encoding a mapping as key-value text -/

/-- Lines joined by newlines, Go `strings.Join(lines, "\n")`. -/
def joinLines : List String → String
  | [] => ""
  | [line] => line
  | line :: rest => line ++ "\n" ++ joinLines rest

/-- A mapping (association list) written as one `key=value` line per entry. -/
def encodeKeyValue (entries : List (String × String)) : String :=
  joinLines (entries.map (fun kv => kv.1 ++ "=" ++ kv.2))

/-- A key that survives the round trip: non-empty, without `=` and newline,
unchanged by trimming, and not starting with a comment marker. -/
def plainKey (k : String) : Prop :=
  k ≠ "" ∧ '=' ∉ k.data ∧ '\n' ∉ k.data ∧ TrimSpace k = k ∧ refIsComment k.data = false

/-- A value that survives the round trip: without newline, unchanged by
trimming, and not wrapped in a matching pair of quotes. -/
def plainValue (v : String) : Prop :=
  '\n' ∉ v.data ∧ TrimSpace v = v ∧ refStripQuotes v.data = v.data

/-! ## `internal/adapters/loaders/file_reader.go` -/

/-- The fields of `models.FileInfo`; the modification time is a number. -/
structure FileInfo where
  Name : String
  Size : Int
  ModTime : Int
  IsDir : Bool

/-- An error of `os.Stat`: its message, and what `os.IsNotExist` says of it. -/
structure StatError where
  message : String
  isNotExist : Bool

/-- The calls the local reader makes to the operating system and to
`path/filepath`. -/
structure FileSystem where
  stat : String → Except StatError FileInfo
  readFile : String → Except String (Option String)
  join : String → String → String
  abs : String → Except String String

structure LocalFileReader where
  basePath : String

def getCurrentDirectory (fs : FileSystem) : String :=
  match fs.abs "." with
  | .error _ => "."
  | .ok dir => dir

def convertToAbsolutePath (fs : FileSystem) (relativePath : String) : String :=
  match fs.abs relativePath with
  | .error _ => getCurrentDirectory fs
  | .ok absPath => absPath

def normalizeBasePath (fs : FileSystem) (basePath : String) : String :=
  if basePath = "" then getCurrentDirectory fs
  else if IsAbs basePath then basePath
  else convertToAbsolutePath fs basePath

def NewLocalFileReader (fs : FileSystem) (basePath : String) : LocalFileReader :=
  { basePath := normalizeBasePath fs basePath }

namespace LocalFileReader

/-- The error of `validateFilename`, `none` for nil. -/
def validateFilename (r : LocalFileReader) (filename : String) : Option String :=
  if filename = "" then some "filename cannot be empty"
  else if containsStr filename ".." then
    some ("filename contains invalid path traversal: " ++ filename)
  else if IsAbs filename then
    if !startsWith filename r.basePath then some ("filename outside base path: " ++ filename)
    else none
  else none

def getFullPath (r : LocalFileReader) (fs : FileSystem) (filename : String) : String :=
  if IsAbs filename then filename else fs.join r.basePath filename

def FileExists (r : LocalFileReader) (fs : FileSystem) (filename : String) : Bool :=
  match r.validateFilename filename with
  | some _ => false
  | none =>
    match fs.stat (r.getFullPath fs filename) with
    | .error err => !err.isNotExist
    | .ok _ => true

def ReadFile (r : LocalFileReader) (fs : FileSystem) (filename : String) :
    Except String (Option String) :=
  match r.validateFilename filename with
  | some err => .error ("invalid filename: " ++ err)
  | none =>
    if !r.FileExists fs filename then .error ("file does not exist: " ++ filename)
    else
      match fs.readFile (r.getFullPath fs filename) with
      | .error err => .error ("failed to read file " ++ filename ++ ": " ++ err)
      | .ok content => .ok content

def GetFileInfo (r : LocalFileReader) (fs : FileSystem) (filename : String) :
    Except String FileInfo :=
  match r.validateFilename filename with
  | some err => .error ("invalid filename: " ++ err)
  | none =>
    if !r.FileExists fs filename then .error ("file does not exist: " ++ filename)
    else
      match fs.stat (r.getFullPath fs filename) with
      | .error err => .error ("failed to get file info for " ++ filename ++ ": " ++ err.message)
      | .ok stat => .ok { Name := stat.Name, Size := stat.Size, ModTime := stat.ModTime,
                          IsDir := stat.IsDir }

def IsDirectory (r : LocalFileReader) (fs : FileSystem) (path : String) : Bool :=
  match r.validateFilename path with
  | some _ => false
  | none =>
    match fs.stat (r.getFullPath fs path) with
    | .error _ => false
    | .ok stat => stat.IsDir

def GetFileSize (r : LocalFileReader) (fs : FileSystem) (filename : String) :
    Except String Int :=
  match r.validateFilename filename with
  | some err => .error ("invalid filename: " ++ err)
  | none =>
    if !r.FileExists fs filename then .error ("file does not exist: " ++ filename)
    else
      match fs.stat (r.getFullPath fs filename) with
      | .error err => .error ("failed to get file size for " ++ filename ++ ": " ++ err.message)
      | .ok stat => .ok stat.Size

def GetFileModTime (r : LocalFileReader) (fs : FileSystem) (filename : String) :
    Except String Int :=
  match r.validateFilename filename with
  | some err => .error ("invalid filename: " ++ err)
  | none =>
    if !r.FileExists fs filename then .error ("file does not exist: " ++ filename)
    else
      match fs.stat (r.getFullPath fs filename) with
      | .error err =>
        .error ("failed to get file mod time for " ++ filename ++ ": " ++ err.message)
      | .ok stat => .ok stat.ModTime

def toFileReader (r : LocalFileReader) (fs : FileSystem) : FileReader :=
  { ReadFile := r.ReadFile fs, FileExists := r.FileExists fs }

end LocalFileReader

/-- A name lies under the base path when it is the base path or a path inside
the directory it names. -/
def liesUnder (basePath name : String) : Bool :=
  name = basePath || startsWith name (if endsWith basePath "/" then basePath else basePath ++ "/")

/-- A file system holding the one file `/srv/app-other/file`, with content
`secret`; paths are joined with a `/`. -/
def siblingFileSystem : FileSystem :=
  { stat := fun path =>
      if path = "/srv/app-other/file" then
        .ok { Name := "file", Size := 6, ModTime := 0, IsDir := false }
      else .error { message := "stat " ++ path ++ ": no such file or directory",
                    isNotExist := true },
    readFile := fun path =>
      if path = "/srv/app-other/file" then .ok (some "secret")
      else .error ("open " ++ path ++ ": no such file or directory"),
    join := fun dir name => dir ++ "/" ++ name,
    abs := fun path => if IsAbs path then .ok path else .ok ("/" ++ path) }

/-! ## Notions used to state the cancellation properties -/

/-- The filenames a state accounts for: those with an outcome on `results` or
`errors`, those held by a worker, those in `jobs` and those not yet sent. -/
def poolCount (s : PoolState) : Nat :=
  s.results.length + s.errors.length + (heldFiles s.workers).length + s.jobs.length +
    s.unsent.length

/-- What holds in every state of a run on `filenames` that starts with the
context cancelled with error `e`: nothing is processed, every error is `e`, and
a worker returned without an error only when `jobs` was closed and empty. -/
def CancelledInv (p : FilePipeline) (e : String) (filenames : List String) (s : PoolState) :
    Prop :=
  s.ctx = some e ∧
  s.workers.length = p.getWorkerCount ∧
  s.results = [] ∧
  s.errors = List.replicate s.errors.length e ∧
  (∀ w, w ∈ s.workers → ∀ f, w ≠ .processing f) ∧
  (s.jobsClosed = true → s.unsent = []) ∧
  s.errors.length + (heldFiles s.workers).length + s.jobs.length + s.unsent.length =
    filenames.length ∧
  s.errors.length ≤ s.workers.count .returned ∧
  (s.errors.length < s.workers.count .returned → s.jobs = [] ∧ s.jobsClosed = true)

/-! ## Calls on a pipeline -/

/-- A call of one of the exported methods of `FilePipeline`, with its
arguments (for `ProcessFiles` also the schedule of the worker pool). -/
inductive PipelineCall where
  | RegisterProcessor : Option FileProcessor → PipelineCall
  | ProcessFile : Context → String → PipelineCall
  | ProcessFiles : Context → Option (List String) → List Event → PipelineCall
  | GetProcessors : PipelineCall

/-- The pipeline after a call: `RegisterProcessor` is the only exported method
that assigns to a field of the pipeline. -/
def afterCall (p : FilePipeline) : PipelineCall → FilePipeline
  | .RegisterProcessor processor => (p.RegisterProcessor processor).1
  | .ProcessFile _ _ => p
  | .ProcessFiles _ _ _ => p
  | .GetProcessors => p

/-- The pipeline after a sequence of calls. -/
def afterCalls (p : FilePipeline) (calls : List PipelineCall) : FilePipeline :=
  calls.foldl afterCall p

/-! ## Notions used to state the properties of repeated INI sections -/

/-- One key-value line applied to the mapping of a section: what
`parseINILine` does inside a section to a line that is no section header. -/
def sectionLine (m : DataMap) (line : String) : DataMap :=
  if isEmptyLine (trimLine line) || isINIComment (trimLine line) then m
  else
    match parseINIKeyValue (trimLine line) with
    | (key, value, true) => mapSet m key (.str (removeQuotes value))
    | (_, _, false) => m

/-- The mapping made of the key-value lines of `body`, applied in order to an
empty mapping. -/
def sectionBody (body : List String) : DataMap :=
  body.foldl sectionLine createEmptyResult

/-! # Theorems -/

/-! ## Maps -/

theorem mapGet_mapSet {β : Type} (m : List (String × β)) (k : String) (v : β) (key : String) :
    mapGet (mapSet m k v) key = if k = key then some v else mapGet m key := by
  induction m with
  | nil => simp [mapSet, mapGet]
  | cons kv m ih =>
    obtain ⟨k0, w⟩ := kv
    by_cases h0 : k0 = k
    · subst h0
      by_cases h1 : k0 = key <;> simp [mapSet, mapGet, h1]
    · by_cases h1 : k0 = key
      · subst h1
        have : ¬ k = k0 := fun h => h0 h.symm
        simp [mapSet, mapGet, h0, this]
      · simp [mapSet, mapGet, h0, h1, ih]

theorem mapGet_foldl_mapSet {β : Type} (exts : List String) (v : β) (m : List (String × β))
    (key : String) :
    mapGet (exts.foldl (fun acc ext => mapSet acc ext v) m) key =
      if key ∈ exts then some v else mapGet m key := by
  induction exts generalizing m with
  | nil => simp
  | cons e exts ih =>
    simp only [List.foldl_cons, ih, mapGet_mapSet, List.mem_cons]
    by_cases h1 : key ∈ exts
    · simp [h1]
    · by_cases h2 : e = key
      · subst h2; simp [h1]
      · have : ¬ key = e := fun h => h2 h.symm
        simp [h1, h2, this]

/-! ## Registry -/

theorem hasExtensionOverlap_iff (ext1 ext2 : List String) :
    ParserRegistry.hasExtensionOverlap ext1 ext2 = true ↔ ∃ e, e ∈ ext1 ∧ e ∈ ext2 := by
  simp [ParserRegistry.hasExtensionOverlap, List.any_eq_true]

theorem validateNoConflicts_isSome_iff (r : ParserRegistry) (d : FileProcessor) :
    (r.validateNoConflicts d).isSome = true ↔
      ∃ e, e ∈ d.GetSupportedExtensions ∧ ∃ q, q ∈ r.processors ∧ e ∈ q.GetSupportedExtensions := by
  unfold ParserRegistry.validateNoConflicts
  by_cases h : r.processors.any (fun existing =>
      ParserRegistry.hasExtensionOverlap d.GetSupportedExtensions existing.GetSupportedExtensions) = true
  · rw [if_pos h]
    simp only [Option.isSome_some, true_iff]
    rw [List.any_eq_true] at h
    obtain ⟨q, hq, hov⟩ := h
    obtain ⟨e, he1, he2⟩ := (hasExtensionOverlap_iff _ _).1 hov
    exact ⟨e, he1, q, hq, he2⟩
  · rw [if_neg h]
    simp only [Option.isSome_none, Bool.false_eq_true, false_iff]
    rintro ⟨e, he1, q, hq, he2⟩
    apply h
    rw [List.any_eq_true]
    exact ⟨q, hq, (hasExtensionOverlap_iff _ _).2 ⟨e, he1, he2⟩⟩

theorem registerProcessor_error_iff (r : ParserRegistry) (d : FileProcessor) :
    (r.RegisterProcessor (some d)).2.isSome = true ↔ (r.validateNoConflicts d).isSome = true := by
  unfold ParserRegistry.RegisterProcessor
  cases h : r.validateNoConflicts d <;> simp [h]

theorem registerProcessor_of_conflict (r : ParserRegistry) (d : FileProcessor)
    (h : (r.validateNoConflicts d).isSome = true) : (r.RegisterProcessor (some d)).1 = r := by
  unfold ParserRegistry.RegisterProcessor
  cases h1 : r.validateNoConflicts d with
  | none => simp [h1] at h
  | some err => simp [h1]

theorem registerProcessor_of_free (r : ParserRegistry) (d : FileProcessor)
    (h : r.validateNoConflicts d = none) :
    r.RegisterProcessor (some d) =
      ({ processors := r.processors ++ [d],
         byExtension := d.GetSupportedExtensions.foldl (fun m ext => mapSet m ext d) r.byExtension },
       none) := by
  unfold ParserRegistry.RegisterProcessor
  simp [h]

/-- C4. `RegisterProcessor` on a non-nil decoder fails exactly when one of its
extensions is claimed by some registered decoder; a failing call leaves the
registry as it was; a successful call appends the decoder and indexes every
one of its extensions to it. -/
theorem registerProcessor_contract (r : ParserRegistry) (d : FileProcessor) :
    ((r.RegisterProcessor (some d)).2.isSome = true ↔
      ∃ e, e ∈ d.GetSupportedExtensions ∧
        ∃ q, q ∈ r.processors ∧ e ∈ q.GetSupportedExtensions) ∧
    ((r.RegisterProcessor (some d)).2.isSome = true → (r.RegisterProcessor (some d)).1 = r) ∧
    ((r.RegisterProcessor (some d)).2 = none →
      (r.RegisterProcessor (some d)).1.processors = r.processors ++ [d] ∧
      ∀ e, e ∈ d.GetSupportedExtensions →
        mapGet (r.RegisterProcessor (some d)).1.byExtension e = some d) := by
  refine ⟨?_, ?_, ?_⟩
  · rw [registerProcessor_error_iff, validateNoConflicts_isSome_iff]
  · intro h
    exact registerProcessor_of_conflict r d ((registerProcessor_error_iff r d).1 h)
  · intro h
    have hfree : r.validateNoConflicts d = none := by
      cases hv : r.validateNoConflicts d with
      | none => rfl
      | some err =>
        have : (r.RegisterProcessor (some d)).2.isSome = true :=
          (registerProcessor_error_iff r d).2 (by simp [hv])
        simp [h] at this
    rw [registerProcessor_of_free r d hfree]
    refine ⟨rfl, ?_⟩
    intro e he
    simp [mapGet_foldl_mapSet, he]

theorem validateNoConflicts_eq_none_iff (r : ParserRegistry) (d : FileProcessor) :
    r.validateNoConflicts d = none ↔
      ∀ q, q ∈ r.processors → ∀ e, e ∈ d.GetSupportedExtensions → e ∉ q.GetSupportedExtensions := by
  have h := validateNoConflicts_isSome_iff r d
  constructor
  · intro hn q hq e he heq
    have : (r.validateNoConflicts d).isSome = true := h.2 ⟨e, he, q, hq, heq⟩
    simp [hn] at this
  · intro hall
    cases hv : r.validateNoConflicts d with
    | none => rfl
    | some err =>
      obtain ⟨e, he, q, hq, heq⟩ := h.1 (by simp [hv])
      exact absurd heq (hall q hq e he)

theorem registerProcessor_cases (r : ParserRegistry) (c : Option FileProcessor) :
    (r.RegisterProcessor c).1 = r ∨
    ∃ d, c = some d ∧ r.validateNoConflicts d = none ∧
      (r.RegisterProcessor c).1 =
        { processors := r.processors ++ [d],
          byExtension := d.GetSupportedExtensions.foldl (fun m ext => mapSet m ext d) r.byExtension } := by
  cases c with
  | none => left; rfl
  | some d =>
    cases hv : r.validateNoConflicts d with
    | some err =>
      left
      exact registerProcessor_of_conflict r d (by simp [hv])
    | none =>
      right
      exact ⟨d, rfl, hv, by rw [registerProcessor_of_free r d hv]⟩

theorem extensionsDisjoint_symm {a b : FileProcessor} (h : extensionsDisjoint a b) :
    extensionsDisjoint b a :=
  fun e hb ha => h e ha hb

theorem wellFormed_empty : ParserRegistry.empty.WellFormed := by
  refine ⟨List.Pairwise.nil, ?_⟩
  intro e d
  simp [ParserRegistry.empty, mapGet]

theorem wellFormed_registerProcessor (r : ParserRegistry) (c : Option FileProcessor)
    (hr : r.WellFormed) : (r.RegisterProcessor c).1.WellFormed := by
  rcases registerProcessor_cases r c with h | ⟨d, _, hfree, h⟩
  · rw [h]; exact hr
  · rw [h]
    have hdis := (validateNoConflicts_eq_none_iff r d).1 hfree
    obtain ⟨hpw, hidx⟩ := hr
    refine ⟨?_, ?_⟩
    · show (r.processors ++ [d]).Pairwise extensionsDisjoint
      rw [List.pairwise_append]
      refine ⟨hpw, List.pairwise_singleton _ _, ?_⟩
      intro q hq q2 hq2
      rw [List.mem_singleton] at hq2
      subst hq2
      exact fun e heq hed => hdis q hq e hed heq
    · intro e d2
      show mapGet (d.GetSupportedExtensions.foldl (fun m ext => mapSet m ext d) r.byExtension) e
          = some d2 ↔ (d2 ∈ r.processors ++ [d] ∧ e ∈ d2.GetSupportedExtensions)
      rw [mapGet_foldl_mapSet, List.mem_append, List.mem_singleton]
      by_cases he : e ∈ d.GetSupportedExtensions
      · rw [if_pos he]
        constructor
        · intro hd
          have : d = d2 := Option.some.inj hd
          subst this
          exact ⟨Or.inr rfl, he⟩
        · rintro ⟨hmem | heq, he2⟩
          · exact absurd he2 (hdis d2 hmem e he)
          · rw [heq]
      · rw [if_neg he, hidx]
        constructor
        · rintro ⟨hmem, he2⟩
          exact ⟨Or.inl hmem, he2⟩
        · rintro ⟨hmem | heq, he2⟩
          · exact ⟨hmem, he2⟩
          · subst heq
            exact absurd he2 he

theorem wellFormed_registerCalls (r : ParserRegistry) (calls : List (Option FileProcessor))
    (hr : r.WellFormed) : (registerCalls r calls).WellFormed := by
  induction calls generalizing r with
  | nil => exact hr
  | cons c calls ih => exact ih _ (wellFormed_registerProcessor r c hr)

theorem index_kept_registerProcessor (r : ParserRegistry) (c : Option FileProcessor)
    (hr : r.WellFormed) (e : String) (d : FileProcessor)
    (h : mapGet r.byExtension e = some d) :
    mapGet (r.RegisterProcessor c).1.byExtension e = some d := by
  rcases registerProcessor_cases r c with h1 | ⟨d2, _, hfree, h1⟩
  · rw [h1]; exact h
  · rw [h1]
    show mapGet (d2.GetSupportedExtensions.foldl (fun m ext => mapSet m ext d2) r.byExtension) e
      = some d
    rw [mapGet_foldl_mapSet]
    have hdis := (validateNoConflicts_eq_none_iff r d2).1 hfree
    obtain ⟨hmem, he⟩ := (hr.2 e d).1 h
    have hne : e ∉ d2.GetSupportedExtensions := fun he2 => hdis d hmem e he2 he
    rw [if_neg hne, h]

theorem index_kept_registerCalls (r : ParserRegistry) (calls : List (Option FileProcessor))
    (hr : r.WellFormed) (e : String) (d : FileProcessor)
    (h : mapGet r.byExtension e = some d) :
    mapGet (registerCalls r calls).byExtension e = some d := by
  induction calls generalizing r with
  | nil => exact h
  | cons c calls ih =>
    exact ih _ (wellFormed_registerProcessor r c hr) (index_kept_registerProcessor r c hr e d h)

/-- C5. After any sequence of `RegisterProcessor` calls on an empty registry,
decoders at different positions of the decoder list claim no common
extension, the index maps an extension to a decoder exactly when that decoder
is registered and claims it, and an index entry survives every later call. -/
theorem registry_invariant (calls : List (Option FileProcessor)) :
    (∀ (i j : Nat) (hi : i < (registerCalls ParserRegistry.empty calls).processors.length)
        (hj : j < (registerCalls ParserRegistry.empty calls).processors.length),
        i ≠ j → ∀ e,
          e ∈ ((registerCalls ParserRegistry.empty calls).processors.get
                ⟨i, hi⟩).GetSupportedExtensions →
          e ∉ ((registerCalls ParserRegistry.empty calls).processors.get
                ⟨j, hj⟩).GetSupportedExtensions) ∧
    (∀ e d, mapGet (registerCalls ParserRegistry.empty calls).byExtension e = some d ↔
        (d ∈ (registerCalls ParserRegistry.empty calls).processors ∧
          e ∈ d.GetSupportedExtensions)) ∧
    (∀ (more : List (Option FileProcessor)) e d,
        mapGet (registerCalls ParserRegistry.empty calls).byExtension e = some d →
        mapGet (registerCalls (registerCalls ParserRegistry.empty calls) more).byExtension e
          = some d) := by
  have hwf := wellFormed_registerCalls ParserRegistry.empty calls wellFormed_empty
  refine ⟨?_, hwf.2, ?_⟩
  · intro i j hi hj hij e
    have hpw := List.pairwise_iff_getElem.1 hwf.1
    rcases Nat.lt_or_gt_of_ne hij with hlt | hgt
    · exact hpw i j hi hj hlt e
    · exact extensionsDisjoint_symm (hpw j i hj hi hgt) e
  · intro more e d h
    exact index_kept_registerCalls _ more hwf e d h

/-! ## Extensions of filenames -/

theorem extScan_eq (xs acc : List Char) :
    extScan xs acc =
      if '.' ∈ xs.takeWhile (fun c => c ≠ '/') then
        '.' :: (((xs.takeWhile (fun c => c ≠ '/')).takeWhile (fun c => c ≠ '.')).reverse ++ acc)
      else [] := by
  induction xs generalizing acc with
  | nil => simp [extScan]
  | cons c rest ih =>
    by_cases h1 : c = '/'
    · subst h1; simp [extScan]
    · by_cases h2 : c = '.'
      · subst h2; simp [extScan]
      · have h3 : ¬ '.' = c := fun h => h2 h.symm
        simp only [extScan, if_neg h1, if_neg h2, ih]
        simp [List.takeWhile_cons, h1, h2, h3]

theorem ext_data (filename : String) :
    (Ext filename).data =
      if '.' ∈ finalElement filename.data then
        '.' :: afterLastDot (finalElement filename.data)
      else [] := by
  simp [Ext, extScan_eq, finalElement, afterLastDot]

theorem toLower_eq_empty_iff (t : List Char) : ToLower ⟨t⟩ = "" ↔ t = [] := by
  constructor
  · intro h
    have h2 : (ToLower ⟨t⟩).data = [] := by rw [h]
    simpa [ToLower] using h2
  · intro h
    subst h
    rfl

theorem normalizeExtension_dot (r : ParserRegistry) (t : List Char) :
    r.normalizeExtension ⟨'.' :: t⟩ = ToLower ⟨t⟩ := by
  simp [ParserRegistry.normalizeExtension, trimLeading, startsWith, List.isPrefixOf]

theorem getFileExtension_eq (r : ParserRegistry) (filename : String) :
    r.getFileExtension filename =
      if '.' ∈ finalElement filename.data then loweredExtension filename else "" := by
  have h := ext_data filename
  unfold ParserRegistry.getFileExtension
  by_cases hd : '.' ∈ finalElement filename.data
  · rw [if_pos hd] at h
    rw [if_pos hd]
    have : Ext filename = ⟨'.' :: afterLastDot (finalElement filename.data)⟩ := by
      rw [← h]
    rw [this, normalizeExtension_dot]
    rfl
  · rw [if_neg hd] at h
    rw [if_neg hd]
    have : Ext filename = ⟨[]⟩ := by rw [← h]
    rw [this]
    rfl

/-- `GetProcessor` in terms of the final path element and the text after its
last dot. -/
theorem getProcessor_eq (r : ParserRegistry) (filename : String) :
    r.GetProcessor filename =
      if filename = "" then .error "filename cannot be empty"
      else if '.' ∉ finalElement filename.data ∨ afterLastDot (finalElement filename.data) = []
      then .error ("no extension found in filename: " ++ filename)
      else
        match mapGet r.byExtension (loweredExtension filename) with
        | none => .error ("no processor found for extension: " ++ loweredExtension filename)
        | some processor => .ok processor := by
  unfold ParserRegistry.GetProcessor
  by_cases h0 : filename = ""
  · simp [h0]
  · simp only [if_neg h0, getFileExtension_eq]
    by_cases hd : '.' ∈ finalElement filename.data
    · simp only [if_pos hd]
      by_cases he : afterLastDot (finalElement filename.data) = []
      · have : loweredExtension filename = "" := (toLower_eq_empty_iff _).2 he
        simp [this, he]
      · have : ¬ loweredExtension filename = "" := fun h => he ((toLower_eq_empty_iff _).1 h)
        simp [this, he, hd]
    · simp [hd]

theorem ne_empty_of_data_cons (c : Char) (t : List Char) : (⟨c :: t⟩ : String) ≠ "" := by
  intro h
  have h2 : (⟨c :: t⟩ : String).data = [] := by rw [h]
  simp at h2

theorem extScan_append_dot (xs rest acc : List Char)
    (h1 : '.' ∉ xs) (h2 : '/' ∉ xs) :
    extScan (xs ++ '.' :: rest) acc = '.' :: (xs.reverse ++ acc) := by
  induction xs generalizing acc with
  | nil => simp [extScan]
  | cons c xs ih =>
    have hc1 : c ≠ '.' := fun h => h1 (by rw [h]; exact List.mem_cons_self _ _)
    have hc2 : c ≠ '/' := fun h => h2 (by rw [h]; exact List.mem_cons_self _ _)
    have h1t : '.' ∉ xs := fun h => h1 (List.mem_cons_of_mem _ h)
    have h2t : '/' ∉ xs := fun h => h2 (List.mem_cons_of_mem _ h)
    have hstep : extScan (c :: xs ++ '.' :: rest) acc = extScan (xs ++ '.' :: rest) (c :: acc) := by
      simp only [List.cons_append, extScan, if_neg hc1, if_neg hc2]
      rfl
    rw [hstep, ih _ h1t h2t]
    simp

theorem ext_of_suffix (stem e : String) (h1 : '.' ∉ e.data) (h2 : '/' ∉ e.data) :
    Ext (stem ++ "." ++ e) = ⟨'.' :: e.data⟩ := by
  apply String.ext
  have hdata : (stem ++ "." ++ e).data.reverse = e.data.reverse ++ '.' :: stem.data.reverse := by
    simp
  show extScan (stem ++ "." ++ e).data.reverse [] = '.' :: e.data
  rw [hdata, extScan_append_dot _ _ _ (by simpa using h1) (by simpa using h2)]
  simp

theorem getProcessor_of_suffix (r : ParserRegistry) (stem e : String) (d : FileProcessor)
    (hn : isNormalizedExtension e) (hm : mapGet r.byExtension e = some d) :
    r.GetProcessor (stem ++ "." ++ e) = .ok d := by
  obtain ⟨hne, hlow, h1, h2⟩ := hn
  have hf : stem ++ "." ++ e ≠ "" := by
    intro h
    have h3 : (stem ++ "." ++ e).data = [] := by rw [h]
    simp at h3
  have hext : r.getFileExtension (stem ++ "." ++ e) = e := by
    unfold ParserRegistry.getFileExtension
    rw [ext_of_suffix stem e h1 h2, normalizeExtension_dot]
    exact hlow
  unfold ParserRegistry.GetProcessor
  rw [if_neg hf]
  simp only [hext, if_neg hne, hm]

/-- C7: `CreateDefaultRegistry` never returns a registry. The registry it gets
from `NewParserRegistry` already holds the eight decoders, so its own first
registration (YAML) is rejected and it returns the conflict error. -/
theorem createDefaultRegistry_fails (L : Externals) :
    CreateDefaultRegistry L =
      .ok (.error ("failed to register processor: processor conflicts with existing: " ++
        "extension conflict between processors")) :=
  rfl

/-- C8. `NewParserRegistry` does not panic: the eight registrations raise no
conflict, the registry holds exactly the eight built-in decoders, and a
filename ending in any of the nine extensions resolves to the decoder of that
format. -/
theorem newParserRegistry_ok (L : Externals) :
    ∃ r, NewParserRegistry L = .ok r ∧
      r.processors = builtinProcessors L ∧
      r.GetProcessorCount = 8 ∧
      ∀ stem : String,
        r.GetProcessor (stem ++ "." ++ "yaml") = .ok (NewYAMLProcessor.toFileProcessor L) ∧
        r.GetProcessor (stem ++ "." ++ "yml") = .ok (NewYAMLProcessor.toFileProcessor L) ∧
        r.GetProcessor (stem ++ "." ++ "json") = .ok (NewJSONProcessor.toFileProcessor L) ∧
        r.GetProcessor (stem ++ "." ++ "toml") = .ok (NewTOMLProcessor.toFileProcessor L) ∧
        r.GetProcessor (stem ++ "." ++ "properties") =
          .ok (NewPropertiesProcessor.toFileProcessor L) ∧
        r.GetProcessor (stem ++ "." ++ "ini") = .ok (NewINIProcessor.toFileProcessor L) ∧
        r.GetProcessor (stem ++ "." ++ "hcl") = .ok (NewHCLProcessor.toFileProcessor L) ∧
        r.GetProcessor (stem ++ "." ++ "xml") = .ok (NewXMLProcessor.toFileProcessor L) ∧
        r.GetProcessor (stem ++ "." ++ "env") = .ok (NewENVProcessor.toFileProcessor L) := by
  refine ⟨_, rfl, rfl, rfl, ?_⟩
  intro stem
  refine ⟨?_, ?_, ?_, ?_, ?_, ?_, ?_, ?_, ?_⟩ <;>
    exact getProcessor_of_suffix _ stem _ _ (by unfold isNormalizedExtension; decide) rfl

/-! ## The worker pool without cancellation -/

theorem heldFiles_cons (x : WorkerPhase) (xs : List WorkerPhase) :
    heldFiles (x :: xs) = (heldFile x).toList ++ heldFiles xs := by
  unfold heldFiles
  cases h : heldFile x <;> simp [List.filterMap_cons, h]

theorem heldFiles_set (workers : List WorkerPhase) (i : Nat) (w w2 : WorkerPhase)
    (h : workers[i]? = some w) :
    ((heldFile w).toList ++ heldFiles (workers.set i w2)).Perm
      ((heldFile w2).toList ++ heldFiles workers) := by
  induction workers generalizing i with
  | nil => simp at h
  | cons x xs ih =>
    cases i with
    | zero =>
      simp at h
      subst h
      simp only [List.set_cons_zero, heldFiles_cons]
      rw [← Multiset.coe_eq_coe]
      simp only [← Multiset.coe_add]
      abel
    | succ i =>
      simp at h
      have := ih i h
      simp only [List.set_cons_succ, heldFiles_cons]
      rw [← Multiset.coe_eq_coe] at this ⊢
      simp only [← Multiset.coe_add] at this ⊢
      calc _ = ((heldFile x).toList : Multiset String) +
            (↑(heldFile w).toList + ↑(heldFiles (xs.set i w2))) := by abel
        _ = _ := by rw [this]; abel

theorem returned_mem_set (workers : List WorkerPhase) (i : Nat) (w2 : WorkerPhase)
    (hw2 : w2 ≠ .returned) (h : WorkerPhase.returned ∈ workers.set i w2) :
    WorkerPhase.returned ∈ workers := by
  rcases List.mem_or_eq_of_mem_set h with h1 | h1
  · exact h1
  · exact absurd h1.symm hw2

theorem successesOf_append (p : FilePipeline) (ctx : Context) (a b : List String) :
    successesOf p ctx (a ++ b) = successesOf p ctx a ++ successesOf p ctx b := by
  simp [successesOf]

theorem failuresOf_append (p : FilePipeline) (ctx : Context) (a b : List String) :
    failuresOf p ctx (a ++ b) = failuresOf p ctx a ++ failuresOf p ctx b := by
  simp [failuresOf]

theorem poolInv_step (p : FilePipeline) (filenames : List String) (s s2 : PoolState)
    (e : Event) (hinv : PoolInv p filenames s) (hnc : ∀ msg, e ≠ .cancel msg)
    (hstep : p.step s e = some s2) : PoolInv p filenames s2 := by
  obtain ⟨hctx, hlen, hclosed, hret, done, hperm, hres, herr⟩ := hinv
  cases e with
  | cancel msg => exact absurd rfl (hnc msg)
  | send =>
    cases hu : s.unsent with
    | nil => simp [FilePipeline.step, hu] at hstep
    | cons f rest =>
      simp only [FilePipeline.step, hu, Option.some.injEq] at hstep
      subst hstep
      have hnotclosed : ¬ s.jobsClosed = true := fun h => by
        have := hclosed h
        rw [hu] at this
        exact List.cons_ne_nil _ _ this
      refine ⟨hctx, hlen, fun h => absurd h hnotclosed,
        fun h => absurd (hret h).2 hnotclosed, done, ?_, hres, herr⟩
      rw [hu] at hperm
      simpa using hperm
  | close =>
    by_cases hc : (s.unsent.isEmpty && !s.jobsClosed) = true
    · simp only [FilePipeline.step, hc, if_true, Option.some.injEq] at hstep
      subst hstep
      simp only [Bool.and_eq_true, List.isEmpty_iff, Bool.not_eq_true'] at hc
      refine ⟨hctx, hlen, fun _ => hc.1, ?_, done, hperm, hres, herr⟩
      intro h
      have := (hret h).2
      rw [hc.2] at this
      exact absurd this (by simp)
    · simp [FilePipeline.step, hc] at hstep
  | receive i =>
    cases hw : s.workers[i]? with
    | none => simp [FilePipeline.step, hw] at hstep
    | some w =>
      cases w with
      | receiving =>
        cases hj : s.jobs with
        | nil =>
          by_cases hc : s.jobsClosed = true
          · simp only [FilePipeline.step, hw, hj, hc, if_true, Option.some.injEq] at hstep
            subst hstep
            have hh := heldFiles_set s.workers i .receiving .returned hw
            simp only [heldFile, Option.toList, List.nil_append] at hh
            refine ⟨hctx, by simpa using hlen, fun _ => hclosed hc, fun _ => ⟨rfl, rfl⟩,
              done, ?_, hres, herr⟩
            refine List.Perm.trans ?_ hperm
            rw [hj]
            exact ((hh.append_left done).append_right []).append_right s.unsent
          · simp [FilePipeline.step, hw, hj, hc] at hstep
        | cons f rest =>
          simp only [FilePipeline.step, hw, hj, Option.some.injEq] at hstep
          subst hstep
          have hh := heldFiles_set s.workers i .receiving (.selecting f) hw
          simp only [heldFile, Option.toList, List.nil_append] at hh
          refine ⟨hctx, by simpa using hlen, hclosed, ?_, done, ?_, hres, herr⟩
          · intro h
            have h2 := (hret (returned_mem_set _ _ _ (by simp) h)).1
            rw [hj] at h2
            exact absurd h2 (List.cons_ne_nil _ _)
          · refine List.Perm.trans ?_ hperm
            rw [hj]
            show (done ++ heldFiles (s.workers.set i (.selecting f)) ++ rest ++ s.unsent).Perm
              (done ++ heldFiles s.workers ++ f :: rest ++ s.unsent)
            rw [← Multiset.coe_eq_coe] at hh ⊢
            simp only [← Multiset.coe_add, ← Multiset.cons_coe, ← Multiset.singleton_add]
              at hh ⊢
            rw [hh]
            abel
      | selecting f => simp [FilePipeline.step, hw] at hstep
      | processing f => simp [FilePipeline.step, hw] at hstep
      | returned => simp [FilePipeline.step, hw] at hstep
  | select i =>
    cases hw : s.workers[i]? with
    | none => simp [FilePipeline.step, hw] at hstep
    | some w =>
      cases w with
      | selecting f =>
        simp only [FilePipeline.step, hw, hctx, Option.some.injEq] at hstep
        subst hstep
        have hh := heldFiles_set s.workers i (.selecting f) (.processing f) hw
        simp only [heldFile, Option.toList, List.singleton_append] at hh
        have hh2 := (List.perm_cons f).1 hh
        refine ⟨rfl, by simpa using hlen, hclosed,
          fun h => hret (returned_mem_set _ _ _ (by simp) h), done, ?_, hres, herr⟩
        refine List.Perm.trans ?_ hperm
        exact ((hh2.append_left done).append_right s.jobs).append_right s.unsent
      | receiving => simp [FilePipeline.step, hw] at hstep
      | processing f => simp [FilePipeline.step, hw] at hstep
      | returned => simp [FilePipeline.step, hw] at hstep
  | process i =>
    cases hw : s.workers[i]? with
    | none => simp [FilePipeline.step, hw] at hstep
    | some w =>
      cases w with
      | processing f =>
        have hh := heldFiles_set s.workers i (.processing f) .receiving hw
        simp only [heldFile, Option.toList, List.singleton_append, List.nil_append] at hh
        have hperm2 : (done ++ [f] ++ heldFiles (s.workers.set i .receiving) ++ s.jobs ++
            s.unsent).Perm filenames := by
          refine List.Perm.trans ?_ hperm
          rw [← Multiset.coe_eq_coe] at hh ⊢
          simp only [← Multiset.coe_add, ← Multiset.cons_coe, ← Multiset.singleton_add] at hh ⊢
          rw [← hh]
          abel
        cases hpf : p.ProcessFile none f with
        | ok d =>
          simp only [FilePipeline.step, hw, hctx, FilePipeline.processFileWithResult, hpf,
            Option.some.injEq] at hstep
          subst hstep
          refine ⟨rfl, by simpa using hlen, hclosed,
            fun h => hret (returned_mem_set _ _ _ (by simp) h), done ++ [f], hperm2, ?_, ?_⟩
          · show (s.results ++ [_]).filterMap (fun r : fileProcessingResult => r.Data) = _
            rw [List.filterMap_append, hres, successesOf_append]
            simp [successesOf, successOf, hpf]
          · show s.errors = _
            rw [failuresOf_append, ← herr]
            simp [failuresOf, failureOf, hpf]
        | error err =>
          simp only [FilePipeline.step, hw, hctx, FilePipeline.processFileWithResult, hpf,
            Option.some.injEq] at hstep
          subst hstep
          refine ⟨rfl, by simpa using hlen, hclosed,
            fun h => hret (returned_mem_set _ _ _ (by simp) h), done ++ [f], hperm2, ?_, ?_⟩
          · show s.results.filterMap (fun r : fileProcessingResult => r.Data) = _
            rw [successesOf_append, ← hres]
            simp [successesOf, successOf, hpf]
          · show s.errors ++ [err] = _
            rw [failuresOf_append, ← herr]
            simp [failuresOf, failureOf, hpf]
      | receiving => simp [FilePipeline.step, hw] at hstep
      | selecting f => simp [FilePipeline.step, hw] at hstep
      | returned => simp [FilePipeline.step, hw] at hstep

theorem poolInv_initial (p : FilePipeline) (filenames : List String) :
    PoolInv p filenames (p.initialPool none filenames) := by
  refine ⟨rfl, by simp [FilePipeline.initialPool], fun h => by simp [FilePipeline.initialPool] at h,
    ?_, [], ?_, rfl, rfl⟩
  · intro h
    simp [FilePipeline.initialPool] at h
  · have : heldFiles (List.replicate p.getWorkerCount .receiving) = [] := by
      unfold heldFiles
      rw [List.filterMap_eq_nil_iff]
      intro w hw
      rw [List.eq_of_mem_replicate hw]
      rfl
    simp [FilePipeline.initialPool, this]

theorem noCancel_cons {e : Event} {sched : List Event} (h : noCancel (e :: sched)) :
    (∀ msg, e ≠ .cancel msg) ∧ noCancel sched := by
  constructor
  · intro msg he
    exact h msg (by rw [he]; exact List.mem_cons_self _ _)
  · intro msg hm
    exact h msg (List.mem_cons_of_mem _ hm)

theorem poolInv_runEvents (p : FilePipeline) (filenames : List String) (sched : List Event)
    (s s2 : PoolState) (hinv : PoolInv p filenames s) (hnc : noCancel sched)
    (hrun : p.runEvents s sched = some s2) : PoolInv p filenames s2 := by
  induction sched generalizing s with
  | nil =>
    simp only [FilePipeline.runEvents, Option.some.injEq] at hrun
    subst hrun
    exact hinv
  | cons e rest ih =>
    obtain ⟨he, hrest⟩ := noCancel_cons hnc
    cases hs : p.step s e with
    | none => simp [FilePipeline.runEvents, hs] at hrun
    | some s1 =>
      simp only [FilePipeline.runEvents, hs] at hrun
      exact ih s1 (poolInv_step p filenames s s1 e hinv he hs) hrest hrun

theorem getWorkerCount_pos (p : FilePipeline) : 0 < p.getWorkerCount := by
  unfold FilePipeline.getWorkerCount
  split
  · omega
  · decide

theorem heldFiles_of_all_returned (workers : List WorkerPhase)
    (h : workers.all (fun w => w = .returned) = true) : heldFiles workers = [] := by
  unfold heldFiles
  rw [List.filterMap_eq_nil_iff]
  intro w hw
  rw [List.all_eq_true] at h
  have := h w hw
  simp at this
  subst this
  rfl

/-- In a finished pool reached without cancellation the channels hold the
outcomes of a permutation of the filenames. -/
theorem poolInv_finished (p : FilePipeline) (filenames : List String) (s : PoolState)
    (hinv : PoolInv p filenames s) (hfin : FilePipeline.poolFinished s = true) :
    (s.results.filterMap (fun r => r.Data)).Perm (successesOf p none filenames) ∧
    s.errors.Perm (failuresOf p none filenames) := by
  obtain ⟨_, hlen, _, hret, done, hperm, hres, herr⟩ := hinv
  simp only [FilePipeline.poolFinished, Bool.and_eq_true, List.isEmpty_iff] at hfin
  obtain ⟨⟨hu, _⟩, hall⟩ := hfin
  have hheld := heldFiles_of_all_returned s.workers hall
  have hmem : WorkerPhase.returned ∈ s.workers := by
    have hpos := getWorkerCount_pos p
    rw [← hlen] at hpos
    obtain ⟨w, hw⟩ := List.exists_mem_of_length_pos hpos
    rw [List.all_eq_true] at hall
    have := hall w hw
    simp at this
    rw [← this]
    exact hw
  have hj := (hret hmem).1
  rw [hheld, hj, hu] at hperm
  simp only [List.append_nil] at hperm
  rw [hres, herr]
  exact ⟨hperm.filterMap _, hperm.filterMap _⟩

/-! ### A complete run exists -/

theorem runEvents_append (p : FilePipeline) (s : PoolState) (a b : List Event) :
    p.runEvents s (a ++ b) = (p.runEvents s a).bind (fun s1 => p.runEvents s1 b) := by
  induction a generalizing s with
  | nil => rfl
  | cons e rest ih =>
    simp only [List.cons_append, FilePipeline.runEvents]
    cases p.step s e with
    | none => rfl
    | some s1 => exact ih s1

theorem run_sends (p : FilePipeline) (s : PoolState) :
    p.runEvents s (List.replicate s.unsent.length .send) =
      some { s with unsent := [], jobs := s.jobs ++ s.unsent } := by
  obtain ⟨ctx, unsent, jobs, closed, workers, results, errors⟩ := s
  induction unsent generalizing jobs with
  | nil => simp [FilePipeline.runEvents]
  | cons f rest ih =>
    simp only [List.length_cons, List.replicate_succ, FilePipeline.runEvents, FilePipeline.step]
    have := ih (jobs ++ [f])
    simp only [List.append_assoc, List.singleton_append] at this
    exact this

theorem run_drain (p : FilePipeline) (ws : List WorkerPhase) (unsent : List String)
    (closed : Bool) (jobs : List String) (results : List fileProcessingResult)
    (errors : List String) :
    ∃ results2 errors2,
      p.runEvents
        { ctx := none, unsent := unsent, jobs := jobs, jobsClosed := closed,
          workers := .receiving :: ws, results := results, errors := errors }
        (drainEvents 0 jobs) =
      some { ctx := none, unsent := unsent, jobs := [], jobsClosed := closed,
             workers := .receiving :: ws, results := results2, errors := errors2 } := by
  induction jobs generalizing results errors with
  | nil => exact ⟨results, errors, rfl⟩
  | cons f rest ih =>
    cases hpf : p.ProcessFile none f with
    | ok d =>
      obtain ⟨r2, e2, h⟩ := ih (results ++ [⟨f, some d, none⟩]) errors
      refine ⟨r2, e2, ?_⟩
      simp only [drainEvents, FilePipeline.runEvents, FilePipeline.step,
        List.getElem?_cons_zero, List.set_cons_zero, FilePipeline.processFileWithResult, hpf]
      exact h
    | error err =>
      obtain ⟨r2, e2, h⟩ := ih results (errors ++ [err])
      refine ⟨r2, e2, ?_⟩
      simp only [drainEvents, FilePipeline.runEvents, FilePipeline.step,
        List.getElem?_cons_zero, List.set_cons_zero, FilePipeline.processFileWithResult, hpf]
      exact h

theorem run_leave (p : FilePipeline) (ctx : Context) (results : List fileProcessingResult)
    (errors : List String) (k n : Nat) :
    p.runEvents
      { ctx := ctx, unsent := [], jobs := [], jobsClosed := true,
        workers := List.replicate k .returned ++ List.replicate n .receiving,
        results := results, errors := errors }
      (leaveEvents k n) =
    some { ctx := ctx, unsent := [], jobs := [], jobsClosed := true,
           workers := List.replicate (k + n) .returned,
           results := results, errors := errors } := by
  induction n generalizing k with
  | zero => simp [leaveEvents, FilePipeline.runEvents]
  | succ n ih =>
    have hget : (List.replicate k WorkerPhase.returned ++
        List.replicate (n + 1) WorkerPhase.receiving)[k]? = some .receiving := by
      rw [List.getElem?_append_right (by simp)]
      simp [List.replicate_succ]
    have hset : (List.replicate k WorkerPhase.returned ++
        List.replicate (n + 1) WorkerPhase.receiving).set k .returned =
        List.replicate (k + 1) .returned ++ List.replicate n .receiving := by
      rw [List.set_append_right _ _ (by simp)]
      have h0 : k - (List.replicate k WorkerPhase.returned).length = 0 := by simp
      rw [h0, List.replicate_succ, List.set_cons_zero, List.replicate_succ', List.append_assoc]
      rfl
    simp only [leaveEvents, FilePipeline.runEvents, FilePipeline.step, hget, hset]
    have := ih (k + 1)
    rw [show k + 1 + n = k + (n + 1) by omega] at this
    exact this

theorem sequentialSchedule_noCancel (p : FilePipeline) (filenames : List String) :
    noCancel (sequentialSchedule p filenames) := by
  have h1 : ∀ (i : Nat) (l : List String) msg, Event.cancel msg ∉ drainEvents i l := by
    intro i l msg
    induction l with
    | nil => simp [drainEvents]
    | cons f rest ih => simp [drainEvents, ih]
  have h2 : ∀ (n i : Nat) msg, Event.cancel msg ∉ leaveEvents i n := by
    intro n
    induction n with
    | zero => intro i msg; simp [leaveEvents]
    | succ n ih => intro i msg; simp [leaveEvents, ih]
  intro msg
  simp [sequentialSchedule, h1, h2, List.mem_replicate]

/-- The sequential schedule is a complete run of the pool on a live context. -/
theorem sequentialSchedule_complete (p : FilePipeline) (filenames : List String) :
    ∃ s, p.runEvents (p.initialPool none filenames) (sequentialSchedule p filenames) = some s ∧
      FilePipeline.poolFinished s = true := by
  obtain ⟨w, hw⟩ : ∃ w, p.getWorkerCount = w + 1 :=
    ⟨p.getWorkerCount - 1, by have := getWorkerCount_pos p; omega⟩
  obtain ⟨r2, e2, hdrain⟩ := run_drain p (List.replicate w .receiving) [] true filenames [] []
  have hleave := run_leave p none r2 e2 0 (w + 1)
  refine ⟨{ ctx := none, unsent := [], jobs := [], jobsClosed := true,
            workers := List.replicate (0 + (w + 1)) .returned, results := r2, errors := e2 },
    ?_, ?_⟩
  · have h0 : p.initialPool none filenames =
        { ctx := none, unsent := filenames, jobs := [], jobsClosed := false,
          workers := .receiving :: List.replicate w .receiving, results := [], errors := [] } := by
      simp [FilePipeline.initialPool, hw, List.replicate_succ]
    have hs : p.runEvents
        { ctx := none, unsent := filenames, jobs := [], jobsClosed := false,
          workers := .receiving :: List.replicate w .receiving, results := [], errors := [] }
        (List.replicate filenames.length .send) =
        some { ctx := none, unsent := [], jobs := filenames, jobsClosed := false,
               workers := .receiving :: List.replicate w .receiving, results := [],
               errors := [] } :=
      run_sends p _
    have hc : p.runEvents
        { ctx := none, unsent := [], jobs := filenames, jobsClosed := false,
          workers := .receiving :: List.replicate w .receiving, results := [], errors := [] }
        [.close] =
        some { ctx := none, unsent := [], jobs := filenames, jobsClosed := true,
               workers := .receiving :: List.replicate w .receiving, results := [],
               errors := [] } := rfl
    have hl : p.runEvents
        { ctx := none, unsent := [], jobs := [], jobsClosed := true,
          workers := .receiving :: List.replicate w .receiving, results := r2, errors := e2 }
        (leaveEvents 0 (w + 1)) =
        some { ctx := none, unsent := [], jobs := [], jobsClosed := true,
               workers := List.replicate (0 + (w + 1)) .returned, results := r2,
               errors := e2 } := hleave
    unfold sequentialSchedule
    rw [runEvents_append, runEvents_append, runEvents_append, h0, hs, Option.some_bind, hc,
      Option.some_bind, hdrain, Option.some_bind, hw, hl]
  · simp [FilePipeline.poolFinished]

/-! ### Every run ends -/

theorem phaseWeight_set (workers : List WorkerPhase) (i : Nat) (w w2 : WorkerPhase)
    (h : workers[i]? = some w) :
    ((workers.set i w2).map phaseWeight).sum + phaseWeight w =
      (workers.map phaseWeight).sum + phaseWeight w2 := by
  induction workers generalizing i with
  | nil => simp at h
  | cons x xs ih =>
    cases i with
    | zero =>
      simp at h
      subst h
      simp only [List.set_cons_zero, List.map_cons, List.sum_cons]
      omega
    | succ i =>
      simp at h
      have := ih i h
      simp only [List.set_cons_succ, List.map_cons, List.sum_cons]
      omega

/-- Every event lowers the measure. -/
theorem step_decreases (p : FilePipeline) (s s2 : PoolState) (e : Event)
    (hstep : p.step s e = some s2) : poolMeasure s2 < poolMeasure s := by
  obtain ⟨ctx, unsent, jobs, closed, workers, results, errors⟩ := s
  cases e with
  | cancel msg =>
    cases ctx with
    | none =>
      simp only [FilePipeline.step, Option.some.injEq] at hstep
      subst hstep
      simp [poolMeasure]
    | some c => simp [FilePipeline.step] at hstep
  | send =>
    cases unsent with
    | nil => simp [FilePipeline.step] at hstep
    | cons f rest =>
      simp only [FilePipeline.step, Option.some.injEq] at hstep
      subst hstep
      simp only [poolMeasure, List.length_cons, List.length_append, List.length_nil]
      omega
  | close =>
    cases unsent with
    | cons f rest => simp [FilePipeline.step] at hstep
    | nil =>
      cases closed with
      | true => simp [FilePipeline.step] at hstep
      | false =>
        simp only [FilePipeline.step, List.isEmpty_nil, Bool.not_false, Bool.and_self, if_true,
          Option.some.injEq] at hstep
        subst hstep
        simp [poolMeasure]
  | receive i =>
    cases hw : workers[i]? with
    | none => simp [FilePipeline.step, hw] at hstep
    | some w =>
      cases w with
      | receiving =>
        cases jobs with
        | nil =>
          cases closed with
          | false => simp [FilePipeline.step, hw] at hstep
          | true =>
            simp only [FilePipeline.step, hw, if_true, Option.some.injEq] at hstep
            subst hstep
            have := phaseWeight_set workers i .receiving .returned hw
            simp only [poolMeasure, phaseWeight] at this ⊢
            omega
        | cons f rest =>
          simp only [FilePipeline.step, hw, Option.some.injEq] at hstep
          subst hstep
          have := phaseWeight_set workers i .receiving (.selecting f) hw
          simp only [poolMeasure, phaseWeight, List.length_cons] at this ⊢
          omega
      | selecting f => simp [FilePipeline.step, hw] at hstep
      | processing f => simp [FilePipeline.step, hw] at hstep
      | returned => simp [FilePipeline.step, hw] at hstep
  | select i =>
    cases hw : workers[i]? with
    | none => simp [FilePipeline.step, hw] at hstep
    | some w =>
      cases w with
      | selecting f =>
        cases ctx with
        | none =>
          simp only [FilePipeline.step, hw, Option.some.injEq] at hstep
          subst hstep
          have := phaseWeight_set workers i (.selecting f) (.processing f) hw
          simp only [poolMeasure, phaseWeight] at this ⊢
          omega
        | some c =>
          simp only [FilePipeline.step, hw, Option.some.injEq] at hstep
          subst hstep
          have := phaseWeight_set workers i (.selecting f) .returned hw
          simp only [poolMeasure, phaseWeight] at this ⊢
          omega
      | receiving => simp [FilePipeline.step, hw] at hstep
      | processing f => simp [FilePipeline.step, hw] at hstep
      | returned => simp [FilePipeline.step, hw] at hstep
  | process i =>
    cases hw : workers[i]? with
    | none => simp [FilePipeline.step, hw] at hstep
    | some w =>
      cases w with
      | processing f =>
        have := phaseWeight_set workers i (.processing f) .receiving hw
        cases hpf : p.ProcessFile ctx f with
        | ok d =>
          simp only [FilePipeline.step, hw, FilePipeline.processFileWithResult, hpf,
            Option.some.injEq] at hstep
          subst hstep
          simp only [poolMeasure, phaseWeight] at this ⊢
          omega
        | error err =>
          simp only [FilePipeline.step, hw, FilePipeline.processFileWithResult, hpf,
            Option.some.injEq] at hstep
          subst hstep
          simp only [poolMeasure, phaseWeight] at this ⊢
          omega
      | receiving => simp [FilePipeline.step, hw] at hstep
      | selecting f => simp [FilePipeline.step, hw] at hstep
      | returned => simp [FilePipeline.step, hw] at hstep

/-- No run is longer than the measure of the state it starts in. -/
theorem run_length_le (p : FilePipeline) (sched : List Event) (s s2 : PoolState)
    (hrun : p.runEvents s sched = some s2) : sched.length + poolMeasure s2 ≤ poolMeasure s := by
  induction sched generalizing s with
  | nil =>
    simp only [FilePipeline.runEvents, Option.some.injEq] at hrun
    subst hrun
    simp
  | cons e rest ih =>
    cases hs : p.step s e with
    | none => simp [FilePipeline.runEvents, hs] at hrun
    | some s1 =>
      simp only [FilePipeline.runEvents, hs] at hrun
      have h1 := ih s1 hrun
      have h2 := step_decreases p s s1 e hs
      simp only [List.length_cons]
      omega

theorem poolMeasure_initial (p : FilePipeline) (ctx : Context) (filenames : List String) :
    poolMeasure (p.initialPool ctx filenames) ≤ 4 * filenames.length + p.getWorkerCount + 2 := by
  have hsum : ∀ n : Nat, ((List.replicate n WorkerPhase.receiving).map phaseWeight).sum = n := by
    intro n
    induction n with
    | zero => rfl
    | succ n ih => simp [List.replicate_succ, phaseWeight, ih]; omega
  simp only [poolMeasure, FilePipeline.initialPool, hsum]
  split <;> simp <;> omega

/-- A pool that is not finished can take a step other than a cancellation. -/
theorem pool_progress (p : FilePipeline) (s : PoolState)
    (hfin : FilePipeline.poolFinished s = false) :
    ∃ e, (∀ msg, e ≠ .cancel msg) ∧ (p.step s e).isSome = true := by
  obtain ⟨ctx, unsent, jobs, closed, workers, results, errors⟩ := s
  cases unsent with
  | cons f rest => exact ⟨.send, (fun _ h => by cases h), by simp [FilePipeline.step]⟩
  | nil =>
    cases closed with
    | false => exact ⟨.close, (fun _ h => by cases h), by simp [FilePipeline.step]⟩
    | true =>
      simp only [FilePipeline.poolFinished, List.isEmpty_nil, Bool.and_self, Bool.true_and,
        List.all_eq_false] at hfin
      obtain ⟨w, hw, hne⟩ := hfin
      obtain ⟨i, hi, hget⟩ := List.getElem_of_mem hw
      have hget2 : workers[i]? = some w := by
        rw [List.getElem?_eq_getElem hi, hget]
      cases w with
      | returned => simp at hne
      | receiving =>
        refine ⟨.receive i, (fun _ h => by cases h), ?_⟩
        cases jobs <;> simp [FilePipeline.step, hget2]
      | selecting f =>
        refine ⟨.select i, (fun _ h => by cases h), ?_⟩
        cases ctx <;> simp [FilePipeline.step, hget2]
      | processing f =>
        refine ⟨.process i, (fun _ h => by cases h), ?_⟩
        cases hpf : p.ProcessFile ctx f <;>
          simp [FilePipeline.step, hget2, FilePipeline.processFileWithResult, hpf]

/-! ## `ProcessFiles` on a live context -/

theorem validateEach_none (p : FilePipeline) (filenames : List String)
    (h : ∀ f, f ∈ filenames → p.validateFilename f = none) : p.validateEach filenames = none := by
  induction filenames with
  | nil => rfl
  | cons f rest ih =>
    simp only [FilePipeline.validateEach, h f (List.mem_cons_self _ _)]
    exact ih (fun g hg => h g (List.mem_cons_of_mem _ hg))

theorem processFiles_eq_concurrent (p : FilePipeline) (ctx : Context) (filenames : List String)
    (sched : List Event) (hproc : p.processors ≠ []) (hne : filenames ≠ [])
    (hvalid : ∀ f, f ∈ filenames → p.validateFilename f = none) :
    p.ProcessFiles ctx (some filenames) sched = p.processFilesConcurrently ctx filenames sched := by
  have h1 : filenames.length ≠ 0 := fun h => hne (List.length_eq_zero.1 h)
  have h2 : p.processors.length ≠ 0 := fun h => hproc (List.length_eq_zero.1 h)
  simp [FilePipeline.ProcessFiles, FilePipeline.validateFilenames, h1, h2,
    validateEach_none p filenames hvalid]

theorem successesOf_length (p : FilePipeline) (ctx : Context) (filenames : List String) :
    (successesOf p ctx filenames).length =
      filenames.countP (fun f => (p.ProcessFile ctx f).toBool) := by
  induction filenames with
  | nil => rfl
  | cons f rest ih =>
    unfold successesOf at ih ⊢
    cases h : p.ProcessFile ctx f with
    | ok d =>
      have e1 : successOf p ctx f = some d := by simp [successOf, h]
      have e2 : (p.ProcessFile ctx f).toBool = true := by rw [h]; rfl
      rw [List.filterMap_cons_some e1, List.countP_cons, List.length_cons, ih]
      simp only [e2, if_true]
    | error err =>
      have e1 : successOf p ctx f = none := by simp [successOf, h]
      have e2 : ¬ (p.ProcessFile ctx f).toBool = true := by rw [h]; simp [Except.toBool]
      rw [List.filterMap_cons_none e1, List.countP_cons, ih]
      simp [h, Except.toBool]

theorem failuresOf_length (p : FilePipeline) (ctx : Context) (filenames : List String) :
    (failuresOf p ctx filenames).length + (successesOf p ctx filenames).length =
      filenames.length := by
  induction filenames with
  | nil => rfl
  | cons f rest ih =>
    unfold successesOf failuresOf at ih ⊢
    cases h : p.ProcessFile ctx f with
    | ok d =>
      have e1 : successOf p ctx f = some d := by simp [successOf, h]
      have e2 : failureOf p ctx f = none := by simp [failureOf, h]
      rw [List.filterMap_cons_some e1, List.filterMap_cons_none e2, List.length_cons,
        List.length_cons]
      omega
    | error err =>
      have e1 : successOf p ctx f = none := by simp [successOf, h]
      have e2 : failureOf p ctx f = some err := by simp [failureOf, h]
      rw [List.filterMap_cons_none e1, List.filterMap_cons_some e2, List.length_cons,
        List.length_cons]
      omega

/-- What a complete run without cancellation returns. -/
theorem processFilesConcurrently_result (p : FilePipeline) (filenames : List String)
    (sched : List Event) (recs : List ConfigData) (err : Option String)
    (hnc : noCancel sched)
    (h : p.processFilesConcurrently none filenames sched = some (recs, err)) :
    recs.Perm (successesOf p none filenames) ∧
    ∃ errs, errs.Perm (failuresOf p none filenames) ∧
      err = if errs.length > 0 then some ("processing errors: " ++ formatErrors errs) else none := by
  unfold FilePipeline.processFilesConcurrently at h
  cases hrun : p.runEvents (p.initialPool none filenames) sched with
  | none => simp [hrun] at h
  | some s =>
    simp only [hrun] at h
    by_cases hfin : FilePipeline.poolFinished s = true
    · simp only [hfin, if_true, Option.some.injEq] at h
      have hinv := poolInv_runEvents p filenames sched _ s (poolInv_initial p filenames) hnc hrun
      obtain ⟨h1, h2⟩ := poolInv_finished p filenames s hinv hfin
      unfold FilePipeline.collectResults at h
      by_cases hlen : s.errors.length > 0
      · simp only [hlen, if_true, Prod.mk.injEq] at h
        obtain ⟨hr, he⟩ := h
        subst hr
        exact ⟨h1, s.errors, h2, by rw [if_pos hlen, he]⟩
      · simp only [hlen, if_false, Prod.mk.injEq] at h
        obtain ⟨hr, he⟩ := h
        subst hr
        exact ⟨h1, s.errors, h2, by rw [if_neg hlen, he]⟩
    · simp [hfin] at h

/-- A complete run without cancellation exists. -/
theorem processFiles_exists_run (p : FilePipeline) (filenames : List String)
    (hproc : p.processors ≠ []) (hne : filenames ≠ [])
    (hvalid : ∀ f, f ∈ filenames → p.validateFilename f = none) :
    ∃ sched, noCancel sched ∧ (p.ProcessFiles none (some filenames) sched).isSome = true := by
  refine ⟨sequentialSchedule p filenames, sequentialSchedule_noCancel p filenames, ?_⟩
  obtain ⟨s, hs, hfin⟩ := sequentialSchedule_complete p filenames
  rw [processFiles_eq_concurrent p none filenames _ hproc hne hvalid]
  simp [FilePipeline.processFilesConcurrently, hs, hfin]

/-- C1. On a pipeline with a processor, a non-empty list of valid filenames
and a context that is never cancelled: a complete run exists; no run of the
worker pool is longer than 4N + W + 2 events and an unfinished pool can always
take a further step, so every scheduling ends in a complete run; and every
complete run returns a permutation of the records of the filenames the
single-file path succeeds on (K of them), together with an error that is
non-nil exactly when K < N and that lists the N - K single-file errors. -/
theorem processFiles_partition (p : FilePipeline) (filenames : List String)
    (hproc : p.processors ≠ []) (hne : filenames ≠ [])
    (hvalid : ∀ f, f ∈ filenames → p.validateFilename f = none) :
    (∃ sched, noCancel sched ∧ (p.ProcessFiles none (some filenames) sched).isSome = true) ∧
    (∀ sched s, p.runEvents (p.initialPool none filenames) sched = some s →
      sched.length ≤ 4 * filenames.length + p.getWorkerCount + 2 ∧
      (FilePipeline.poolFinished s = false →
        ∃ e, (∀ msg, e ≠ .cancel msg) ∧ (p.step s e).isSome = true)) ∧
    ∀ sched recs err, noCancel sched →
      p.ProcessFiles none (some filenames) sched = some (recs, err) →
      recs.Perm (successesOf p none filenames) ∧
      recs.length = filenames.countP (fun f => (p.ProcessFile none f).toBool) ∧
      (err.isSome = true ↔
        filenames.countP (fun f => (p.ProcessFile none f).toBool) < filenames.length) ∧
      ∃ errs, errs.Perm (failuresOf p none filenames) ∧
        errs.length = filenames.length -
          filenames.countP (fun f => (p.ProcessFile none f).toBool) ∧
        err = if errs.length > 0 then some ("processing errors: " ++ formatErrors errs)
              else none := by
  refine ⟨processFiles_exists_run p filenames hproc hne hvalid, ?_, ?_⟩
  · intro sched s hrun
    have h1 := run_length_le p sched _ s hrun
    have h2 := poolMeasure_initial p none filenames
    exact ⟨by omega, pool_progress p s⟩
  · intro sched recs err hnc h
    rw [processFiles_eq_concurrent p none filenames _ hproc hne hvalid] at h
    obtain ⟨hperm, errs, hep, herr⟩ := processFilesConcurrently_result p filenames sched recs err hnc h
    have hK := successesOf_length p none filenames
    have hN := failuresOf_length p none filenames
    have hrl : recs.length = (successesOf p none filenames).length := hperm.length_eq
    have hel : errs.length = (failuresOf p none filenames).length := hep.length_eq
    refine ⟨hperm, by rw [hrl, hK], ?_, errs, hep, by omega, herr⟩
    rw [herr]
    by_cases hpos : errs.length > 0
    · simp only [hpos, if_true, Option.isSome_some, true_iff]
      omega
    · simp only [hpos, if_false, Option.isSome_none, Bool.false_eq_true, false_iff]
      omega

/-- Witness for C1: the YAML/JSON pipeline on two readable files and one
filename without decoder. -/
theorem processFiles_partition_witness :
    ∃ sched, noCancel sched ∧
      ((yamlJsonPipeline sampleExternals
          [("./a.yaml", "k: v"), ("./b.json", "\x7b\"k\":1\x7d")] defaultConfig).ProcessFiles none
        (some ["./a.yaml", "./b.json", "./c.bad"]) sched).isSome = true :=
  (processFiles_partition
    (yamlJsonPipeline sampleExternals [("./a.yaml", "k: v"), ("./b.json", "\x7b\"k\":1\x7d")]
      defaultConfig)
    ["./a.yaml", "./b.json", "./c.bad"]
    (List.cons_ne_nil _ _) (by decide) (by decide)).1

/-! ## The three-file scenario -/

/-- C2 as stated fails: the bare names `a.yaml`, `b.json`, `c.bad` do not pass
`validateFilenames`, so under every schedule `ProcessFiles` returns no record
and an error naming `a.yaml`; no file is processed. -/
theorem scenario_bare_names_rejected :
    (yamlJsonPipeline sampleExternals
        [("a.yaml", "k: v"), ("b.json", "\x7b\"k\":1\x7d")] defaultConfig).ProcessFiles none
      (some ["a.yaml", "b.json", "c.bad"])
      (sequentialSchedule
        (yamlJsonPipeline sampleExternals
          [("a.yaml", "k: v"), ("b.json", "\x7b\"k\":1\x7d")] defaultConfig)
        ["a.yaml", "b.json", "c.bad"]) =
      some ([], some ("invalid filenames: invalid filename a.yaml: " ++
        "filename must be absolute path or start with ./")) ∧
    ∀ sched,
      (yamlJsonPipeline sampleExternals
          [("a.yaml", "k: v"), ("b.json", "\x7b\"k\":1\x7d")] defaultConfig).ProcessFiles none
        (some ["a.yaml", "b.json", "c.bad"]) sched =
        some ([], some ("invalid filenames: invalid filename a.yaml: " ++
          "filename must be absolute path or start with ./")) :=
  ⟨rfl, fun _ => rfl⟩

theorem scenario_yaml_record (L : Externals) (config : PipelineConfig) (dy : Option DataMap)
    (hy : L.yamlUnmarshal "k: v" = .ok dy) :
    ∃ d, (yamlJsonPipeline L [("./a.yaml", "k: v"), ("./b.json", "\x7b\"k\":1\x7d")]
        config).ProcessFile none "./a.yaml" = .ok d ∧ d.Format = "yaml" := by
  have h1 : (yamlJsonPipeline L [("./a.yaml", "k: v"), ("./b.json", "\x7b\"k\":1\x7d")]
      config).ProcessFile none "./a.yaml" =
      match NewYAMLProcessor.parseYAML L "k: v" with
      | .error err => .error ("failed to parse YAML: " ++ err)
      | .ok data => .ok (NewYAMLProcessor.createConfigData L "./a.yaml" data) := rfl
  have h2 : NewYAMLProcessor.parseYAML L "k: v" = .ok (dy.getD []) := by
    have : NewYAMLProcessor.parseYAML L "k: v" =
        match L.yamlUnmarshal "k: v" with
        | .error e => .error ("YAML unmarshal failed: " ++ e)
        | .ok none => .ok []
        | .ok (some result) => .ok result := rfl
    rw [this, hy]
    cases dy <;> rfl
  rw [h1, h2]
  exact ⟨_, rfl, rfl⟩

theorem scenario_json_record (L : Externals) (config : PipelineConfig) (dj : Option DataMap)
    (hj : L.jsonUnmarshal "\x7b\"k\":1\x7d" = .ok dj) :
    ∃ d, (yamlJsonPipeline L [("./a.yaml", "k: v"), ("./b.json", "\x7b\"k\":1\x7d")]
        config).ProcessFile none "./b.json" = .ok d ∧ d.Format = "json" := by
  have h1 : (yamlJsonPipeline L [("./a.yaml", "k: v"), ("./b.json", "\x7b\"k\":1\x7d")]
      config).ProcessFile none "./b.json" =
      match NewJSONProcessor.parseJSON L "\x7b\"k\":1\x7d" with
      | .error err => .error ("failed to parse JSON: " ++ err)
      | .ok data => .ok (NewJSONProcessor.createConfigData L "./b.json" data) := rfl
  have h2 : NewJSONProcessor.parseJSON L "\x7b\"k\":1\x7d" = .ok (dj.getD []) := by
    have : NewJSONProcessor.parseJSON L "\x7b\"k\":1\x7d" =
        match L.jsonUnmarshal "\x7b\"k\":1\x7d" with
        | .error e => .error ("JSON unmarshal failed: " ++ e)
        | .ok none => .ok []
        | .ok (some result) => .ok result := rfl
    rw [this, hj]
    cases dj <;> rfl
  rw [h1, h2]
  exact ⟨_, rfl, rfl⟩

/-- C2, as amended. With the YAML and JSON decoders registered, a reader
holding `./a.yaml` and `./b.json`, decoders accepting the two documents and a
live context, `ProcessFiles` on `./a.yaml`, `./b.json`, `./c.bad` has a
complete run, and every complete run returns two records, of formats `yaml`
and `json` in some order, with the error naming `./c.bad` as having no
processor. -/
theorem scenario_two_records (L : Externals) (config : PipelineConfig)
    (dy dj : Option DataMap)
    (hy : L.yamlUnmarshal "k: v" = .ok dy)
    (hj : L.jsonUnmarshal "\x7b\"k\":1\x7d" = .ok dj) :
    (∃ sched, noCancel sched ∧
      ((yamlJsonPipeline L [("./a.yaml", "k: v"), ("./b.json", "\x7b\"k\":1\x7d")]
          config).ProcessFiles none
        (some ["./a.yaml", "./b.json", "./c.bad"]) sched).isSome = true) ∧
    ∀ sched recs err, noCancel sched →
      (yamlJsonPipeline L [("./a.yaml", "k: v"), ("./b.json", "\x7b\"k\":1\x7d")]
          config).ProcessFiles none
        (some ["./a.yaml", "./b.json", "./c.bad"]) sched = some (recs, err) →
      recs.length = 2 ∧
      (recs.map (fun d => d.Format)).Perm ["yaml", "json"] ∧
      err = some "processing errors: [no processor found for file: ./c.bad]" := by
  have hvalid : ∀ f, f ∈ ["./a.yaml", "./b.json", "./c.bad"] →
      (yamlJsonPipeline L [("./a.yaml", "k: v"), ("./b.json", "\x7b\"k\":1\x7d")]
        config).validateFilename f = none := by
    intro f hf
    simp only [List.mem_cons, List.mem_singleton, List.not_mem_nil, or_false] at hf
    rcases hf with h | h | h <;> subst h <;> rfl
  refine ⟨processFiles_exists_run _ _ (List.cons_ne_nil _ _) (by decide) hvalid, ?_⟩
  intro sched recs err hnc h
  rw [processFiles_eq_concurrent _ none _ _ (List.cons_ne_nil _ _) (by decide) hvalid] at h
  obtain ⟨hperm, errs, hep, herr⟩ := processFilesConcurrently_result _ _ sched recs err hnc h
  obtain ⟨d1, hd1, hf1⟩ := scenario_yaml_record L config dy hy
  obtain ⟨d2, hd2, hf2⟩ := scenario_json_record L config dj hj
  have hd3 : (yamlJsonPipeline L [("./a.yaml", "k: v"), ("./b.json", "\x7b\"k\":1\x7d")]
      config).ProcessFile none "./c.bad" = .error "no processor found for file: ./c.bad" := rfl
  have hs : successesOf
      (yamlJsonPipeline L [("./a.yaml", "k: v"), ("./b.json", "\x7b\"k\":1\x7d")] config) none
      ["./a.yaml", "./b.json", "./c.bad"] = [d1, d2] := by
    simp [successesOf, successOf, hd1, hd2, hd3]
  have hf : failuresOf
      (yamlJsonPipeline L [("./a.yaml", "k: v"), ("./b.json", "\x7b\"k\":1\x7d")] config) none
      ["./a.yaml", "./b.json", "./c.bad"] = ["no processor found for file: ./c.bad"] := by
    simp [failuresOf, failureOf, hd1, hd2, hd3]
  rw [hs] at hperm
  rw [hf] at hep
  have he : errs = ["no processor found for file: ./c.bad"] := List.perm_singleton.1 hep
  refine ⟨hperm.length_eq, ?_, ?_⟩
  · have := hperm.map (fun d => d.Format)
    simpa [hf1, hf2] using this
  · rw [herr, he]
    rfl

/-- Witness for C2: the sample decoders accept the two documents. -/
theorem scenario_two_records_witness :
    ∃ sched, noCancel sched ∧
      ((yamlJsonPipeline sampleExternals
          [("./a.yaml", "k: v"), ("./b.json", "\x7b\"k\":1\x7d")] defaultConfig).ProcessFiles none
        (some ["./a.yaml", "./b.json", "./c.bad"]) sched).isSome = true :=
  (scenario_two_records sampleExternals defaultConfig
    (some [("k", .str "v")]) (some [("k", .num 1)]) rfl rfl).1

/-! ## The combined error message -/

/-- C3: a file whose content its decoder rejects is reported without its
filename. The JSON decoder rejects the content of `./bad.json`; every complete
run on a live context returns the combined error below, in which the filename
does not occur. -/
theorem decode_error_omits_filename :
    (∀ sched recs err, noCancel sched →
      (yamlJsonPipeline sampleExternals [("./bad.json", "\x7b")] defaultConfig).ProcessFiles none
        (some ["./bad.json"]) sched = some (recs, err) →
      recs = [] ∧
      err = some ("processing errors: [failed to parse JSON: JSON unmarshal failed: " ++
        "unexpected end of JSON input]")) ∧
    (yamlJsonPipeline sampleExternals [("./bad.json", "\x7b")] defaultConfig).ProcessFiles none
        (some ["./bad.json"])
        (sequentialSchedule
          (yamlJsonPipeline sampleExternals [("./bad.json", "\x7b")] defaultConfig)
          ["./bad.json"]) =
      some ([], some ("processing errors: [failed to parse JSON: JSON unmarshal failed: " ++
        "unexpected end of JSON input]")) ∧
    containsStr ("processing errors: [failed to parse JSON: JSON unmarshal failed: " ++
        "unexpected end of JSON input]") "./bad.json" = false := by
  refine ⟨?_, rfl, by decide⟩
  intro sched recs err hnc h
  rw [processFiles_eq_concurrent _ none _ _ (List.cons_ne_nil _ _) (by decide) (by decide)] at h
  obtain ⟨hperm, errs, hep, herr⟩ := processFilesConcurrently_result _ _ sched recs err hnc h
  have hs : successesOf
      (yamlJsonPipeline sampleExternals [("./bad.json", "\x7b")] defaultConfig) none
      ["./bad.json"] = [] := rfl
  have hf : failuresOf
      (yamlJsonPipeline sampleExternals [("./bad.json", "\x7b")] defaultConfig) none
      ["./bad.json"] =
      ["failed to parse JSON: JSON unmarshal failed: unexpected end of JSON input"] := rfl
  rw [hs] at hperm
  rw [hf] at hep
  have he := List.perm_singleton.1 hep
  refine ⟨List.perm_nil.1 hperm, ?_⟩
  rw [herr, he]
  rfl

/-! ## `CanProcess` -/

theorem GetFileExtension_eq (filename : String) :
    GetFileExtension filename =
      if '.' ∈ finalElement filename.data then loweredExtension filename else "" := by
  have h := ext_data filename
  unfold GetFileExtension
  by_cases hd : '.' ∈ finalElement filename.data
  · rw [if_pos hd] at h
    rw [if_pos hd]
    have : Ext filename = ⟨'.' :: afterLastDot (finalElement filename.data)⟩ := by
      rw [← h]
    rw [this]
    simp [ToLower, trimLeading, startsWith, List.isPrefixOf, loweredExtension]
  · rw [if_neg hd] at h
    rw [if_neg hd]
    have : Ext filename = ⟨[]⟩ := by rw [← h]
    rw [this]
    rfl

theorem supportsExtension_iff (extension : String) (exts : List String) :
    supportsExtension extension exts = true ↔ extension ∈ exts := by
  simp [supportsExtension, List.any_eq_true]

theorem builtin_extensions_plain (L : Externals) (d : FileProcessor)
    (hd : d ∈ builtinProcessors L) (e : String) (he : e ∈ d.GetSupportedExtensions) :
    e ≠ "" ∧ '/' ∉ e.data := by
  simp only [builtinProcessors, List.mem_cons, List.mem_singleton, List.not_mem_nil,
    or_false] at hd
  rcases hd with h | h | h | h | h | h | h | h <;> subst h <;> revert e <;>
    simp only [YAMLProcessor.toFileProcessor, JSONProcessor.toFileProcessor,
      TOMLProcessor.toFileProcessor, PropertiesProcessor.toFileProcessor,
      INIProcessor.toFileProcessor, HCLProcessor.toFileProcessor, XMLProcessor.toFileProcessor,
      ENVProcessor.toFileProcessor, YAMLProcessor.GetSupportedExtensions,
      JSONProcessor.GetSupportedExtensions, TOMLProcessor.GetSupportedExtensions,
      PropertiesProcessor.GetSupportedExtensions, INIProcessor.GetSupportedExtensions,
      HCLProcessor.GetSupportedExtensions, XMLProcessor.GetSupportedExtensions,
      ENVProcessor.GetSupportedExtensions, NewYAMLProcessor, NewJSONProcessor, NewTOMLProcessor,
      NewPropertiesProcessor, NewINIProcessor, NewHCLProcessor, NewXMLProcessor, NewENVProcessor,
      copyExtensions] <;>
    decide

theorem builtin_canProcess_eq (L : Externals) (d : FileProcessor)
    (hd : d ∈ builtinProcessors L) (filename : String) :
    d.CanProcess filename = ValidateFilenameAndExtension filename d.GetSupportedExtensions := by
  simp only [builtinProcessors, List.mem_cons, List.mem_singleton, List.not_mem_nil,
    or_false] at hd
  rcases hd with h | h | h | h | h | h | h | h <;> subst h <;> rfl

theorem builtin_cases (L : Externals) (d : FileProcessor) (hd : d ∈ builtinProcessors L) :
    d = NewYAMLProcessor.toFileProcessor L ∨ d = NewJSONProcessor.toFileProcessor L ∨
    d = NewTOMLProcessor.toFileProcessor L ∨ d = NewPropertiesProcessor.toFileProcessor L ∨
    d = NewINIProcessor.toFileProcessor L ∨ d = NewHCLProcessor.toFileProcessor L ∨
    d = NewXMLProcessor.toFileProcessor L ∨ d = NewENVProcessor.toFileProcessor L := by
  simpa [builtinProcessors] using hd

theorem processWith_empty (L : Externals) (format label : String)
    (parse : String → Except String DataMap) (hparse : parse "" = .ok [])
    (filename : String) (hf : filename ≠ "") :
    processWith L format label parse none filename (some "") =
      .ok (createConfigData L filename format []) := by
  simp [processWith, ValidateContextAndInput, hf, hparse]

/-- The six decoders built on `common.go` share the shape `processWith`; each
of their parsers maps zero-byte content to the empty mapping. -/
theorem builtin_process_cases (L : Externals) (d : FileProcessor)
    (hd : d ∈ builtinProcessors L) :
    d = NewYAMLProcessor.toFileProcessor L ∨ d = NewJSONProcessor.toFileProcessor L ∨
    ∃ format label parse, d.Process = processWith L format label parse ∧ parse "" = .ok [] := by
  rcases builtin_cases L d hd with h | h | h | h | h | h | h | h
  · exact Or.inl h
  · exact Or.inr (Or.inl h)
  · exact Or.inr (Or.inr ⟨"toml", "TOML", parseTOMLContent L, by rw [h]; rfl, rfl⟩)
  · exact Or.inr (Or.inr ⟨"properties", "Properties", parsePropertiesContent, by rw [h]; rfl, rfl⟩)
  · exact Or.inr (Or.inr ⟨"ini", "INI", parseINIContent, by rw [h]; rfl, rfl⟩)
  · exact Or.inr (Or.inr ⟨"hcl", "HCL", parseHCLContent L, by rw [h]; rfl, rfl⟩)
  · exact Or.inr (Or.inr ⟨"xml", "XML", parseXMLContent L, by rw [h]; rfl, rfl⟩)
  · exact Or.inr (Or.inr ⟨"env", "ENV", parseENVContent, by rw [h]; rfl, rfl⟩)

/-- C12. Each of the eight built-in decoders, given a non-empty filename, a
live context and zero-byte content, returns a record without error; its data
is the empty mapping and its metadata has `key_count` 0 and `has_nested`
false. -/
theorem process_empty_content (L : Externals) (d : FileProcessor)
    (hd : d ∈ builtinProcessors L) (filename : String) (hf : filename ≠ "") :
    ∃ record, d.Process none filename (some "") = .ok record ∧
      record.Filename = filename ∧
      record.Data = [] ∧
      mapGet record.Metadata "key_count" = some (.num 0) ∧
      mapGet record.Metadata "has_nested" = some (.bool false) := by
  rcases builtin_process_cases L d hd with h | h | ⟨format, label, parse, hp, hparse⟩
  · subst h
    refine ⟨NewYAMLProcessor.createConfigData L filename [], ?_, rfl, rfl, ?_, ?_⟩
    · simp [YAMLProcessor.toFileProcessor, YAMLProcessor.Process, YAMLProcessor.validateInput,
        YAMLProcessor.parseYAML, hf]
    · simp [YAMLProcessor.createConfigData, YAMLProcessor.createMetadata, hf, mapGet_mapSet,
        mapGet, YAMLProcessor.countKeys]
    · simp [YAMLProcessor.createConfigData, YAMLProcessor.createMetadata, hf, mapGet_mapSet,
        mapGet, YAMLProcessor.hasNestedData]
  · subst h
    refine ⟨NewJSONProcessor.createConfigData L filename [], ?_, rfl, rfl, ?_, ?_⟩
    · simp [JSONProcessor.toFileProcessor, JSONProcessor.Process, JSONProcessor.validateInput,
        JSONProcessor.parseJSON, hf]
    · simp [JSONProcessor.createConfigData, JSONProcessor.createMetadata, hf, mapGet_mapSet,
        mapGet, JSONProcessor.countKeys]
    · simp [JSONProcessor.createConfigData, JSONProcessor.createMetadata, hf, mapGet_mapSet,
        mapGet, JSONProcessor.hasNestedData]
  · refine ⟨createConfigData L filename format [], ?_, rfl, rfl, ?_, ?_⟩
    · rw [hp]
      exact processWith_empty L format label parse hparse filename hf
    · simp [createConfigData, createMetadata, hf, mapGet_mapSet, mapGet, countKeys]
    · simp [createConfigData, createMetadata, hf, mapGet_mapSet, mapGet, hasNestedData]

/-- Witness for C12: the ENV decoder on `app.env`. -/
theorem process_empty_content_witness :
    ∃ record, (NewENVProcessor.toFileProcessor sampleExternals).Process none "app.env" (some "") =
        .ok record ∧
      record.Filename = "app.env" ∧
      record.Data = [] ∧
      mapGet record.Metadata "key_count" = some (.num 0) ∧
      mapGet record.Metadata "has_nested" = some (.bool false) :=
  process_empty_content sampleExternals (NewENVProcessor.toFileProcessor sampleExternals)
    (by simp [builtinProcessors]) "app.env" (by decide)

theorem validateContextAndInput_live_iff (filename : String) (content : Option String) :
    (ValidateContextAndInput none filename content).isSome = true ↔
      (filename = "" ∨ content = none) := by
  unfold ValidateContextAndInput
  by_cases hf : filename = ""
  · simp [hf]
  · cases content <;> simp [hf]

/-- C13. Every built-in decoder's `Process` returns an error and no record when
the filename is empty or the content is nil, and the error is that of the
input check (or of the cancellation check before it), so no parser is
consulted; on a live context `ValidateContextAndInput` returns an error exactly
when the filename is empty or the content is nil, empty non-nil content being
accepted. -/
theorem process_input_checks (L : Externals) :
    (∀ d, d ∈ builtinProcessors L → ∀ (ctx : Context) (filename : String)
        (content : Option String), (filename = "" ∨ content = none) →
      ∃ msg, d.Process ctx filename content = .error msg ∧
        ((∃ e, ctx = some e ∧ msg = "context cancelled: " ++ e) ∨
          (ctx = none ∧
            (msg = "filename cannot be empty" ∨ msg = "content cannot be nil" ∨
              msg = "invalid input: filename cannot be empty" ∨
              msg = "invalid input: content cannot be nil")))) ∧
    (∀ (filename : String) (content : Option String),
      (ValidateContextAndInput none filename content).isSome = true ↔
        (filename = "" ∨ content = none)) ∧
    ValidateContextAndInput none "test.yaml" (some "") = none := by
  refine ⟨?_, validateContextAndInput_live_iff, rfl⟩
  intro d hd ctx filename content hbad
  rcases builtin_process_cases L d hd with h | h | ⟨format, label, parse, hp, _⟩
  · subst h
    cases ctx with
    | some e => exact ⟨_, rfl, Or.inl ⟨e, rfl, rfl⟩⟩
    | none =>
      by_cases hf : filename = ""
      · refine ⟨"invalid input: filename cannot be empty", ?_, Or.inr ⟨rfl, by simp⟩⟩
        simp [YAMLProcessor.toFileProcessor, YAMLProcessor.Process, YAMLProcessor.validateInput,
          hf]
      · have hc : content = none := hbad.resolve_left hf
        refine ⟨"invalid input: content cannot be nil", ?_, Or.inr ⟨rfl, by simp⟩⟩
        simp [YAMLProcessor.toFileProcessor, YAMLProcessor.Process, YAMLProcessor.validateInput,
          hf, hc]
  · subst h
    cases ctx with
    | some e => exact ⟨_, rfl, Or.inl ⟨e, rfl, rfl⟩⟩
    | none =>
      by_cases hf : filename = ""
      · refine ⟨"invalid input: filename cannot be empty", ?_, Or.inr ⟨rfl, by simp⟩⟩
        simp [JSONProcessor.toFileProcessor, JSONProcessor.Process, JSONProcessor.validateInput,
          hf]
      · have hc : content = none := hbad.resolve_left hf
        refine ⟨"invalid input: content cannot be nil", ?_, Or.inr ⟨rfl, by simp⟩⟩
        simp [JSONProcessor.toFileProcessor, JSONProcessor.Process, JSONProcessor.validateInput,
          hf, hc]
  · rw [hp]
    cases ctx with
    | some e => exact ⟨_, rfl, Or.inl ⟨e, rfl, rfl⟩⟩
    | none =>
      by_cases hf : filename = ""
      · refine ⟨"filename cannot be empty", ?_, Or.inr ⟨rfl, by simp⟩⟩
        simp [processWith, ValidateContextAndInput, hf]
      · have hc : content = none := hbad.resolve_left hf
        refine ⟨"content cannot be nil", ?_, Or.inr ⟨rfl, by simp⟩⟩
        simp [processWith, ValidateContextAndInput, hf, hc]

/-! ## Metadata -/

theorem processWith_ok (L : Externals) (format label : String)
    (parse : String → Except String DataMap) (ctx : Context) (filename : String)
    (content : Option String) (record : ConfigData)
    (h : processWith L format label parse ctx filename content = .ok record) :
    filename ≠ "" ∧ ∃ data, record = createConfigData L filename format data := by
  unfold processWith at h
  cases hv : ValidateContextAndInput ctx filename content with
  | some err => simp [hv] at h
  | none =>
    have hf : filename ≠ "" := by
      intro hf
      cases ctx <;> simp [ValidateContextAndInput, hf] at hv
    simp only [hv] at h
    cases hp : parse (content.getD "") with
    | error err => simp [hp] at h
    | ok data =>
      simp only [hp, Except.ok.injEq] at h
      exact ⟨hf, data, h.symm⟩

theorem common_process_shape (L : Externals) (d : FileProcessor)
    (hd : d ∈ (builtinProcessors L).drop 2) :
    ∃ format label parse, d.Process = processWith L format label parse := by
  have hd2 : d = NewTOMLProcessor.toFileProcessor L ∨ d = NewPropertiesProcessor.toFileProcessor L ∨
      d = NewINIProcessor.toFileProcessor L ∨ d = NewHCLProcessor.toFileProcessor L ∨
      d = NewXMLProcessor.toFileProcessor L ∨ d = NewENVProcessor.toFileProcessor L := by
    simpa [builtinProcessors] using hd
  rcases hd2 with h | h | h | h | h | h
  · exact ⟨"toml", "TOML", parseTOMLContent L, by rw [h]; rfl⟩
  · exact ⟨"properties", "Properties", parsePropertiesContent, by rw [h]; rfl⟩
  · exact ⟨"ini", "INI", parseINIContent, by rw [h]; rfl⟩
  · exact ⟨"hcl", "HCL", parseHCLContent L, by rw [h]; rfl⟩
  · exact ⟨"xml", "XML", parseXMLContent L, by rw [h]; rfl⟩
  · exact ⟨"env", "ENV", parseENVContent, by rw [h]; rfl⟩

/-- C18: the six decoders built on `common.go` (TOML, Properties, INI, HCL, XML,
ENV) produce metadata without `basename`. For every successful decode of one
of them the metadata has `processor`, `key_count`, `has_nested` and `dirname`
as described, and no entry under `basename`. -/
theorem common_metadata_lacks_basename (L : Externals) (d : FileProcessor)
    (hd : d ∈ (builtinProcessors L).drop 2) (ctx : Context) (filename : String)
    (content : Option String) (record : ConfigData)
    (hok : d.Process ctx filename content = .ok record) :
    filename ≠ "" ∧
    mapGet record.Metadata "processor" = some (.str record.Format) ∧
    mapGet record.Metadata "key_count" = some (.num record.Data.length) ∧
    mapGet record.Metadata "has_nested" =
      some (.bool (record.Data.any (fun kv => isNestedValue kv.2))) ∧
    mapGet record.Metadata "dirname" = some (.str (L.filepathDir filename)) ∧
    mapGet record.Metadata "basename" = none := by
  obtain ⟨format, label, parse, hp⟩ := common_process_shape L d hd
  rw [hp] at hok
  obtain ⟨hf, data, hrec⟩ := processWith_ok L format label parse ctx filename content record hok
  subst hrec
  refine ⟨hf, ?_, ?_, ?_, ?_, ?_⟩ <;>
    simp [createConfigData, createMetadata, hf, mapGet_mapSet, mapGet, countKeys, hasNestedData]

/-- Witness for C18: the ENV decoder on `conf/app.env` with content `A=1`. -/
theorem common_metadata_lacks_basename_witness :
    ∃ record,
      (NewENVProcessor.toFileProcessor sampleExternals).Process none "conf/app.env" (some "A=1") =
        .ok record ∧
      mapGet record.Metadata "dirname" = some (.str (sampleExternals.filepathDir "conf/app.env")) ∧
      mapGet record.Metadata "basename" = none :=
  ⟨_, rfl,
    (common_metadata_lacks_basename sampleExternals
      (NewENVProcessor.toFileProcessor sampleExternals) (by simp [builtinProcessors]) none
      "conf/app.env" (some "A=1") _ rfl).2.2.2.2.1,
    (common_metadata_lacks_basename sampleExternals
      (NewENVProcessor.toFileProcessor sampleExternals) (by simp [builtinProcessors]) none
      "conf/app.env" (some "A=1") _ rfl).2.2.2.2.2⟩

/-- The YAML and JSON decoders, which build their metadata themselves, do set
`basename`. -/
theorem yaml_json_metadata_basename (L : Externals) (filename : String) (data : DataMap)
    (hf : filename ≠ "") :
    mapGet (NewYAMLProcessor.createConfigData L filename data).Metadata "basename" =
      some (.str (L.filepathBase filename)) ∧
    mapGet (NewJSONProcessor.createConfigData L filename data).Metadata "basename" =
      some (.str (L.filepathBase filename)) := by
  constructor <;>
    simp [YAMLProcessor.createConfigData, YAMLProcessor.createMetadata,
      JSONProcessor.createConfigData, JSONProcessor.createMetadata, hf, mapGet_mapSet, mapGet]

/-! ## The key-value parser against the reference procedure -/

theorem startsWith_nil (pre : String) (h : pre.data ≠ []) : startsWith ⟨[]⟩ pre = false := by
  obtain ⟨p⟩ := pre
  cases p with
  | nil => exact absurd rfl h
  | cons c t => rfl

theorem startsWith_cons_single (d : Char) (b : List Char) (c : Char) :
    startsWith ⟨d :: b⟩ ⟨[c]⟩ = decide (d = c) := by
  by_cases hd : d = c
  · subst hd
    simp [startsWith, List.isPrefixOf]
  · have hd2 : ¬ c = d := fun h => hd h.symm
    simp [startsWith, List.isPrefixOf, hd, hd2]

theorem endsWith_cons_single (l : List Char) (c : Char) :
    endsWith ⟨l⟩ ⟨[c]⟩ = decide (l.getLast? = some c) := by
  unfold endsWith
  show ([c].reverse.isPrefixOf l.reverse) = _
  rw [List.getLast?_eq_head?_reverse]
  cases l.reverse with
  | nil => simp [List.isPrefixOf]
  | cons d b =>
    by_cases hd : d = c
    · subst hd
      simp [List.isPrefixOf]
    · have hd2 : ¬ c = d := fun h => hd h.symm
      simp [List.isPrefixOf, hd, hd2]

theorem isEmptyLine_eq (t : String) :
    isEmptyLine t = decide (t.data = [] ∨ refIsComment t.data = true) := by
  obtain ⟨l⟩ := t
  cases l with
  | nil => rfl
  | cons d b =>
    have e1 : startsWith ⟨d :: b⟩ "#" = decide (d = '#') := startsWith_cons_single d b '#'
    have e2 : startsWith ⟨d :: b⟩ ";" = decide (d = ';') := startsWith_cons_single d b ';'
    have e3 : startsWith ⟨d :: b⟩ "!" = decide (d = '!') := startsWith_cons_single d b '!'
    have e0 : ((⟨d :: b⟩ : String) = "") = False := by
      simp only [eq_iff_iff, iff_false]
      exact ne_empty_of_data_cons d b
    simp only [isEmptyLine, e0, e1, e2, e3, refIsComment]
    by_cases h1 : d = '#' <;> by_cases h2 : d = ';' <;> by_cases h3 : d = '!' <;>
      simp [h1, h2, h3]

theorem isENVComment_imp (t : String) (h : isENVComment t = true) : isEmptyLine t = true := by
  simp [isENVComment] at h
  simp [isEmptyLine, h]

theorem isPropertiesComment_imp (t : String) (h : isPropertiesComment t = true) :
    isEmptyLine t = true := by
  simp only [isPropertiesComment, Bool.or_eq_true] at h
  rcases h with h | h <;> simp [isEmptyLine, h]

theorem indexOfChar_eq_none_iff (c : Char) (l : List Char) :
    indexOfChar c l = none ↔ c ∉ l := by
  induction l with
  | nil => simp [indexOfChar]
  | cons d rest ih =>
    by_cases hd : d = c
    · subst hd
      simp [indexOfChar]
    · have hd2 : ¬ c = d := fun h => hd h.symm
      simp [indexOfChar, hd, hd2, ih]

theorem indexOfChar_some (c : Char) (l : List Char) (i : Nat) (h : indexOfChar c l = some i) :
    l.take i = l.takeWhile (fun d => d ≠ c) ∧
    l.drop (i + 1) = (l.dropWhile (fun d => d ≠ c)).drop 1 := by
  induction l generalizing i with
  | nil => simp [indexOfChar] at h
  | cons d rest ih =>
    by_cases hd : d = c
    · subst hd
      simp only [indexOfChar, if_true, Option.some.injEq] at h
      subst h
      simp
    · simp only [indexOfChar, if_neg hd, Option.map_eq_some'] at h
      obtain ⟨j, hj, hij⟩ := h
      subst hij
      obtain ⟨h1, h2⟩ := ih j hj
      simp [List.takeWhile_cons, List.dropWhile_cons, hd, h1, h2]

theorem removeQuotes_eq (value : String) :
    removeQuotes value = ⟨refStripQuotes value.data⟩ := by
  obtain ⟨l⟩ := value
  cases l with
  | nil => rfl
  | cons c rest =>
    have e0 : ¬ (⟨c :: rest⟩ : String) = "" := ne_empty_of_data_cons c rest
    have e1 : startsWith ⟨c :: rest⟩ "\"" = decide (c = doubleQuote) :=
      startsWith_cons_single c rest doubleQuote
    have e2 : startsWith ⟨c :: rest⟩ "'" = decide (c = singleQuote) :=
      startsWith_cons_single c rest singleQuote
    have e3 : endsWith ⟨c :: rest⟩ "\"" = decide ((c :: rest).getLast? = some doubleQuote) :=
      endsWith_cons_single (c :: rest) doubleQuote
    have e4 : endsWith ⟨c :: rest⟩ "'" = decide ((c :: rest).getLast? = some singleQuote) :=
      endsWith_cons_single (c :: rest) singleQuote
    have elen : (⟨c :: rest⟩ : String).length = rest.length + 1 := rfl
    unfold removeQuotes
    rw [if_neg e0, e1, e2, e3, e4, elen]
    cases rest with
    | nil => simp [refStripQuotes]
    | cons d rest2 =>
      have hlast : (c :: d :: rest2).getLast? = (d :: rest2).getLast? := by
        simp [List.getLast?_cons_cons]
      have hdrop : (List.drop 1 (c :: d :: rest2)).take ((d :: rest2).length + 1 - 2) =
          (d :: rest2).dropLast := by
        rw [List.dropLast_eq_take]
        simp
      have hlen : ¬ ((d :: rest2).length + 1 < 2) := by simp
      rw [if_neg hlen, hlast]
      simp only [refStripQuotes, hdrop]
      have hne : ¬ doubleQuote = singleQuote := by decide
      have hne2 : ¬ singleQuote = doubleQuote := by decide
      by_cases h1 : c = doubleQuote
      · subst h1
        by_cases h2 : (d :: rest2).getLast? = some doubleQuote
        · simp [h2]
        · simp [h2, hne]
      · by_cases h4 : c = singleQuote
        · subst h4
          by_cases h2 : (d :: rest2).getLast? = some singleQuote
          · simp [h2, hne2]
          · simp [h2, hne2]
        · simp [h1, h4]

theorem parseKeyValue_eq (t : String) :
    parseKeyValue t =
      if '=' ∈ t.data then
        (TrimSpace ⟨t.data.takeWhile (fun c => c ≠ '=')⟩,
         TrimSpace ⟨(t.data.dropWhile (fun c => c ≠ '=')).drop 1⟩,
         decide (TrimSpace ⟨t.data.takeWhile (fun c => c ≠ '=')⟩ ≠ ""))
      else ("", "", false) := by
  unfold parseKeyValue findKeyValueSeparator
  cases h : indexOfChar '=' t.data with
  | none =>
    have := (indexOfChar_eq_none_iff '=' t.data).1 h
    simp [this]
  | some i =>
    have hmem : '=' ∈ t.data := by
      by_contra hn
      rw [(indexOfChar_eq_none_iff '=' t.data).2 hn] at h
      exact absurd h (by simp)
    obtain ⟨h1, h2⟩ := indexOfChar_some '=' t.data i h
    simp only [extractKeyValue, isValidKey, h1, h2, if_pos hmem]

/-- One line of the parser does what the reference entry of the line says. -/
theorem parseKeyValueLine_eq (isComment : String → Bool)
    (hc : ∀ t, isComment t = true → isEmptyLine t = true) (result : DataMap) (line : String) :
    parseKeyValueLine isComment result line =
      match refLineEntry line with
      | some kv => mapSet result kv.1 (.str kv.2)
      | none => result := by
  unfold parseKeyValueLine refLineEntry trimLine
  by_cases he : isEmptyLine (TrimSpace line) = true
  · have he2 := he
    rw [isEmptyLine_eq, decide_eq_true_eq] at he2
    have hcond : (TrimSpace line).data = [] ∨ refIsComment (TrimSpace line).data = true ∨
        '=' ∉ (TrimSpace line).data := by
      rcases he2 with h | h
      · exact Or.inl h
      · exact Or.inr (Or.inl h)
    simp only [he, Bool.true_or, if_true, if_pos hcond]
  · have hcf : isComment (TrimSpace line) = false := by
      cases h : isComment (TrimSpace line)
      · rfl
      · exact absurd (hc _ h) he
    have he2 := he
    rw [isEmptyLine_eq, decide_eq_true_eq, not_or] at he2
    have hef : isEmptyLine (TrimSpace line) = false := by
      cases h : isEmptyLine (TrimSpace line)
      · rfl
      · exact absurd h he
    simp only [hef, hcf, Bool.or_self, Bool.false_eq_true, if_false]
    rw [parseKeyValue_eq]
    by_cases hm : '=' ∈ (TrimSpace line).data
    · have hcond : ¬ ((TrimSpace line).data = [] ∨ refIsComment (TrimSpace line).data = true ∨
          '=' ∉ (TrimSpace line).data) := by
        rintro (h | h | h)
        · exact he2.1 h
        · exact he2.2 h
        · exact h hm
      rw [if_pos hm, if_neg hcond]
      generalize TrimSpace ⟨(TrimSpace line).data.takeWhile (fun c => c ≠ '=')⟩ = key
      generalize TrimSpace ⟨((TrimSpace line).data.dropWhile (fun c => c ≠ '=')).drop 1⟩ = value
      by_cases hk : key = ""
      · simp [hk]
      · simp [hk, removeQuotes_eq]
    · have hcond : (TrimSpace line).data = [] ∨ refIsComment (TrimSpace line).data = true ∨
          '=' ∉ (TrimSpace line).data := Or.inr (Or.inr hm)
      rw [if_neg hm, if_pos hcond]

theorem parseKeyValue_fold_eq (isComment : String → Bool)
    (hc : ∀ t, isComment t = true → isEmptyLine t = true) (lines : List String)
    (result : DataMap) :
    lines.foldl (parseKeyValueLine isComment) result =
      (lines.filterMap refLineEntry).foldl (fun m kv => mapSet m kv.1 (.str kv.2)) result := by
  induction lines generalizing result with
  | nil => rfl
  | cons line rest ih =>
    rw [List.foldl_cons, parseKeyValueLine_eq isComment hc, ih]
    cases h : refLineEntry line with
    | none => rw [List.filterMap_cons_none h]
    | some kv => rw [List.filterMap_cons_some h, List.foldl_cons]

/-- Applying assignments in order: the value under a key is that of the last
assignment to it, or the initial one. -/
theorem mapGet_foldl_assign {β γ : Type} (entries : List γ) (f : γ → String × β)
    (m : List (String × β)) (key : String) :
    mapGet (entries.foldl (fun acc e => mapSet acc (f e).1 (f e).2) m) key =
      match entries.reverse.find? (fun e => (f e).1 = key) with
      | some e => some (f e).2
      | none => mapGet m key := by
  induction entries generalizing m with
  | nil => rfl
  | cons e rest ih =>
    rw [List.foldl_cons, ih, List.reverse_cons, List.find?_append]
    cases hf : rest.reverse.find? (fun e => (f e).1 = key) with
    | some kv => simp
    | none =>
      by_cases hk : (f e).1 = key
      · simp [List.find?_cons, hk, mapGet_mapSet]
      · simp [List.find?_cons, hk, mapGet_mapSet]

theorem keys_mapSet {β : Type} (m : List (String × β)) (k : String) (v : β) :
    (mapSet m k v).map Prod.fst =
      if k ∈ m.map Prod.fst then m.map Prod.fst else m.map Prod.fst ++ [k] := by
  induction m with
  | nil => simp [mapSet]
  | cons kv rest ih =>
    obtain ⟨k0, w⟩ := kv
    by_cases h0 : k0 = k
    · subst h0
      simp [mapSet]
    · have h1 : ¬ k = k0 := fun h => h0 h.symm
      simp only [mapSet, if_neg h0, List.map_cons, ih, List.mem_cons, h1, false_or]
      split <;> simp

theorem nodup_keys_mapSet {β : Type} (m : List (String × β)) (k : String) (v : β)
    (h : (m.map Prod.fst).Nodup) : ((mapSet m k v).map Prod.fst).Nodup := by
  rw [keys_mapSet]
  split
  · exact h
  · rename_i hk
    rw [List.nodup_append]
    refine ⟨h, List.nodup_singleton k, ?_⟩
    intro a ha hb
    rw [List.mem_singleton] at hb
    subst hb
    exact hk ha

theorem nodup_keys_foldl_assign {β γ : Type} (entries : List γ) (f : γ → String × β)
    (m : List (String × β)) (h : (m.map Prod.fst).Nodup) :
    ((entries.foldl (fun acc e => mapSet acc (f e).1 (f e).2) m).map Prod.fst).Nodup := by
  induction entries generalizing m with
  | nil => exact h
  | cons e rest ih => exact ih _ (nodup_keys_mapSet m _ _ h)
theorem string_eq_empty_of_length (s : String) (h : s.length = 0) : s = "" := by
  obtain ⟨l⟩ := s
  have : l = [] := List.length_eq_zero.1 h
  subst this
  rfl

/-- The shared parser computes the reference mapping, for any format whose
comment lines are among those `isEmptyLine` skips. -/
theorem parseKeyValueContent_refines (isComment : String → Bool)
    (hc : ∀ t, isComment t = true → isEmptyLine t = true) (content : String) :
    ∃ m, parseKeyValueContent content isComment = .ok m ∧
      (m.map Prod.fst).Nodup ∧
      ∀ key, mapGet m key = (refLookup content key).map Value.str := by
  unfold parseKeyValueContent
  by_cases he : isEmptyContent content = true
  · rw [if_pos he]
    have hc0 : content = "" :=
      string_eq_empty_of_length content (by simpa [isEmptyContent] using he)
    subst hc0
    exact ⟨[], rfl, List.nodup_nil, fun key => rfl⟩
  · rw [if_neg he]
    refine ⟨_, rfl, ?_, ?_⟩
    · rw [parseKeyValue_fold_eq isComment hc]
      exact nodup_keys_foldl_assign _ (fun kv : String × String => (kv.1, Value.str kv.2)) _
        List.nodup_nil
    · intro key
      rw [parseKeyValue_fold_eq isComment hc]
      have h := mapGet_foldl_assign ((splitLines content).filterMap refLineEntry)
        (fun kv : String × String => (kv.1, Value.str kv.2)) createEmptyResult key
      rw [h]
      unfold refLookup refEntries splitLines
      cases ((List.filterMap refLineEntry (splitNewlines content.data [])).reverse.find?
        (fun kv => kv.1 = key)) <;> rfl

/-- C15: the comment markers do not depend on the format. `isEmptyLine`, which
every key-value parser consults before its own comment test, skips each line
whose trimmed text starts with `#`, `;` or `!`; so `;KEY=v` and `!KEY=v` in ENV
content, `;KEY=v` in Properties content and `!KEY=v` in INI content produce no
entry, although the format's own comment test does not match them. -/
theorem foreign_comment_markers_skipped :
    (∀ (isComment : String → Bool) (result : DataMap) (line : String),
      refIsComment (TrimSpace line).data = true →
      parseKeyValueLine isComment result line = result) ∧
    (isENVComment ";KEY=v" = false ∧ parseENVContent ";KEY=v" = .ok []) ∧
    (isENVComment "!KEY=v" = false ∧ parseENVContent "!KEY=v" = .ok []) ∧
    (isPropertiesComment ";KEY=v" = false ∧ parsePropertiesContent ";KEY=v" = .ok []) ∧
    (isINIComment "!KEY=v" = false ∧ parseINIContent "!KEY=v" = .ok []) ∧
    (∃ record,
      (NewENVProcessor.toFileProcessor sampleExternals).Process none "app.env"
        (some ";KEY=v") = .ok record ∧ record.Data = []) ∧
    parseENVContent "KEY=v" = .ok [("KEY", .str "v")] := by
  refine ⟨?_, ⟨rfl, rfl⟩, ⟨rfl, rfl⟩, ⟨rfl, rfl⟩, ⟨rfl, rfl⟩, ⟨_, rfl, rfl⟩, rfl⟩
  intro isComment result line h
  have he : isEmptyLine (TrimSpace line) = true := by
    rw [isEmptyLine_eq, decide_eq_true_eq]
    exact Or.inr h
  simp [parseKeyValueLine, trimLine, he]

/-! ## Malformed lines -/

/-- C16 as stated fails: content consisting of a line with an empty key, or of
a line without `=`, is accepted by the ENV, the Properties and the INI decoder;
`Process` returns a record with empty data and no error. -/
theorem malformed_lines_accepted :
    (NewENVProcessor.toFileProcessor sampleExternals).Process none "app.env" (some "=value") =
      .ok (createConfigData sampleExternals "app.env" "env" []) ∧
    (NewPropertiesProcessor.toFileProcessor sampleExternals).Process none "app.properties"
        (some "no separator here") =
      .ok (createConfigData sampleExternals "app.properties" "properties" []) ∧
    (NewINIProcessor.toFileProcessor sampleExternals).Process none "app.ini"
        (some "no separator here") =
      .ok (createConfigData sampleExternals "app.ini" "ini" []) :=
  ⟨rfl, rfl, rfl⟩

theorem parseKeyValue_no_separator (t : String) (h : '=' ∉ t.data) :
    parseKeyValue t = ("", "", false) ∧ parseINIKeyValue t = ("", "", false) := by
  have hi := (indexOfChar_eq_none_iff '=' t.data).2 h
  simp [parseKeyValue, parseINIKeyValue, findKeyValueSeparator, hi]

/-- C16, as amended. The key-value decoders never reject content: with a
non-empty filename and a live context, `Process` of the ENV, Properties and INI
decoders succeeds on every content. A line for which the key-value split
fails (no `=`, or an empty key as in `=value`) leaves the mapping as it was. -/
theorem keyValue_never_rejects (L : Externals) :
    (∀ (filename content : String), filename ≠ "" →
      (∃ record, (NewENVProcessor.toFileProcessor L).Process none filename (some content) =
        .ok record) ∧
      (∃ record, (NewPropertiesProcessor.toFileProcessor L).Process none filename
        (some content) = .ok record) ∧
      (∃ record, (NewINIProcessor.toFileProcessor L).Process none filename (some content) =
        .ok record)) ∧
    (∀ (isComment : String → Bool) (result : DataMap) (line : String),
      (parseKeyValue (trimLine line)).2.2 = false →
      parseKeyValueLine isComment result line = result) ∧
    (∀ (st : DataMap × String) (line : String),
      isINISection (trimLine line) = false →
      (parseINIKeyValue (trimLine line)).2.2 = false →
      parseINILine st line = st) ∧
    (∀ t : String, '=' ∉ t.data →
      parseKeyValue t = ("", "", false) ∧ parseINIKeyValue t = ("", "", false)) ∧
    parseKeyValue "=value" = ("", "value", false) ∧
    parseINIKeyValue "=value" = ("", "value", false) := by
  refine ⟨?_, ?_, ?_, parseKeyValue_no_separator, rfl, rfl⟩
  · intro filename content hf
    have h1 : ∃ m, parseENVContent content = .ok m := by
      unfold parseENVContent parseKeyValueContent
      split <;> exact ⟨_, rfl⟩
    have h2 : ∃ m, parsePropertiesContent content = .ok m := by
      unfold parsePropertiesContent parseKeyValueContent
      split <;> exact ⟨_, rfl⟩
    have h3 : ∃ m, parseINIContent content = .ok m := by
      unfold parseINIContent
      split <;> exact ⟨_, rfl⟩
    obtain ⟨m1, hm1⟩ := h1
    obtain ⟨m2, hm2⟩ := h2
    obtain ⟨m3, hm3⟩ := h3
    refine ⟨⟨createConfigData L filename "env" m1, ?_⟩,
      ⟨createConfigData L filename "properties" m2, ?_⟩,
      ⟨createConfigData L filename "ini" m3, ?_⟩⟩
    · show processWith L "env" "ENV" parseENVContent none filename (some content) = _
      simp [processWith, ValidateContextAndInput, hf, hm1]
    · show processWith L "properties" "Properties" parsePropertiesContent none filename
        (some content) = _
      simp [processWith, ValidateContextAndInput, hf, hm2]
    · show processWith L "ini" "INI" parseINIContent none filename (some content) = _
      simp [processWith, ValidateContextAndInput, hf, hm3]
  · intro isComment result line h
    show (if (isEmptyLine (trimLine line) || isComment (trimLine line)) = true then result
      else
        match parseKeyValue (trimLine line) with
        | (key, value, true) => mapSet result key (Value.str (removeQuotes value))
        | (_, _, false) => result) = result
    by_cases hc : (isEmptyLine (trimLine line) || isComment (trimLine line)) = true
    · rw [if_pos hc]
    · rw [if_neg hc]
      cases hp : parseKeyValue (trimLine line) with
      | mk k rest =>
        cases rest with
        | mk v ok =>
          rw [hp] at h
          simp only at h
          subst h
          rfl
  · intro st line hs h
    show (if (isEmptyLine (trimLine line) || isINIComment (trimLine line)) = true then st
      else if isINISection (trimLine line) = true then
        (mapSet st.1 (extractINISection (trimLine line)) (Value.map createEmptyResult),
          extractINISection (trimLine line))
      else
        match parseINIKeyValue (trimLine line) with
        | (key, value, true) => (setINIValue st.1 st.2 key value, st.2)
        | (_, _, false) => st) = st
    by_cases hc : (isEmptyLine (trimLine line) || isINIComment (trimLine line)) = true
    · rw [if_pos hc]
    · rw [if_neg hc, if_neg (by simp [hs])]
      cases hp : parseINIKeyValue (trimLine line) with
      | mk k rest =>
        cases rest with
        | mk v ok =>
          rw [hp] at h
          simp only at h
          subst h
          rfl

/-! ## INI sections -/

theorem iniState_append (before : List String) (line : String) :
    iniState (before ++ [line]) = parseINILine (iniState before) line := by
  simp [iniState, List.foldl_append]

theorem parseINILine_eq (st : DataMap × String) (line : String) :
    parseINILine st line =
      if (isEmptyLine (trimLine line) || isINIComment (trimLine line)) = true then st
      else if isINISection (trimLine line) = true then
        (mapSet st.1 (extractINISection (trimLine line)) (Value.map createEmptyResult),
          extractINISection (trimLine line))
      else
        match parseINIKeyValue (trimLine line) with
        | (key, value, true) => (setINIValue st.1 st.2 key value, st.2)
        | (_, _, false) => st := rfl

theorem section_not_skipped (t : String) (h : isINISection t = true) :
    (isEmptyLine t || isINIComment t) = false := by
  obtain ⟨l⟩ := t
  simp only [isINISection, Bool.and_eq_true] at h
  cases l with
  | nil => exact absurd h.1 (by rw [startsWith_nil _ (by decide)]; simp)
  | cons d b =>
    have h1 : startsWith ⟨d :: b⟩ "[" = decide (d = '[') := startsWith_cons_single d b '['
    rw [h1, decide_eq_true_eq] at h
    have hd := h.1
    subst hd
    have e1 : startsWith ⟨'[' :: b⟩ "#" = decide ('[' = '#') := startsWith_cons_single _ b '#'
    have e2 : startsWith ⟨'[' :: b⟩ ";" = decide ('[' = ';') := startsWith_cons_single _ b ';'
    have e3 : startsWith ⟨'[' :: b⟩ "!" = decide ('[' = '!') := startsWith_cons_single _ b '!'
    have e0 : ((⟨'[' :: b⟩ : String) = "") = False := by
      simp only [eq_iff_iff, iff_false]
      exact ne_empty_of_data_cons _ b
    simp only [isEmptyLine, isINIComment, e0, e1, e2, e3]
    decide

theorem parseINILine_header (st : DataMap × String) (line : String)
    (h : isINISection (trimLine line) = true) :
    parseINILine st line =
      (mapSet st.1 (extractINISection (trimLine line)) (Value.map []),
        extractINISection (trimLine line)) := by
  rw [parseINILine_eq, section_not_skipped _ h]
  simp [h, createEmptyResult]

theorem bracketed_is_section (name : String) :
    isINISection ("[" ++ name ++ "]") = true ∧ extractINISection ("[" ++ name ++ "]") = name := by
  have hd : ("[" ++ name ++ "]").data = '[' :: (name.data ++ [']']) := by simp
  have hs : "[" ++ name ++ "]" = ⟨'[' :: (name.data ++ [']'])⟩ := String.ext hd
  constructor
  · rw [hs]
    simp only [isINISection, Bool.and_eq_true]
    refine ⟨?_, ?_⟩
    · have := startsWith_cons_single '[' (name.data ++ [']']) '['
      simpa using this
    · have := endsWith_cons_single ('[' :: (name.data ++ [']'])) ']'
      rw [show ("]" : String) = ⟨[']']⟩ from rfl, this, decide_eq_true_eq, ← List.cons_append,
        List.getLast?_concat]
  · rw [hs]
    apply String.ext
    show (List.drop 1 ('[' :: (name.data ++ [']']))).take
      (('[' :: (name.data ++ [']'])).length - 2) = name.data
    have hlen : ('[' :: (name.data ++ [']'])).length - 2 = name.data.length := by
      simp
    rw [hlen, List.drop_one, List.tail_cons, List.take_left']
    rfl

/-- While the current section is non-empty the result holds a mapping under
its name. -/
theorem ini_section_is_mapping (lines : List String) :
    (iniState lines).2 ≠ "" →
      ∃ m, mapGet (iniState lines).1 (iniState lines).2 = some (.map m) := by
  induction lines using List.reverseRecOn with
  | nil => intro h; exact absurd rfl h
  | append_singleton before line ih =>
    rw [iniState_append, parseINILine_eq]
    by_cases hc : (isEmptyLine (trimLine line) || isINIComment (trimLine line)) = true
    · rw [if_pos hc]
      exact ih
    · rw [if_neg hc]
      by_cases hs : isINISection (trimLine line) = true
      · rw [if_pos hs]
        intro _
        exact ⟨createEmptyResult, by simp [mapGet_mapSet]⟩
      · rw [if_neg hs]
        cases hp : parseINIKeyValue (trimLine line) with
        | mk k rest =>
          cases rest with
          | mk v ok =>
            cases ok with
            | false => exact ih
            | true =>
              intro hne
              obtain ⟨m, hm⟩ := ih hne
              refine ⟨mapSet m k (.str (removeQuotes v)), ?_⟩
              show mapGet (setINIValue (iniState before).1 (iniState before).2 k v)
                (iniState before).2 = _
              have hne2 : (iniState before).2 ≠ "" := hne
              simp [setINIValue, hne2, hm, mapGet_mapSet]

theorem lastSectionName_append (before : List String) (line : String) :
    lastSectionName (before ++ [line]) =
      if isINISection (trimLine line) = true then extractINISection (trimLine line)
      else lastSectionName before := by
  unfold lastSectionName
  rw [List.reverse_append, List.reverse_singleton, List.singleton_append, List.find?_cons]
  by_cases hs : isINISection (trimLine line) = true
  · simp [hs]
  · simp [hs]

/-- The current section is the name in the last section header seen. -/
theorem iniState_section (lines : List String) :
    (iniState lines).2 = lastSectionName lines := by
  induction lines using List.reverseRecOn with
  | nil => rfl
  | append_singleton before line ih =>
    rw [iniState_append, lastSectionName_append, parseINILine_eq]
    by_cases hs : isINISection (trimLine line) = true
    · rw [section_not_skipped _ hs]
      simp [hs]
    · rw [if_neg hs]
      by_cases hc : (isEmptyLine (trimLine line) || isINIComment (trimLine line)) = true
      · rw [if_pos hc, if_neg hs]
        exact ih
      · rw [if_neg hc, if_neg hs]
        cases hp : parseINIKeyValue (trimLine line) with
        | mk k rest =>
          cases rest with
          | mk v ok =>
            cases ok <;> exact ih

theorem lastSectionName_of_no_header (lines : List String)
    (h : ∀ l, l ∈ lines → isINISection (trimLine l) = false) : lastSectionName lines = "" := by
  unfold lastSectionName
  have : lines.reverse.find? (fun l => isINISection (trimLine l)) = none := by
    rw [List.find?_eq_none]
    intro l hl
    rw [List.mem_reverse] at hl
    simp [h l hl]
  rw [this]

/-- C17 as stated fails for the header `[]`: it opens a section with the empty
name, and the key-value line after it lands at the top level, not inside the
mapping created under the empty name. -/
theorem ini_empty_section_name :
    parseINIContent "[]\nk=v" = .ok [("", .map []), ("k", .str "v")] ∧
    isINISection (trimLine "[]") = true ∧
    extractINISection (trimLine "[]") = "" :=
  ⟨rfl, rfl, rfl⟩

/-- C17, as amended. In `parseINIContentWithSections`, after any lines already
processed: a line whose trimmed text is `[name]` creates an empty mapping under
`name` and makes `name` the current section; a key-value line lands at the top
level when no section header precedes it or the last one is `[]`, and
otherwise inside the mapping under the name of the last section header, the
other top-level entries staying as they are. The sample content decodes to the
two sections `db` and `api`. -/
theorem ini_sections (before : List String) :
    (∀ line name : String, trimLine line = "[" ++ name ++ "]" →
      iniState (before ++ [line]) = (mapSet (iniState before).1 name (.map []), name)) ∧
    ((∀ l, l ∈ before → isINISection (trimLine l) = false) → lastSectionName before = "") ∧
    (∀ line key value : String,
      (isEmptyLine (trimLine line) || isINIComment (trimLine line)) = false →
      isINISection (trimLine line) = false →
      parseINIKeyValue (trimLine line) = (key, value, true) →
      (lastSectionName before = "" →
        iniState (before ++ [line]) =
          (mapSet (iniState before).1 key (.str (removeQuotes value)), "")) ∧
      (lastSectionName before ≠ "" →
        ∃ m, mapGet (iniState before).1 (lastSectionName before) = some (.map m) ∧
          iniState (before ++ [line]) =
            (mapSet (iniState before).1 (lastSectionName before)
              (.map (mapSet m key (.str (removeQuotes value)))), lastSectionName before) ∧
          ∀ k, k ≠ lastSectionName before →
            mapGet (iniState (before ++ [line])).1 k = mapGet (iniState before).1 k)) ∧
    (∀ content, parseINIContentWithSections content = (iniState (splitLines content)).1) ∧
    parseINIContent "[db]\nhost=localhost\n\n[api]\nport=8080" =
      .ok [("db", .map [("host", .str "localhost")]), ("api", .map [("port", .str "8080")])] := by
  refine ⟨?_, lastSectionName_of_no_header before, ?_, fun _ => rfl, rfl⟩
  · intro line name h
    obtain ⟨h1, h2⟩ := bracketed_is_section name
    rw [← h] at h1 h2
    rw [iniState_append, parseINILine_header _ _ h1, h2]
  · intro line key value hc hs hp
    have hstep : iniState (before ++ [line]) =
        (setINIValue (iniState before).1 (iniState before).2 key value, (iniState before).2) := by
      rw [iniState_append, parseINILine_eq, hc, hs, hp]
      simp
    have hsec := iniState_section before
    constructor
    · intro h0
      rw [hstep, hsec, h0]
      simp [setINIValue]
    · intro hne
      have hne2 : (iniState before).2 ≠ "" := by rw [hsec]; exact hne
      obtain ⟨m, hm⟩ := ini_section_is_mapping before hne2
      rw [hsec] at hm
      refine ⟨m, hm, ?_, ?_⟩
      · rw [hstep, hsec]
        simp [setINIValue, hne, hm]
      · intro k hk
        rw [hstep, hsec]
        have hk2 : ¬ lastSectionName before = k := fun h => hk h.symm
        simp [setINIValue, hne, hm, mapGet_mapSet, hk2]

/-- Witness for C17: the line `host=localhost` after the header `[db]`. -/
theorem ini_sections_witness :
    ∃ m, mapGet (iniState ["[db]"]).1 (lastSectionName ["[db]"]) = some (.map m) ∧
      iniState (["[db]"] ++ ["host=localhost"]) =
        (mapSet (iniState ["[db]"]).1 (lastSectionName ["[db]"])
          (.map (mapSet m "host" (.str (removeQuotes "localhost")))), lastSectionName ["[db]"]) ∧
      ∀ k, k ≠ lastSectionName ["[db]"] →
        mapGet (iniState (["[db]"] ++ ["host=localhost"])).1 k = mapGet (iniState ["[db]"]).1 k :=
  ((ini_sections ["[db]"]).2.2.1 "host=localhost" "host" "localhost"
    (by decide) (by decide) (by decide)).2 (by decide)

/-! ## Round trip of the key-value formats -/

theorem splitNewlines_no_newline (l cur : List Char) (h : '\n' ∉ l) :
    splitNewlines l cur = [⟨cur.reverse ++ l⟩] := by
  induction l generalizing cur with
  | nil => simp [splitNewlines]
  | cons c rest ih =>
    have hc : c ≠ '\n' := fun hc => h (by rw [hc]; exact List.mem_cons_self _ _)
    have hr : '\n' ∉ rest := fun hr => h (List.mem_cons_of_mem _ hr)
    simp only [splitNewlines, if_neg hc, ih _ hr]
    simp

theorem splitNewlines_append (l rest cur : List Char) (h : '\n' ∉ l) :
    splitNewlines (l ++ '\n' :: rest) cur = ⟨cur.reverse ++ l⟩ :: splitNewlines rest [] := by
  induction l generalizing cur with
  | nil => simp [splitNewlines]
  | cons c tl ih =>
    have hc : c ≠ '\n' := fun hc => h (by rw [hc]; exact List.mem_cons_self _ _)
    have hr : '\n' ∉ tl := fun hr => h (List.mem_cons_of_mem _ hr)
    have hstep : splitNewlines (c :: tl ++ '\n' :: rest) cur =
        splitNewlines (tl ++ '\n' :: rest) (c :: cur) := by
      simp only [List.cons_append, splitNewlines, if_neg hc]
      rfl
    rw [hstep, ih _ hr]
    simp

theorem splitLines_joinLines (lines : List String) (hne : lines ≠ [])
    (h : ∀ l, l ∈ lines → '\n' ∉ l.data) : splitLines (joinLines lines) = lines := by
  induction lines with
  | nil => exact absurd rfl hne
  | cons l rest ih =>
    cases rest with
    | nil =>
      show splitNewlines l.data [] = [l]
      rw [splitNewlines_no_newline _ _ (h l (List.mem_cons_self _ _))]
      rfl
    | cons l2 rest2 =>
      have hd : (joinLines (l :: l2 :: rest2)).data =
          l.data ++ '\n' :: (joinLines (l2 :: rest2)).data := by
        simp [joinLines]
      have ih2 := ih (List.cons_ne_nil _ _) (fun x hx => h x (List.mem_cons_of_mem _ hx))
      unfold splitLines at ih2 ⊢
      rw [hd, splitNewlines_append _ _ _ (h l (List.mem_cons_self _ _)), ih2]
      rfl

/-- No white space at either end. -/
theorem trimSpace_eq_self (l : List Char)
    (h1 : ∀ c, l.head? = some c → isSpace c = false)
    (h2 : ∀ c, l.getLast? = some c → isSpace c = false) : TrimSpace ⟨l⟩ = ⟨l⟩ := by
  have e1 : l.dropWhile isSpace = l := by
    cases l with
    | nil => rfl
    | cons c t => simp [List.dropWhile_cons, h1 c rfl]
  have e2 : l.reverse.dropWhile isSpace = l.reverse := by
    cases hr : l.reverse with
    | nil => rfl
    | cons c t =>
      have : l.getLast? = some c := by
        rw [List.getLast?_eq_head?_reverse, hr]
        rfl
      simp [List.dropWhile_cons, h2 c this]
  apply String.ext
  show ((l.dropWhile isSpace).reverse.dropWhile isSpace).reverse = l
  rw [e1, e2, List.reverse_reverse]

theorem ends_of_trimSpace_eq_self (l : List Char) (h : TrimSpace ⟨l⟩ = ⟨l⟩) :
    (∀ c, l.head? = some c → isSpace c = false) ∧
    (∀ c, l.getLast? = some c → isSpace c = false) := by
  have hd : ((l.dropWhile isSpace).reverse.dropWhile isSpace).reverse = l :=
    congrArg String.data h
  have hlen1 : ((l.dropWhile isSpace).reverse.dropWhile isSpace).length ≤
      (l.dropWhile isSpace).length := by
    have := (List.dropWhile_sublist isSpace (l := (l.dropWhile isSpace).reverse)).length_le
    simpa using this
  have hlen2 : (l.dropWhile isSpace).length ≤ l.length :=
    (List.dropWhile_sublist isSpace).length_le
  have hlen3 : ((l.dropWhile isSpace).reverse.dropWhile isSpace).length = l.length := by
    have := congrArg List.length hd
    simpa using this
  have e1 : l.dropWhile isSpace = l :=
    (List.dropWhile_sublist isSpace).eq_of_length_le (by omega)
  have e2 : l.reverse.dropWhile isSpace = l.reverse := by
    rw [e1] at hd
    have := congrArg List.reverse hd
    simpa using this
  constructor
  · intro c hc
    cases l with
    | nil => simp at hc
    | cons d t =>
      simp only [List.head?_cons, Option.some.injEq] at hc
      subst hc
      cases hs : isSpace d
      · rfl
      · have hlt : ((d :: t).dropWhile isSpace).length ≤ t.length := by
          rw [List.dropWhile_cons_of_pos hs]
          exact (List.dropWhile_sublist isSpace).length_le
        rw [e1] at hlt
        simp at hlt
  · intro c hc
    rw [List.getLast?_eq_head?_reverse] at hc
    cases hr : l.reverse with
    | nil => rw [hr] at hc; simp at hc
    | cons d t =>
      rw [hr] at hc e2
      simp only [List.head?_cons, Option.some.injEq] at hc
      subst hc
      cases hs : isSpace d
      · rfl
      · have hlt : ((d :: t).dropWhile isSpace).length ≤ t.length := by
          rw [List.dropWhile_cons_of_pos hs]
          exact (List.dropWhile_sublist isSpace).length_le
        rw [e2] at hlt
        simp at hlt

theorem takeWhile_append_stop (c : Char) (kd vd : List Char) (h : c ∉ kd) :
    (kd ++ c :: vd).takeWhile (fun d => d ≠ c) = kd ∧
    (kd ++ c :: vd).dropWhile (fun d => d ≠ c) = c :: vd := by
  induction kd with
  | nil => simp
  | cons d t ih =>
    have hd : d ≠ c := fun hd => h (by rw [hd]; exact List.mem_cons_self _ _)
    have ht : c ∉ t := fun ht => h (List.mem_cons_of_mem _ ht)
    obtain ⟨h1, h2⟩ := ih ht
    constructor
    · rw [List.cons_append, List.takeWhile_cons_of_pos (by simpa using hd), h1]
    · rw [List.cons_append, List.dropWhile_cons_of_pos (by simpa using hd), h2]

theorem refLineEntry_encoded (k v : String) (hk : plainKey k) (hv : plainValue v) :
    refLineEntry (k ++ "=" ++ v) = some (k, v) := by
  obtain ⟨hk0, hkeq, _, hktrim, hkc⟩ := hk
  obtain ⟨_, hvtrim, hvq⟩ := hv
  obtain ⟨kd⟩ := k
  obtain ⟨vd⟩ := v
  have hline : (⟨kd⟩ : String) ++ "=" ++ ⟨vd⟩ = ⟨kd ++ '=' :: vd⟩ := by
    apply String.ext
    simp
  rw [hline]
  cases kd with
  | nil => exact absurd rfl hk0
  | cons c t =>
    have hkends := ends_of_trimSpace_eq_self (c :: t) hktrim
    have hvends := ends_of_trimSpace_eq_self vd hvtrim
    have htrim : TrimSpace ⟨c :: t ++ '=' :: vd⟩ = ⟨c :: t ++ '=' :: vd⟩ := by
      apply trimSpace_eq_self
      · intro d hd
        exact hkends.1 d (by simpa using hd)
      · intro d hd
        cases vd with
        | nil =>
          have : (c :: t ++ ['=']).getLast? = some '=' := by
            rw [List.getLast?_concat]
          rw [this] at hd
          simp only [Option.some.injEq] at hd
          subst hd
          decide
        | cons w ws =>
          have : (c :: t ++ '=' :: w :: ws).getLast? = (w :: ws).getLast? := by
            rw [show c :: t ++ '=' :: w :: ws = (c :: t ++ ['=']) ++ (w :: ws) by simp,
              List.getLast?_append_of_ne_nil _ (List.cons_ne_nil _ _)]
          rw [this] at hd
          exact hvends.2 d hd
    obtain ⟨htake, hdrop⟩ := takeWhile_append_stop '=' (c :: t) vd hkeq
    have hcond : ¬ ((⟨c :: t ++ '=' :: vd⟩ : String).data = [] ∨
        refIsComment (⟨c :: t ++ '=' :: vd⟩ : String).data = true ∨
        '=' ∉ (⟨c :: t ++ '=' :: vd⟩ : String).data) := by
      rintro (h | h | h)
      · simp at h
      · have : refIsComment (c :: t ++ '=' :: vd) = refIsComment (c :: t) := rfl
        rw [show (⟨c :: t ++ '=' :: vd⟩ : String).data = c :: t ++ '=' :: vd from rfl, this,
          hkc] at h
        exact absurd h (by simp)
      · exact h (by simp)
    unfold refLineEntry
    rw [htrim]
    simp only [if_neg hcond]
    rw [htake, hdrop, List.drop_one, List.tail_cons, hktrim, hvtrim, if_neg hk0]
    exact congrArg (fun d => some ((⟨c :: t⟩ : String), (⟨d⟩ : String))) hvq

theorem refEntries_encode (entries : List (String × String)) (hne : entries ≠ [])
    (h : ∀ kv, kv ∈ entries → plainKey kv.1 ∧ plainValue kv.2) :
    refEntries (encodeKeyValue entries) = entries := by
  have hsplit : splitLines (encodeKeyValue entries) =
      entries.map (fun kv => kv.1 ++ "=" ++ kv.2) := by
    apply splitLines_joinLines
    · simpa using hne
    · intro l hl
      rw [List.mem_map] at hl
      obtain ⟨kv, hkv, rfl⟩ := hl
      obtain ⟨hk, hv⟩ := h kv hkv
      have h1 := hk.2.2.1
      have h2 := hv.1
      simp only [String.data_append, List.mem_append, not_or]
      exact ⟨⟨h1, by decide⟩, h2⟩
  show (splitLines (encodeKeyValue entries)).filterMap refLineEntry = entries
  rw [hsplit]
  clear hsplit hne
  induction entries with
  | nil => rfl
  | cons kv rest ih =>
    obtain ⟨hk, hv⟩ := h kv (List.mem_cons_self _ _)
    rw [List.map_cons, List.filterMap_cons_some (refLineEntry_encoded kv.1 kv.2 hk hv),
      ih (fun x hx => h x (List.mem_cons_of_mem _ hx))]

theorem mapGet_eq_find {β : Type} (m : List (String × β)) (key : String) :
    mapGet m key = (m.find? (fun kv => kv.1 = key)).map (fun kv => kv.2) := by
  induction m with
  | nil => rfl
  | cons kv rest ih =>
    obtain ⟨k, v⟩ := kv
    by_cases hk : k = key
    · simp [mapGet, List.find?_cons, hk]
    · simp [mapGet, List.find?_cons, hk, ih]

theorem find_reverse_of_nodup {β : Type} (m : List (String × β)) (key : String)
    (h : (m.map Prod.fst).Nodup) :
    m.reverse.find? (fun kv => kv.1 = key) = m.find? (fun kv => kv.1 = key) := by
  induction m with
  | nil => rfl
  | cons kv rest ih =>
    rw [List.map_cons, List.nodup_cons] at h
    rw [List.reverse_cons, List.find?_append, ih h.2]
    by_cases hk : kv.1 = key
    · have hnone : rest.find? (fun kv => kv.1 = key) = none := by
        rw [List.find?_eq_none]
        intro x hx hxk
        apply h.1
        rw [List.mem_map]
        refine ⟨x, hx, ?_⟩
        simp only [decide_eq_true_eq] at hxk
        rw [hxk, hk]
      simp [hnone, List.find?_cons, hk]
    · simp [List.find?_cons, hk]

/-- The reference lookup on the encoding of a mapping with plain keys and
values is the lookup in the mapping. -/
theorem refLookup_encode (entries : List (String × String))
    (hnd : (entries.map Prod.fst).Nodup)
    (h : ∀ kv, kv ∈ entries → plainKey kv.1 ∧ plainValue kv.2) (key : String) :
    refLookup (encodeKeyValue entries) key = mapGet entries key := by
  cases entries with
  | nil => rfl
  | cons kv rest =>
    unfold refLookup
    rw [refEntries_encode _ (List.cons_ne_nil _ _) h, find_reverse_of_nodup _ key hnd,
      mapGet_eq_find]

theorem propertiesContent_lookup (content : String) :
    ∃ m, parsePropertiesContent content = .ok m ∧ (m.map Prod.fst).Nodup ∧
      ∀ key, mapGet m key = (refLookup content key).map Value.str := by
  obtain ⟨m, hm, hnd, hl⟩ :=
    parseKeyValueContent_refines isPropertiesComment isPropertiesComment_imp content
  refine ⟨m, ?_, hnd, hl⟩
  unfold parsePropertiesContent
  by_cases he : isEmptyContent content = true
  · rw [if_pos he]
    simp only [parseKeyValueContent, he, if_true] at hm
    exact hm
  · rw [if_neg he]
    exact hm

theorem envContent_lookup (content : String) :
    ∃ m, parseENVContent content = .ok m ∧ (m.map Prod.fst).Nodup ∧
      ∀ key, mapGet m key = (refLookup content key).map Value.str := by
  obtain ⟨m, hm, hnd, hl⟩ := parseKeyValueContent_refines isENVComment isENVComment_imp content
  refine ⟨m, ?_, hnd, hl⟩
  unfold parseENVContent
  by_cases he : isEmptyContent content = true
  · rw [if_pos he]
    simp only [parseKeyValueContent, he, if_true] at hm
    exact hm
  · rw [if_neg he]
    exact hm

/-- Counterexample for C19: mappings whose encoding is not decoded back. A
value written between double quotes loses them; an entry whose key starts with
`#` is dropped as a comment; a key containing `=` is cut at its first `=`; a
value with a leading blank loses it. The Properties and the ENV decoder agree
on each. -/
theorem round_trip_fails :
    (parsePropertiesContent (encodeKeyValue [("k", String.mk [doubleQuote, 'v', doubleQuote])]) =
        .ok [("k", .str "v")] ∧
      parseENVContent (encodeKeyValue [("k", String.mk [doubleQuote, 'v', doubleQuote])]) =
        .ok [("k", .str "v")]) ∧
    (parsePropertiesContent (encodeKeyValue [("#k", "v")]) = .ok [] ∧
      parseENVContent (encodeKeyValue [("#k", "v")]) = .ok []) ∧
    (parsePropertiesContent (encodeKeyValue [("a=b", "v")]) = .ok [("a", .str "b=v")] ∧
      parseENVContent (encodeKeyValue [("a=b", "v")]) = .ok [("a", .str "b=v")]) ∧
    (parsePropertiesContent (encodeKeyValue [("k", " v")]) = .ok [("k", .str "v")] ∧
      parseENVContent (encodeKeyValue [("k", " v")]) = .ok [("k", .str "v")]) :=
  ⟨⟨rfl, rfl⟩, ⟨rfl, rfl⟩, ⟨rfl, rfl⟩, ⟨rfl, rfl⟩⟩

/-- C19, amended: for every mapping (a list of entries with distinct keys)
whose keys are plain (non-empty, without `=` or line break, without blanks at
the ends, not starting with `#`, `;` or `!`) and whose values are plain (no
line break, no blanks at the ends, not enclosed in a pair of quotes), decoding
its `key=value` encoding with the Properties decoder, and with the ENV decoder,
succeeds with a mapping of distinct keys in which every key of the mapping
carries its value as a string and no other key is present. -/
theorem keyValue_round_trip (entries : List (String × String))
    (hnd : (entries.map Prod.fst).Nodup)
    (hplain : ∀ kv, kv ∈ entries → plainKey kv.1 ∧ plainValue kv.2) :
    (∃ m, parsePropertiesContent (encodeKeyValue entries) = .ok m ∧ (m.map Prod.fst).Nodup ∧
      ∀ key, mapGet m key = (mapGet entries key).map Value.str) ∧
    (∃ m, parseENVContent (encodeKeyValue entries) = .ok m ∧ (m.map Prod.fst).Nodup ∧
      ∀ key, mapGet m key = (mapGet entries key).map Value.str) := by
  constructor
  · obtain ⟨m, hm, hmnd, hl⟩ := propertiesContent_lookup (encodeKeyValue entries)
    refine ⟨m, hm, hmnd, fun key => ?_⟩
    rw [hl key, refLookup_encode entries hnd hplain key]
  · obtain ⟨m, hm, hmnd, hl⟩ := envContent_lookup (encodeKeyValue entries)
    refine ⟨m, hm, hmnd, fun key => ?_⟩
    rw [hl key, refLookup_encode entries hnd hplain key]

/-- Witness for C19: the mapping of `database.port` to `5432` and of `app.name`
to `test-app`; the numeric-looking value is recovered as a string. -/
theorem keyValue_round_trip_witness :
    (∃ m, parsePropertiesContent
        (encodeKeyValue [("database.port", "5432"), ("app.name", "test-app")]) = .ok m ∧
      (m.map Prod.fst).Nodup ∧
      ∀ key, mapGet m key =
        (mapGet [("database.port", "5432"), ("app.name", "test-app")] key).map Value.str) ∧
    (∃ m, parseENVContent
        (encodeKeyValue [("database.port", "5432"), ("app.name", "test-app")]) = .ok m ∧
      (m.map Prod.fst).Nodup ∧
      ∀ key, mapGet m key =
        (mapGet [("database.port", "5432"), ("app.name", "test-app")] key).map Value.str) :=
  keyValue_round_trip [("database.port", "5432"), ("app.name", "test-app")] (by decide)
    (by
      intro kv hkv
      simp only [List.mem_cons, List.mem_singleton, List.not_mem_nil, or_false] at hkv
      rcases hkv with rfl | rfl
      · exact ⟨⟨by decide, by decide, by decide, by decide, rfl⟩, by decide, by decide, by decide⟩
      · exact ⟨⟨by decide, by decide, by decide, by decide, rfl⟩, by decide, by decide, by decide⟩)

/-! ## The local file reader -/

theorem validateFilename_eq_none_iff (r : LocalFileReader) (filename : String) :
    r.validateFilename filename = none ↔
      filename ≠ "" ∧ containsStr filename ".." = false ∧
        (IsAbs filename = true → startsWith filename r.basePath = true) := by
  unfold LocalFileReader.validateFilename
  by_cases h1 : filename = ""
  · simp [h1]
  · by_cases h2 : containsStr filename ".." = true
    · simp [h1, h2]
    · by_cases h3 : IsAbs filename = true
      · by_cases h4 : startsWith filename r.basePath = true
        · simp [h1, h2, h3, h4]
        · simp [h1, h2, h3, h4]
      · simp [h1, h2, h3]

theorem rejected_name_operations (r : LocalFileReader) (fs : FileSystem) (filename : String)
    (h : r.validateFilename filename ≠ none) :
    r.FileExists fs filename = false ∧ ∃ err, r.ReadFile fs filename = .error err := by
  cases hv : r.validateFilename filename with
  | none => exact absurd hv h
  | some e =>
    constructor
    · simp only [LocalFileReader.FileExists, hv]
    · exact ⟨"invalid filename: " ++ e, by simp only [LocalFileReader.ReadFile, hv]⟩

/-- C20: the validation of an absolute name compares texts, not paths: a name
is accepted exactly when it is non-empty, has no `..` and, if absolute, starts
with the text of the base path. With base path `/srv/app` the sibling
`/srv/app-other/file` does not lie under the base path, yet the validation
accepts it, `FileExists` returns true and `ReadFile` returns the content of
the file. An absolute name whose text does not start with the text of the
base path is rejected, and then `FileExists` is false and `ReadFile` fails. -/
theorem sibling_of_base_path_accepted :
    (∀ (r : LocalFileReader) (filename : String),
      r.validateFilename filename = none ↔
        filename ≠ "" ∧ containsStr filename ".." = false ∧
          (IsAbs filename = true → startsWith filename r.basePath = true)) ∧
    (∀ (r : LocalFileReader) (fs : FileSystem) (filename : String),
      IsAbs filename = true → startsWith filename r.basePath = false →
        r.validateFilename filename ≠ none ∧ r.FileExists fs filename = false ∧
          ∃ err, r.ReadFile fs filename = .error err) ∧
    (NewLocalFileReader siblingFileSystem "/srv/app").basePath = "/srv/app" ∧
    IsAbs "/srv/app-other/file" = true ∧
    liesUnder "/srv/app" "/srv/app-other/file" = false ∧
    (NewLocalFileReader siblingFileSystem "/srv/app").validateFilename "/srv/app-other/file" =
      none ∧
    (NewLocalFileReader siblingFileSystem "/srv/app").FileExists siblingFileSystem
      "/srv/app-other/file" = true ∧
    (NewLocalFileReader siblingFileSystem "/srv/app").ReadFile siblingFileSystem
      "/srv/app-other/file" = .ok (some "secret") :=
  ⟨validateFilename_eq_none_iff,
    fun r fs filename ha hp =>
      have hv : r.validateFilename filename ≠ none := fun hn =>
        absurd (((validateFilename_eq_none_iff r filename).1 hn).2.2 ha) (by simp [hp])
      ⟨hv, rejected_name_operations r fs filename hv⟩,
    rfl, rfl, rfl, rfl, rfl, rfl⟩

/-! ## The local file reader: rejected names -/

theorem validateFilename_of_bad_name (r : LocalFileReader) (filename : String)
    (h : filename = "" ∨ containsStr filename ".." = true) :
    r.validateFilename filename =
      some (if filename = "" then "filename cannot be empty"
        else "filename contains invalid path traversal: " ++ filename) := by
  unfold LocalFileReader.validateFilename
  by_cases h1 : filename = ""
  · simp [h1]
  · rcases h with h | h
    · exact absurd h h1
    · simp [h1, h]

theorem rejected_name_all_operations (r : LocalFileReader) (fs : FileSystem)
    (filename err : String) (h : r.validateFilename filename = some err) :
    r.FileExists fs filename = false ∧
    r.IsDirectory fs filename = false ∧
    r.ReadFile fs filename = .error ("invalid filename: " ++ err) ∧
    r.GetFileInfo fs filename = .error ("invalid filename: " ++ err) ∧
    r.GetFileSize fs filename = .error ("invalid filename: " ++ err) ∧
    r.GetFileModTime fs filename = .error ("invalid filename: " ++ err) := by
  refine ⟨?_, ?_, ?_, ?_, ?_, ?_⟩
  · simp only [LocalFileReader.FileExists, h]
  · simp only [LocalFileReader.IsDirectory, h]
  · simp only [LocalFileReader.ReadFile, h]
  · simp only [LocalFileReader.GetFileInfo, h]
  · simp only [LocalFileReader.GetFileSize, h]
  · simp only [LocalFileReader.GetFileModTime, h]

/-- C21. For every local file reader: a name that is empty or contains `..` is
rejected by `validateFilename`; and whenever `validateFilename` rejects a name,
each of the six read operations rejects it with that error, whatever the file
system answers: `FileExists` and `IsDirectory` return false, and `ReadFile`,
`GetFileInfo`, `GetFileSize` and `GetFileModTime` return the error of the
validation behind the prefix `invalid filename: `. -/
theorem invalid_name_rejected (r : LocalFileReader) :
    (∀ filename : String, (filename = "" ∨ containsStr filename ".." = true) →
      r.validateFilename filename =
        some (if filename = "" then "filename cannot be empty"
          else "filename contains invalid path traversal: " ++ filename)) ∧
    (∀ (fs : FileSystem) (filename err : String), r.validateFilename filename = some err →
      r.FileExists fs filename = false ∧
      r.IsDirectory fs filename = false ∧
      r.ReadFile fs filename = .error ("invalid filename: " ++ err) ∧
      r.GetFileInfo fs filename = .error ("invalid filename: " ++ err) ∧
      r.GetFileSize fs filename = .error ("invalid filename: " ++ err) ∧
      r.GetFileModTime fs filename = .error ("invalid filename: " ++ err)) ∧
    (∀ (fs : FileSystem) (filename : String),
      (filename = "" ∨ containsStr filename ".." = true) →
      r.FileExists fs filename = false ∧
      r.IsDirectory fs filename = false ∧
      (∃ err, r.ReadFile fs filename = .error err) ∧
      (∃ err, r.GetFileInfo fs filename = .error err) ∧
      (∃ err, r.GetFileSize fs filename = .error err) ∧
      (∃ err, r.GetFileModTime fs filename = .error err)) := by
  refine ⟨validateFilename_of_bad_name r, rejected_name_all_operations r, ?_⟩
  intro fs filename h
  obtain ⟨h1, h2, h3, h4, h5, h6⟩ :=
    rejected_name_all_operations r fs filename _ (validateFilename_of_bad_name r filename h)
  exact ⟨h1, h2, ⟨_, h3⟩, ⟨_, h4⟩, ⟨_, h5⟩, ⟨_, h6⟩⟩

/-! ## `ProcessFiles`: the guard clauses -/

theorem validateFilenames_indep (p q : FilePipeline) (filenames : Option (List String)) :
    p.validateFilenames filenames = q.validateFilenames filenames := by
  have h : ∀ l : List String, p.validateEach l = q.validateEach l := by
    intro l
    induction l with
    | nil => rfl
    | cons f rest ih =>
      have hv : p.validateFilename f = q.validateFilename f := rfl
      simp only [FilePipeline.validateEach, hv, ih]
  cases filenames with
  | none => rfl
  | some l => simp only [FilePipeline.validateFilenames, h l]

/-- C22. When the filename list is nil or empty, or the pipeline has no
processor, `ProcessFiles` returns no record and an error under every schedule,
the empty one included: the worker pool is not consulted. The error names the
list when it is nil or empty, and otherwise is that of the filename validation
or `no processors registered`; it does not depend on the readers. -/
theorem processFiles_fails_fast (p : FilePipeline) (ctx : Context) :
    (∀ sched, p.ProcessFiles ctx none sched =
      some ([], some "invalid filenames: filenames cannot be nil")) ∧
    (∀ sched, p.ProcessFiles ctx (some []) sched =
      some ([], some "invalid filenames: filenames cannot be empty")) ∧
    (∀ filenames, p.processors = [] →
      ∃ msg, (∀ sched, p.ProcessFiles ctx filenames sched = some ([], some msg)) ∧
        (p.validateFilenames filenames = none → msg = "no processors registered") ∧
        ∀ (readers : List FileReader) sched,
          FilePipeline.ProcessFiles { p with readers := readers } ctx filenames sched =
            some ([], some msg)) := by
  refine ⟨fun _ => rfl, fun _ => rfl, ?_⟩
  intro filenames hp
  cases hv : p.validateFilenames filenames with
  | some err =>
    refine ⟨"invalid filenames: " ++ err, ?_, ?_, ?_⟩
    · intro sched
      simp only [FilePipeline.ProcessFiles, hv]
    · intro h
      cases h
    · intro readers sched
      have hv2 : FilePipeline.validateFilenames { p with readers := readers } filenames =
          some err := by rw [validateFilenames_indep _ p, hv]
      simp only [FilePipeline.ProcessFiles, hv2]
  | none =>
    refine ⟨"no processors registered", ?_, fun _ => rfl, ?_⟩
    · intro sched
      simp [FilePipeline.ProcessFiles, hv, hp]
    · intro readers sched
      have hv2 : FilePipeline.validateFilenames { p with readers := readers } filenames =
          none := by rw [validateFilenames_indep _ p, hv]
      rw [hp] at hv2
      simp only [FilePipeline.ProcessFiles, hp, hv2]
      rfl

/-! ## `FilePipeline.RegisterProcessor` -/

theorem isProcessorRegistered_iff (p : FilePipeline) (d : FileProcessor) :
    p.isProcessorRegistered d = true ↔
      ∃ e, e ∈ d.GetSupportedExtensions ∧
        ∃ q, q ∈ p.processors ∧ e ∈ q.GetSupportedExtensions := by
  simp only [FilePipeline.isProcessorRegistered, FilePipeline.hasExtensionOverlap,
    List.any_eq_true, decide_eq_true_eq]
  constructor
  · rintro ⟨q, hq, e1, he1, e2, he2, heq⟩
    exact ⟨e1, he1, q, hq, by rw [heq]; exact he2⟩
  · rintro ⟨e, he, q, hq, heq⟩
    exact ⟨q, hq, e, he, e, heq, rfl⟩

/-- C23. On every pipeline, `RegisterProcessor` on a non-nil processor is
rejected exactly when one of its extensions is claimed by a registered
processor; a rejected call leaves the pipeline as it was and an accepted one
appends the processor. The decision depends on the extension list only: two
processors with the same extensions are treated alike, and a processor with at
least one extension is rejected with `processor already registered` when it is
registered a second time. -/
theorem pipeline_registerProcessor_contract (p : FilePipeline) (d : FileProcessor) :
    ((p.RegisterProcessor (some d)).2.isSome = true ↔
      ∃ e, e ∈ d.GetSupportedExtensions ∧
        ∃ q, q ∈ p.processors ∧ e ∈ q.GetSupportedExtensions) ∧
    ((p.RegisterProcessor (some d)).2.isSome = true →
      (p.RegisterProcessor (some d)).1 = p ∧
      (p.RegisterProcessor (some d)).2 = some "processor already registered") ∧
    ((p.RegisterProcessor (some d)).2 = none →
      (p.RegisterProcessor (some d)).1.processors = p.processors ++ [d]) ∧
    (∀ d2 : FileProcessor, d2.GetSupportedExtensions = d.GetSupportedExtensions →
      (p.RegisterProcessor (some d2)).2 = (p.RegisterProcessor (some d)).2) ∧
    (d.GetSupportedExtensions ≠ [] →
      ((p.RegisterProcessor (some d)).1.RegisterProcessor (some d)).2 =
        some "processor already registered" ∧
      ((p.RegisterProcessor (some d)).1.RegisterProcessor (some d)).1 =
        (p.RegisterProcessor (some d)).1) := by
  have hiff := isProcessorRegistered_iff p d
  by_cases hreg : p.isProcessorRegistered d = true
  · have hr : p.RegisterProcessor (some d) = (p, some "processor already registered") := by
      simp [FilePipeline.RegisterProcessor, hreg]
    refine ⟨?_, ?_, ?_, ?_, ?_⟩
    · rw [hr]
      simpa using hiff.1 hreg
    · intro _
      rw [hr]
      exact ⟨rfl, rfl⟩
    · intro h
      rw [hr] at h
      cases h
    · intro d2 h2
      have hreg2 : p.isProcessorRegistered d2 = true := by
        simpa [FilePipeline.isProcessorRegistered, h2] using hreg
      rw [hr]
      simp [FilePipeline.RegisterProcessor, hreg2]
    · intro _
      rw [hr]
      exact ⟨congrArg Prod.snd hr, congrArg Prod.fst hr⟩
  · have hr : p.RegisterProcessor (some d) =
        ({ p with processors := p.processors ++ [d] }, none) := by
      simp [FilePipeline.RegisterProcessor, hreg]
    refine ⟨?_, ?_, ?_, ?_, ?_⟩
    · rw [hr]
      constructor
      · intro h
        cases h
      · intro h
        exact absurd (hiff.2 h) hreg
    · intro h
      rw [hr] at h
      cases h
    · intro _
      rw [hr]
    · intro d2 h2
      have hreg2 : ¬ p.isProcessorRegistered d2 = true := by
        simpa [FilePipeline.isProcessorRegistered, h2] using hreg
      rw [hr]
      simp [FilePipeline.RegisterProcessor, hreg2]
    · intro hne
      rw [hr]
      obtain ⟨e, he⟩ := List.exists_mem_of_ne_nil _ hne
      have hreg2 : FilePipeline.isProcessorRegistered
          { p with processors := p.processors ++ [d] } d = true :=
        (isProcessorRegistered_iff _ d).2 ⟨e, he, d, by simp, he⟩
      simp [FilePipeline.RegisterProcessor, hreg2]

/-! ## The worker pool under cancellation -/

/-- The shapes a step can take. -/
theorem step_cases (p : FilePipeline) (s s2 : PoolState) (e : Event)
    (hstep : p.step s e = some s2) :
    (∃ msg, s.ctx = none ∧ s2 = { s with ctx := some msg }) ∨
    (∃ f rest, s.unsent = f :: rest ∧ s2 = { s with unsent := rest, jobs := s.jobs ++ [f] }) ∨
    (s.unsent = [] ∧ s.jobsClosed = false ∧ s2 = { s with jobsClosed := true }) ∨
    (∃ i f rest, s.workers[i]? = some .receiving ∧ s.jobs = f :: rest ∧
      s2 = { s with jobs := rest, workers := s.workers.set i (.selecting f) }) ∨
    (∃ i, s.workers[i]? = some .receiving ∧ s.jobs = [] ∧ s.jobsClosed = true ∧
      s2 = { s with workers := s.workers.set i .returned }) ∨
    (∃ i f err, s.workers[i]? = some (.selecting f) ∧ s.ctx = some err ∧
      s2 = { s with errors := s.errors ++ [err], workers := s.workers.set i .returned }) ∨
    (∃ i f, s.workers[i]? = some (.selecting f) ∧ s.ctx = none ∧
      s2 = { s with workers := s.workers.set i (.processing f) }) ∨
    (∃ i f err, s.workers[i]? = some (.processing f) ∧ p.ProcessFile s.ctx f = .error err ∧
      s2 = { s with errors := s.errors ++ [err], workers := s.workers.set i .receiving }) ∨
    (∃ i f d, s.workers[i]? = some (.processing f) ∧ p.ProcessFile s.ctx f = .ok d ∧
      s2 = { s with results := s.results ++ [{ Filename := f, Data := some d, Error := none }],
                    workers := s.workers.set i .receiving }) := by
  obtain ⟨ctx, unsent, jobs, closed, workers, results, errors⟩ := s
  cases e with
  | cancel msg =>
    cases ctx with
    | none =>
      simp only [FilePipeline.step, Option.some.injEq] at hstep
      exact Or.inl ⟨msg, rfl, hstep.symm⟩
    | some c => simp [FilePipeline.step] at hstep
  | send =>
    cases unsent with
    | nil => simp [FilePipeline.step] at hstep
    | cons f rest =>
      simp only [FilePipeline.step, Option.some.injEq] at hstep
      exact Or.inr (Or.inl ⟨f, rest, rfl, hstep.symm⟩)
  | close =>
    cases unsent with
    | cons f rest => simp [FilePipeline.step] at hstep
    | nil =>
      cases closed with
      | true => simp [FilePipeline.step] at hstep
      | false =>
        simp only [FilePipeline.step, List.isEmpty_nil, Bool.not_false, Bool.and_self, if_true,
          Option.some.injEq] at hstep
        exact Or.inr (Or.inr (Or.inl ⟨rfl, rfl, hstep.symm⟩))
  | receive i =>
    cases hw : workers[i]? with
    | none => simp [FilePipeline.step, hw] at hstep
    | some w =>
      cases w with
      | receiving =>
        cases jobs with
        | nil =>
          cases closed with
          | false => simp [FilePipeline.step, hw] at hstep
          | true =>
            simp only [FilePipeline.step, hw, if_true, Option.some.injEq] at hstep
            exact Or.inr (Or.inr (Or.inr (Or.inr (Or.inl ⟨i, hw, rfl, rfl, hstep.symm⟩))))
        | cons f rest =>
          simp only [FilePipeline.step, hw, Option.some.injEq] at hstep
          exact Or.inr (Or.inr (Or.inr (Or.inl ⟨i, f, rest, hw, rfl, hstep.symm⟩)))
      | selecting f => simp [FilePipeline.step, hw] at hstep
      | processing f => simp [FilePipeline.step, hw] at hstep
      | returned => simp [FilePipeline.step, hw] at hstep
  | select i =>
    cases hw : workers[i]? with
    | none => simp [FilePipeline.step, hw] at hstep
    | some w =>
      cases w with
      | selecting f =>
        cases ctx with
        | none =>
          simp only [FilePipeline.step, hw, Option.some.injEq] at hstep
          exact Or.inr (Or.inr (Or.inr (Or.inr (Or.inr (Or.inr
            (Or.inl ⟨i, f, hw, rfl, hstep.symm⟩))))))
        | some c =>
          simp only [FilePipeline.step, hw, Option.some.injEq] at hstep
          exact Or.inr (Or.inr (Or.inr (Or.inr (Or.inr (Or.inl ⟨i, f, c, hw, rfl, hstep.symm⟩)))))
      | receiving => simp [FilePipeline.step, hw] at hstep
      | processing f => simp [FilePipeline.step, hw] at hstep
      | returned => simp [FilePipeline.step, hw] at hstep
  | process i =>
    cases hw : workers[i]? with
    | none => simp [FilePipeline.step, hw] at hstep
    | some w =>
      cases w with
      | processing f =>
        cases hpf : p.ProcessFile ctx f with
        | ok d =>
          simp only [FilePipeline.step, hw, FilePipeline.processFileWithResult, hpf,
            Option.some.injEq] at hstep
          exact Or.inr (Or.inr (Or.inr (Or.inr (Or.inr (Or.inr (Or.inr
            (Or.inr ⟨i, f, d, hw, hpf, hstep.symm⟩)))))))
        | error err =>
          simp only [FilePipeline.step, hw, FilePipeline.processFileWithResult, hpf,
            Option.some.injEq] at hstep
          exact Or.inr (Or.inr (Or.inr (Or.inr (Or.inr (Or.inr (Or.inr
            (Or.inl ⟨i, f, err, hw, hpf, hstep.symm⟩)))))))
      | receiving => simp [FilePipeline.step, hw] at hstep
      | selecting f => simp [FilePipeline.step, hw] at hstep
      | returned => simp [FilePipeline.step, hw] at hstep

theorem heldFiles_set_length (workers : List WorkerPhase) (i : Nat) (w w2 : WorkerPhase)
    (h : workers[i]? = some w) :
    (heldFile w).toList.length + (heldFiles (workers.set i w2)).length =
      (heldFile w2).toList.length + (heldFiles workers).length := by
  have := (heldFiles_set workers i w w2 h).length_eq
  simpa using this

theorem count_returned_set (workers : List WorkerPhase) (i : Nat) (w w2 : WorkerPhase)
    (h : workers[i]? = some w) :
    (workers.set i w2).count .returned + (if w = .returned then 1 else 0) =
      workers.count .returned + (if w2 = .returned then 1 else 0) := by
  induction workers generalizing i with
  | nil => simp at h
  | cons x xs ih =>
    cases i with
    | zero =>
      simp at h
      subst h
      simp only [List.set_cons_zero, List.count_cons, beq_iff_eq]
      omega
    | succ i =>
      simp at h
      have := ih i h
      simp only [List.set_cons_succ, List.count_cons]
      omega

/-- Every step keeps the number of filenames accounted for. -/
theorem poolCount_step (p : FilePipeline) (s s2 : PoolState) (e : Event)
    (hstep : p.step s e = some s2) : poolCount s2 = poolCount s := by
  obtain ⟨ctx, unsent, jobs, closed, workers, results, errors⟩ := s
  rcases step_cases p _ s2 e hstep with ⟨msg, _, h⟩ | ⟨f, rest, hu, h⟩ | ⟨_, _, h⟩ |
    ⟨i, f, rest, hw, hj, h⟩ | ⟨i, hw, _, _, h⟩ | ⟨i, f, err, hw, _, h⟩ | ⟨i, f, hw, _, h⟩ |
    ⟨i, f, err, hw, _, h⟩ | ⟨i, f, d, hw, _, h⟩
  · subst h; rfl
  · simp only at hu
    subst h; subst hu
    simp only [poolCount, List.length_append, List.length_cons, List.length_nil]
    omega
  · subst h; rfl
  · simp only at hw hj
    subst h; subst hj
    have := heldFiles_set_length workers i .receiving (.selecting f) hw
    simp only [heldFile, Option.toList, List.length_nil, List.length_cons] at this
    simp only [poolCount, List.length_cons]
    omega
  · simp only at hw
    subst h
    have := heldFiles_set_length workers i .receiving .returned hw
    simp only [heldFile, Option.toList, List.length_nil] at this
    simp only [poolCount]
    omega
  · simp only at hw
    subst h
    have := heldFiles_set_length workers i (.selecting f) .returned hw
    simp only [heldFile, Option.toList, List.length_nil, List.length_cons] at this
    simp only [poolCount, List.length_append, List.length_cons, List.length_nil]
    omega
  · simp only at hw
    subst h
    have := heldFiles_set_length workers i (.selecting f) (.processing f) hw
    simp only [heldFile, Option.toList, List.length_nil, List.length_cons] at this
    simp only [poolCount]
    omega
  · simp only at hw
    subst h
    have := heldFiles_set_length workers i (.processing f) .receiving hw
    simp only [heldFile, Option.toList, List.length_nil, List.length_cons] at this
    simp only [poolCount, List.length_append, List.length_cons, List.length_nil]
    omega
  · simp only at hw
    subst h
    have := heldFiles_set_length workers i (.processing f) .receiving hw
    simp only [heldFile, Option.toList, List.length_nil, List.length_cons] at this
    simp only [poolCount, List.length_append, List.length_cons, List.length_nil]
    omega

theorem poolCount_run (p : FilePipeline) (sched : List Event) (s s2 : PoolState)
    (hrun : p.runEvents s sched = some s2) : poolCount s2 = poolCount s := by
  induction sched generalizing s with
  | nil =>
    simp only [FilePipeline.runEvents, Option.some.injEq] at hrun
    rw [hrun]
  | cons e rest ih =>
    cases hs : p.step s e with
    | none => simp [FilePipeline.runEvents, hs] at hrun
    | some s1 =>
      simp only [FilePipeline.runEvents, hs] at hrun
      rw [ih s1 hrun, poolCount_step p s s1 e hs]

theorem heldFiles_replicate_receiving (n : Nat) :
    heldFiles (List.replicate n .receiving) = [] := by
  unfold heldFiles
  rw [List.filterMap_eq_nil_iff]
  intro w hw
  rw [List.eq_of_mem_replicate hw]
  rfl

theorem poolCount_initial (p : FilePipeline) (ctx : Context) (filenames : List String) :
    poolCount (p.initialPool ctx filenames) = filenames.length := by
  simp [poolCount, FilePipeline.initialPool, heldFiles_replicate_receiving]

theorem cancelledInv_initial (p : FilePipeline) (e : String) (filenames : List String) :
    CancelledInv p e filenames (p.initialPool (some e) filenames) := by
  refine ⟨rfl, by simp [FilePipeline.initialPool], rfl, rfl, ?_, ?_, ?_, ?_, ?_⟩
  · intro w hw f
    simp only [FilePipeline.initialPool] at hw
    rw [List.eq_of_mem_replicate hw]
    intro h
    cases h
  · intro h
    simp [FilePipeline.initialPool] at h
  · simp [FilePipeline.initialPool, heldFiles_replicate_receiving]
  · simp [FilePipeline.initialPool]
  · intro h
    have h0 : (List.replicate p.getWorkerCount WorkerPhase.receiving).count .returned = 0 := by
      rw [List.count_eq_zero]
      intro hm
      have := List.eq_of_mem_replicate hm
      cases this
    simp [FilePipeline.initialPool, h0] at h

theorem not_processing_set (workers : List WorkerPhase) (i : Nat) (w2 : WorkerPhase)
    (h : ∀ w, w ∈ workers → ∀ f, w ≠ .processing f) (h2 : ∀ f, w2 ≠ .processing f) :
    ∀ w, w ∈ workers.set i w2 → ∀ f, w ≠ .processing f := by
  intro w hw f
  rcases List.mem_or_eq_of_mem_set hw with h1 | h1
  · exact h w h1 f
  · rw [h1]
    exact h2 f

theorem cancelledInv_step (p : FilePipeline) (e : String) (filenames : List String)
    (s s2 : PoolState) (ev : Event) (hinv : CancelledInv p e filenames s)
    (hstep : p.step s ev = some s2) : CancelledInv p e filenames s2 := by
  obtain ⟨ctx, unsent, jobs, closed, workers, results, errors⟩ := s
  obtain ⟨hctx, hlen, hres, herr, hproc, hclosed, hcount, hle, hlt⟩ := hinv
  simp only at hctx hlen hres herr hproc hclosed hcount hle hlt
  rcases step_cases p _ s2 ev hstep with ⟨msg, hc, h⟩ | ⟨f, rest, hu, h⟩ | ⟨hu, hcl, h⟩ |
    ⟨i, f, rest, hw, hj, h⟩ | ⟨i, hw, hj, hcl, h⟩ | ⟨i, f, err, hw, hc, h⟩ | ⟨i, f, hw, hc, h⟩ |
    ⟨i, f, err, hw, _, h⟩ | ⟨i, f, d, hw, _, h⟩
  · simp only at hc
    rw [hc] at hctx
    cases hctx
  · simp only at hu
    subst h; subst hu
    have hnc : ¬ closed = true := fun hc => by
      have := hclosed hc
      cases this
    refine ⟨hctx, hlen, hres, herr, hproc, fun hc => absurd hc hnc, ?_, hle, ?_⟩
    · simp only [List.length_append, List.length_cons, List.length_nil] at hcount ⊢
      omega
    · intro h
      exact absurd (hlt h).2 hnc
  · simp only at hu hcl
    subst h
    refine ⟨hctx, hlen, hres, herr, hproc, fun _ => hu, hcount, hle, ?_⟩
    intro h
    exact ⟨(hlt h).1, rfl⟩
  · simp only at hw hj
    subst h; subst hj
    have hh := heldFiles_set_length workers i .receiving (.selecting f) hw
    simp only [heldFile, Option.toList, List.length_nil, List.length_cons] at hh
    have hc := count_returned_set workers i .receiving (.selecting f) hw
    simp only [if_neg (show ¬ WorkerPhase.receiving = .returned by intro h; cases h),
      if_neg (show ¬ WorkerPhase.selecting f = .returned by intro h; cases h)] at hc
    refine ⟨hctx, by simpa using hlen, hres, herr,
      not_processing_set workers i _ hproc (fun g h => by cases h), hclosed, ?_, ?_, ?_⟩
    · simp only [List.length_cons] at hcount ⊢
      omega
    · simp only
      omega
    · intro h
      simp only at h
      have := (hlt (by omega)).1
      cases this
  · simp only at hw hj hcl
    subst h
    have hh := heldFiles_set_length workers i .receiving .returned hw
    simp only [heldFile, Option.toList, List.length_nil] at hh
    have hc := count_returned_set workers i .receiving .returned hw
    simp only [if_neg (show ¬ WorkerPhase.receiving = .returned by intro h; cases h),
      if_true] at hc
    refine ⟨hctx, by simpa using hlen, hres, herr,
      not_processing_set workers i _ hproc (fun g h => by cases h), hclosed, ?_, ?_, ?_⟩
    · simp only
      omega
    · simp only
      omega
    · intro _
      exact ⟨hj, hcl⟩
  · simp only at hw hc
    subst h
    rw [hctx] at hc
    simp only [Option.some.injEq] at hc
    subst hc
    have hh := heldFiles_set_length workers i (.selecting f) .returned hw
    simp only [heldFile, Option.toList, List.length_nil, List.length_cons] at hh
    have hc := count_returned_set workers i (.selecting f) .returned hw
    simp only [if_neg (show ¬ WorkerPhase.selecting f = .returned by intro h; cases h),
      if_true] at hc
    refine ⟨hctx, by simpa using hlen, hres, ?_,
      not_processing_set workers i _ hproc (fun g h => by cases h), hclosed, ?_, ?_, ?_⟩
    · simp only [List.length_append, List.length_cons, List.length_nil]
      rw [List.replicate_succ', ← herr]
    · simp only [List.length_append, List.length_cons, List.length_nil] at hcount ⊢
      omega
    · simp only [List.length_append, List.length_cons, List.length_nil]
      omega
    · intro h
      simp only [List.length_append, List.length_cons, List.length_nil] at h
      exact hlt (by omega)
  · simp only at hc
    rw [hc] at hctx
    cases hctx
  · simp only at hw
    exact absurd rfl (hproc _ (List.mem_iff_getElem?.2 ⟨i, hw⟩) f)
  · simp only at hw
    exact absurd rfl (hproc _ (List.mem_iff_getElem?.2 ⟨i, hw⟩) f)

theorem cancelledInv_run (p : FilePipeline) (e : String) (filenames : List String)
    (sched : List Event) (s s2 : PoolState) (hinv : CancelledInv p e filenames s)
    (hrun : p.runEvents s sched = some s2) : CancelledInv p e filenames s2 := by
  induction sched generalizing s with
  | nil =>
    simp only [FilePipeline.runEvents, Option.some.injEq] at hrun
    subst hrun
    exact hinv
  | cons ev rest ih =>
    cases hs : p.step s ev with
    | none => simp [FilePipeline.runEvents, hs] at hrun
    | some s1 =>
      simp only [FilePipeline.runEvents, hs] at hrun
      exact ih s1 (cancelledInv_step p e filenames s s1 ev hinv hs) hrun

/-- In a finished pool whose run started with the context cancelled, nothing
was processed, `min N W` workers reported the cancellation and the other
filenames are still in `jobs`. -/
theorem cancelledInv_finished (p : FilePipeline) (e : String) (filenames : List String)
    (s : PoolState) (hinv : CancelledInv p e filenames s)
    (hfin : FilePipeline.poolFinished s = true) :
    s.results = [] ∧
    s.errors = List.replicate (min filenames.length p.getWorkerCount) e ∧
    s.jobs.length = filenames.length - min filenames.length p.getWorkerCount := by
  obtain ⟨_, hlen, hres, herr, _, _, hcount, hle, hlt⟩ := hinv
  simp only [FilePipeline.poolFinished, Bool.and_eq_true, List.isEmpty_iff] at hfin
  obtain ⟨⟨hu, _⟩, hall⟩ := hfin
  have hheld := heldFiles_of_all_returned s.workers hall
  have hc : s.workers.count .returned = p.getWorkerCount := by
    rw [← hlen, List.count_eq_length]
    intro w hw
    rw [List.all_eq_true] at hall
    have := hall w hw
    simp at this
    exact this.symm
  rw [hheld, hu] at hcount
  rw [hc] at hle hlt
  simp only [List.length_nil] at hcount
  have hk : s.errors.length = min filenames.length p.getWorkerCount := by
    by_cases hl : s.errors.length < p.getWorkerCount
    · have hj := (hlt hl).1
      rw [hj] at hcount
      simp only [List.length_nil] at hcount
      omega
    · omega
  refine ⟨hres, ?_, ?_⟩
  · rw [← hk]
    exact herr
  · omega

/-- From every state some run without cancellation event reaches a finished
pool. -/
theorem exists_complete_run (p : FilePipeline) (n : Nat) :
    ∀ s : PoolState, poolMeasure s ≤ n →
      ∃ sched s2, noCancel sched ∧ p.runEvents s sched = some s2 ∧
        FilePipeline.poolFinished s2 = true := by
  induction n with
  | zero =>
    intro s hs
    by_cases hfin : FilePipeline.poolFinished s = true
    · exact ⟨[], s, (fun msg h => by cases h), rfl, hfin⟩
    · obtain ⟨ev, _, hev⟩ := pool_progress p s (by simpa using hfin)
      obtain ⟨s1, hs1⟩ := Option.isSome_iff_exists.1 hev
      have := step_decreases p s s1 ev hs1
      omega
  | succ n ih =>
    intro s hs
    by_cases hfin : FilePipeline.poolFinished s = true
    · exact ⟨[], s, (fun msg h => by cases h), rfl, hfin⟩
    · obtain ⟨ev, hnc, hev⟩ := pool_progress p s (by simpa using hfin)
      obtain ⟨s1, hs1⟩ := Option.isSome_iff_exists.1 hev
      have hlt := step_decreases p s s1 ev hs1
      obtain ⟨sched, s2, hsn, hrun, hf⟩ := ih s1 (by omega)
      refine ⟨ev :: sched, s2, ?_, ?_, hf⟩
      · intro msg hm
        rcases List.mem_cons.1 hm with h | h
        · exact hnc msg h.symm
        · exact hsn msg h
      · simp only [FilePipeline.runEvents, hs1]
        exact hrun

theorem containsStr_mid (a sub b : String) : containsStr (a ++ sub ++ b) sub = true := by
  unfold containsStr
  rw [List.any_eq_true]
  refine ⟨sub.data ++ b.data, ?_, ?_⟩
  · rw [List.mem_tails]
    exact ⟨a.data, by simp [String.data_append]⟩
  · rw [List.isPrefixOf_iff_prefix]
    exact List.prefix_append _ _

theorem intercalate_go_start (s : String) :
    ∀ (l : List String) (acc : String), ∃ t, String.intercalate.go acc s l = acc ++ t
  | [], acc => ⟨"", by simp [String.intercalate.go]⟩
  | a :: rest, acc => by
    obtain ⟨t, ht⟩ := intercalate_go_start s rest (acc ++ s ++ a)
    refine ⟨s ++ a ++ t, ?_⟩
    show String.intercalate.go (acc ++ s ++ a) s rest = acc ++ (s ++ a ++ t)
    rw [ht]
    simp only [String.append_assoc]

/-- The combined error message shows the first collected error. -/
theorem formatErrors_contains_head (e : String) (rest : List String) :
    containsStr ("processing errors: " ++ formatErrors (e :: rest)) e = true := by
  obtain ⟨t, ht⟩ := intercalate_go_start " " rest e
  have h : "processing errors: " ++ formatErrors (e :: rest) =
      "processing errors: [" ++ e ++ (t ++ "]") := by
    show "processing errors: " ++ ("[" ++ String.intercalate.go e " " rest ++ "]") = _
    rw [ht]
    simp only [String.append_assoc]
    rfl
  rw [h]
  exact containsStr_mid _ _ _

/-- What a complete run returns when the context is cancelled on entry. -/
theorem processFilesConcurrently_cancelled (p : FilePipeline) (e : String)
    (filenames : List String) (sched : List Event) (recs : List ConfigData)
    (err : Option String)
    (h : p.processFilesConcurrently (some e) filenames sched = some (recs, err)) :
    recs = [] ∧
    err = if 0 < min filenames.length p.getWorkerCount then
        some ("processing errors: " ++
          formatErrors (List.replicate (min filenames.length p.getWorkerCount) e))
      else none := by
  unfold FilePipeline.processFilesConcurrently at h
  cases hrun : p.runEvents (p.initialPool (some e) filenames) sched with
  | none => simp [hrun] at h
  | some s =>
    simp only [hrun] at h
    by_cases hfin : FilePipeline.poolFinished s = true
    · simp only [hfin, if_true, Option.some.injEq] at h
      have hinv := cancelledInv_run p e filenames sched _ s
        (cancelledInv_initial p e filenames) hrun
      obtain ⟨hres, herr, _⟩ := cancelledInv_finished p e filenames s hinv hfin
      rw [hres, herr] at h
      simp only [FilePipeline.collectResults, List.filterMap_nil, List.length_replicate,
        gt_iff_lt] at h
      split at h
      · rename_i hpos
        simp only [Prod.mk.injEq] at h
        rw [if_pos hpos]
        exact ⟨h.1.symm, h.2.symm⟩
      · rename_i hpos
        simp only [Prod.mk.injEq] at h
        rw [if_neg hpos]
        exact ⟨h.1.symm, h.2.symm⟩
    · simp [hfin] at h

/-- C24. On a pipeline with a processor, a non-empty list of valid filenames
and a context that is already cancelled with error `e`: a complete run exists;
no run of the worker pool is longer than 4N + W + 2 events, an unfinished pool
can always take a further step, and no worker ever reaches the call of
`ProcessFile`; every complete run returns no record and a non-nil error whose
message contains `e` (it lists `e` once for each of the min(N, W) workers that
pulled a filename). -/
theorem processFiles_cancelled (p : FilePipeline) (e : String) (filenames : List String)
    (hproc : p.processors ≠ []) (hne : filenames ≠ [])
    (hvalid : ∀ f, f ∈ filenames → p.validateFilename f = none) :
    (∃ sched, (p.ProcessFiles (some e) (some filenames) sched).isSome = true) ∧
    (∀ sched s, p.runEvents (p.initialPool (some e) filenames) sched = some s →
      sched.length ≤ 4 * filenames.length + p.getWorkerCount + 2 ∧
      (FilePipeline.poolFinished s = false → ∃ ev, (p.step s ev).isSome = true) ∧
      (∀ w, w ∈ s.workers → ∀ f, w ≠ .processing f) ∧
      s.results = []) ∧
    ∀ sched recs err, p.ProcessFiles (some e) (some filenames) sched = some (recs, err) →
      recs = [] ∧
      ∃ msg, err = some msg ∧ containsStr msg e = true ∧
        msg = "processing errors: " ++
          formatErrors (List.replicate (min filenames.length p.getWorkerCount) e) := by
  refine ⟨?_, ?_, ?_⟩
  · obtain ⟨sched, s2, _, hrun, hfin⟩ :=
      exists_complete_run p _ (p.initialPool (some e) filenames) (Nat.le_refl _)
    refine ⟨sched, ?_⟩
    rw [processFiles_eq_concurrent p (some e) filenames _ hproc hne hvalid]
    simp [FilePipeline.processFilesConcurrently, hrun, hfin]
  · intro sched s hrun
    have hinv := cancelledInv_run p e filenames sched _ s (cancelledInv_initial p e filenames) hrun
    refine ⟨?_, ?_, hinv.2.2.2.2.1, hinv.2.2.1⟩
    · have h1 := run_length_le p sched _ s hrun
      have h2 := poolMeasure_initial p (some e) filenames
      omega
    · intro hfin
      obtain ⟨ev, _, hev⟩ := pool_progress p s hfin
      exact ⟨ev, hev⟩
  · intro sched recs err h
    rw [processFiles_eq_concurrent p (some e) filenames _ hproc hne hvalid] at h
    obtain ⟨hrecs, herr⟩ := processFilesConcurrently_cancelled p e filenames sched recs err h
    have hpos : 0 < min filenames.length p.getWorkerCount := by
      have h1 := getWorkerCount_pos p
      have h2 : 0 < filenames.length := List.length_pos.2 hne
      omega
    rw [if_pos hpos] at herr
    refine ⟨hrecs, _, herr, ?_, rfl⟩
    obtain ⟨k, hk⟩ : ∃ k, min filenames.length p.getWorkerCount = k + 1 :=
      ⟨min filenames.length p.getWorkerCount - 1, by omega⟩
    rw [hk, List.replicate_succ]
    exact formatErrors_contains_head e _

/-- Witness for C24: the YAML/JSON pipeline on `./a.yaml` with the context
cancelled with `context canceled`. -/
theorem processFiles_cancelled_witness :
    ∃ sched,
      ((yamlJsonPipeline sampleExternals [("./a.yaml", "k: v")] defaultConfig).ProcessFiles
        (some "context canceled") (some ["./a.yaml"]) sched).isSome = true :=
  (processFiles_cancelled (yamlJsonPipeline sampleExternals [("./a.yaml", "k: v")] defaultConfig)
    "context canceled" ["./a.yaml"] (List.cons_ne_nil _ _) (by decide) (by decide)).1

/-! ## Accounting of the worker pool -/

theorem poolCount_reachable (p : FilePipeline) (ctx : Context) (filenames : List String)
    (sched : List Event) (s : PoolState)
    (hrun : p.runEvents (p.initialPool ctx filenames) sched = some s) :
    poolCount s = filenames.length := by
  rw [poolCount_run p sched _ s hrun, poolCount_initial]

/-- C30. The pool starts `W` workers, `W` being `MaxWorkers` when positive and 4
otherwise. A worker that runs its `select` under a cancelled context sends the
cancellation error and returns, and a returned worker takes no further step.
When the context is cancelled on entry, every finished pool holds no result,
min(N, W) cancellation errors and N - min(N, W) filenames left in `jobs`, and
the call returns no record. In every run, whenever the context is cancelled,
the results, the errors, the filenames held, queued and unsent add up to N, so
the records and the collected errors of a complete run are at most N. -/
theorem worker_pool_accounting (p : FilePipeline) (filenames : List String) :
    (p.getWorkerCount = if p.config.MaxWorkers > 0 then p.config.MaxWorkers.toNat else 4) ∧
    (∀ ctx, (p.initialPool ctx filenames).workers =
      List.replicate p.getWorkerCount .receiving) ∧
    (∀ (s : PoolState) (i : Nat) (f e : String),
      s.workers[i]? = some (.selecting f) → s.ctx = some e →
      p.step s (.select i) =
        some { s with errors := s.errors ++ [e], workers := s.workers.set i .returned }) ∧
    (∀ (s : PoolState) (i : Nat), s.workers[i]? = some .returned →
      p.step s (.receive i) = none ∧ p.step s (.select i) = none ∧
        p.step s (.process i) = none) ∧
    (∀ e sched s, p.runEvents (p.initialPool (some e) filenames) sched = some s →
      FilePipeline.poolFinished s = true →
      s.results = [] ∧
      s.errors = List.replicate (min filenames.length p.getWorkerCount) e ∧
      s.jobs.length = filenames.length - min filenames.length p.getWorkerCount) ∧
    (∀ e sched recs err,
      p.processFilesConcurrently (some e) filenames sched = some (recs, err) →
      recs = [] ∧
      err = if 0 < min filenames.length p.getWorkerCount then
          some ("processing errors: " ++
            formatErrors (List.replicate (min filenames.length p.getWorkerCount) e))
        else none) ∧
    (∀ ctx sched s, p.runEvents (p.initialPool ctx filenames) sched = some s →
      poolCount s = filenames.length ∧
      s.results.length + s.errors.length ≤ filenames.length) ∧
    (∀ ctx sched recs err,
      p.processFilesConcurrently ctx filenames sched = some (recs, err) →
      ∃ errs : List String, recs.length + errs.length ≤ filenames.length ∧
        err = if errs.length > 0 then some ("processing errors: " ++ formatErrors errs)
          else none) := by
  refine ⟨rfl, fun _ => rfl, ?_, ?_, ?_, ?_, ?_, ?_⟩
  · intro s i f e hw hc
    simp only [FilePipeline.step, hw, hc]
  · intro s i hw
    refine ⟨?_, ?_, ?_⟩ <;> simp only [FilePipeline.step, hw]
  · intro e sched s hrun hfin
    exact cancelledInv_finished p e filenames s
      (cancelledInv_run p e filenames sched _ s (cancelledInv_initial p e filenames) hrun) hfin
  · intro e sched recs err h
    exact processFilesConcurrently_cancelled p e filenames sched recs err h
  · intro ctx sched s hrun
    have h := poolCount_reachable p ctx filenames sched s hrun
    refine ⟨h, ?_⟩
    unfold poolCount at h
    omega
  · intro ctx sched recs err h
    unfold FilePipeline.processFilesConcurrently at h
    cases hrun : p.runEvents (p.initialPool ctx filenames) sched with
    | none => simp [hrun] at h
    | some s =>
      simp only [hrun] at h
      by_cases hfin : FilePipeline.poolFinished s = true
      · simp only [hfin, if_true, Option.some.injEq] at h
        have hc := poolCount_reachable p ctx filenames sched s hrun
        unfold poolCount at hc
        have hl : (s.results.filterMap (fun r => r.Data)).length ≤ s.results.length :=
          List.length_filterMap_le _ _
        refine ⟨s.errors, ?_, ?_⟩
        · have : recs = s.results.filterMap (fun r => r.Data) := by
            simp only [FilePipeline.collectResults] at h
            split at h <;> simp only [Prod.mk.injEq] at h <;> exact h.1.symm
          rw [this]
          omega
        · simp only [FilePipeline.collectResults] at h
          split at h <;> rename_i hpos <;> simp only [Prod.mk.injEq] at h
          · rw [if_pos hpos]
            exact h.2.symm
          · rw [if_neg hpos]
            exact h.2.symm
      · simp [hfin] at h

/-! ## A pipeline has no reader -/

theorem registerProcessor_readers (p : FilePipeline) (processor : Option FileProcessor) :
    (p.RegisterProcessor processor).1.readers = p.readers := by
  cases processor with
  | none => rfl
  | some d =>
    show (if p.isProcessorRegistered d = true then (p, some "processor already registered")
      else ({ p with processors := p.processors ++ [d] }, none)).1.readers = p.readers
    by_cases h : p.isProcessorRegistered d = true
    · rw [if_pos h]
    · rw [if_neg h]

theorem afterCalls_readers (p : FilePipeline) (calls : List PipelineCall) :
    (afterCalls p calls).readers = p.readers := by
  induction calls generalizing p with
  | nil => rfl
  | cons c rest ih =>
    show (afterCalls (afterCall p c) rest).readers = p.readers
    rw [ih]
    cases c with
    | RegisterProcessor d => exact registerProcessor_readers p d
    | ProcessFile _ _ => rfl
    | ProcessFiles _ _ _ => rfl
    | GetProcessors => rfl

theorem processFile_no_reader (p : FilePipeline) (h : p.readers = []) (ctx : Context)
    (filename : String) : ∃ err, p.ProcessFile ctx filename = .error err := by
  unfold FilePipeline.ProcessFile
  cases p.validateFilename filename with
  | some e => exact ⟨_, rfl⟩
  | none =>
    cases p.findProcessor filename with
    | none => exact ⟨_, rfl⟩
    | some d =>
      refine ⟨"failed to read file " ++ filename ++ ": " ++ "no file readers registered", ?_⟩
      simp [FilePipeline.readFileContent, h]

theorem results_nil_run (p : FilePipeline)
    (hfail : ∀ ctx filename, ∃ err, p.ProcessFile ctx filename = .error err)
    (sched : List Event) (s s2 : PoolState) (hs : s.results = [])
    (hrun : p.runEvents s sched = some s2) : s2.results = [] := by
  induction sched generalizing s with
  | nil =>
    simp only [FilePipeline.runEvents, Option.some.injEq] at hrun
    rw [← hrun]
    exact hs
  | cons e rest ih =>
    cases hst : p.step s e with
    | none => simp [FilePipeline.runEvents, hst] at hrun
    | some s1 =>
      simp only [FilePipeline.runEvents, hst] at hrun
      refine ih s1 ?_ hrun
      rcases step_cases p s s1 e hst with ⟨_, _, h⟩ | ⟨_, _, _, h⟩ | ⟨_, _, h⟩ |
        ⟨_, _, _, _, _, h⟩ | ⟨_, _, _, _, h⟩ | ⟨_, _, _, _, _, h⟩ | ⟨_, _, _, _, h⟩ |
        ⟨_, _, _, _, _, h⟩ | ⟨i, f, d, _, hok, h⟩
      all_goals first
        | (rw [h]; exact hs)
        | (obtain ⟨err, herr⟩ := hfail s.ctx f
           rw [herr] at hok
           cases hok)

/-- C25. A pipeline made by `NewFilePipeline` and then used through any
sequence of calls of its exported methods has no reader; so `ProcessFile`
fails for every context and filename, with `no file readers registered` as
the cause when the filename is valid and a processor accepts it, and a
complete run of `ProcessFiles` never returns a record. -/
theorem pipeline_without_reader (config : PipelineConfig) (calls : List PipelineCall) :
    (afterCalls (NewFilePipeline config) calls).readers = [] ∧
    (∀ ctx filename,
      ∃ err, (afterCalls (NewFilePipeline config) calls).ProcessFile ctx filename =
        .error err) ∧
    (∀ ctx filename d,
      (afterCalls (NewFilePipeline config) calls).validateFilename filename = none →
      (afterCalls (NewFilePipeline config) calls).findProcessor filename = some d →
      (afterCalls (NewFilePipeline config) calls).ProcessFile ctx filename =
        .error ("failed to read file " ++ filename ++ ": " ++ "no file readers registered")) ∧
    (∀ ctx filenames sched recs err,
      (afterCalls (NewFilePipeline config) calls).ProcessFiles ctx filenames sched =
        some (recs, err) → recs = []) := by
  have hr : (afterCalls (NewFilePipeline config) calls).readers = [] :=
    afterCalls_readers _ calls
  generalize afterCalls (NewFilePipeline config) calls = p at hr
  refine ⟨hr, processFile_no_reader p hr, ?_, ?_⟩
  · intro ctx filename d hv hf
    simp [FilePipeline.ProcessFile, hv, hf, FilePipeline.readFileContent, hr]
  · intro ctx filenames sched recs err h
    unfold FilePipeline.ProcessFiles at h
    cases hv : p.validateFilenames filenames with
    | some e =>
      simp only [hv, Option.some.injEq, Prod.mk.injEq] at h
      exact h.1.symm
    | none =>
      simp only [hv] at h
      split at h
      · simp only [Option.some.injEq, Prod.mk.injEq] at h
        exact h.1.symm
      · unfold FilePipeline.processFilesConcurrently at h
        cases hrun : p.runEvents (p.initialPool ctx (filenames.getD [])) sched with
        | none => simp [hrun] at h
        | some s =>
          simp only [hrun] at h
          split at h
          · have hres := results_nil_run p (processFile_no_reader p hr) sched _ s rfl hrun
            simp only [Option.some.injEq] at h
            rw [hres] at h
            simp only [FilePipeline.collectResults, List.filterMap_nil] at h
            split at h <;> simp only [Prod.mk.injEq] at h <;> exact h.1.symm
          · cases h

/-! ## The INI loop -/

theorem setINIValue_in_section (result : DataMap) (section_ key value : String) (m : DataMap)
    (hne : section_ ≠ "") (hm : mapGet result section_ = some (.map m)) :
    setINIValue result section_ key value =
      mapSet result section_ (.map (mapSet m key (.str (removeQuotes value)))) := by
  simp [setINIValue, hne, hm]

theorem iniState_keyValue (lines : List String) (line key value : String)
    (hc : (isEmptyLine (trimLine line) || isINIComment (trimLine line)) = false)
    (hs : isINISection (trimLine line) = false)
    (hp : parseINIKeyValue (trimLine line) = (key, value, true)) :
    iniState (lines ++ [line]) =
      (setINIValue (iniState lines).1 (iniState lines).2 key value, (iniState lines).2) := by
  rw [iniState_append, parseINILine_eq, hc, hs, hp]
  simp

/-- C26. After any number of lines of the loop of
`parseINIContentWithSections`: when the current section name is non-empty the
result holds a mapping under it, so `setINIValue` takes the branch that stores
into that mapping; and a key-value line with a non-empty key is stored, at the
top level when the current section is empty and in the mapping of the current
section otherwise. A top-level key named like a later section is replaced by
the section: `db=1`, `[db]`, `host=x` decodes to the section `db` holding
`host`. -/
theorem ini_loop_invariant (lines : List String) :
    ((iniState lines).2 ≠ "" →
      ∃ m, mapGet (iniState lines).1 (iniState lines).2 = some (.map m) ∧
        ∀ key value, setINIValue (iniState lines).1 (iniState lines).2 key value =
          mapSet (iniState lines).1 (iniState lines).2
            (.map (mapSet m key (.str (removeQuotes value))))) ∧
    (∀ line key value : String,
      (isEmptyLine (trimLine line) || isINIComment (trimLine line)) = false →
      isINISection (trimLine line) = false →
      parseINIKeyValue (trimLine line) = (key, value, true) →
      (iniState (lines ++ [line])).2 = (iniState lines).2 ∧
      ((iniState lines).2 = "" →
        mapGet (iniState (lines ++ [line])).1 key = some (.str (removeQuotes value))) ∧
      ((iniState lines).2 ≠ "" →
        ∃ m, mapGet (iniState (lines ++ [line])).1 (iniState lines).2 = some (.map m) ∧
          mapGet m key = some (.str (removeQuotes value)))) ∧
    (∀ content, parseINIContentWithSections content = (iniState (splitLines content)).1) ∧
    parseINIContent "db=1\n[db]\nhost=x" = .ok [("db", .map [("host", .str "x")])] := by
  refine ⟨?_, ?_, fun _ => rfl, rfl⟩
  · intro hne
    obtain ⟨m, hm⟩ := ini_section_is_mapping lines hne
    exact ⟨m, hm, fun key value => setINIValue_in_section _ _ key value m hne hm⟩
  · intro line key value hc hs hp
    rw [iniState_keyValue lines line key value hc hs hp]
    refine ⟨rfl, ?_, ?_⟩
    · intro h0
      simp [setINIValue, h0, mapGet_mapSet]
    · intro hne
      obtain ⟨m, hm⟩ := ini_section_is_mapping lines hne
      refine ⟨mapSet m key (.str (removeQuotes value)), ?_, ?_⟩
      · show mapGet (setINIValue (iniState lines).1 (iniState lines).2 key value) _ = _
        rw [setINIValue_in_section _ _ key value m hne hm]
        simp [mapGet_mapSet]
      · simp [mapGet_mapSet]

/-! ## Repeated section headers -/

theorem parseINILine_in_section (st : DataMap × String) (line : String) (m : DataMap)
    (hne : st.2 ≠ "") (hm : mapGet st.1 st.2 = some (.map m))
    (hs : isINISection (trimLine line) = false) :
    (parseINILine st line).2 = st.2 ∧
    mapGet (parseINILine st line).1 st.2 = some (.map (sectionLine m line)) := by
  rw [parseINILine_eq]
  unfold sectionLine
  by_cases hc : (isEmptyLine (trimLine line) || isINIComment (trimLine line)) = true
  · rw [if_pos hc, if_pos hc]
    exact ⟨rfl, hm⟩
  · rw [if_neg hc, if_neg hc, if_neg (by simp [hs])]
    cases hp : parseINIKeyValue (trimLine line) with
    | mk k rest =>
      cases rest with
      | mk v ok =>
        cases ok with
        | false => exact ⟨rfl, hm⟩
        | true =>
          refine ⟨rfl, ?_⟩
          show mapGet (setINIValue st.1 st.2 k v) st.2 = _
          rw [setINIValue_in_section _ _ k v m hne hm]
          simp [mapGet_mapSet]

theorem foldl_in_section (body : List String) (st : DataMap × String) (m : DataMap)
    (hne : st.2 ≠ "") (hm : mapGet st.1 st.2 = some (.map m))
    (hb : ∀ l, l ∈ body → isINISection (trimLine l) = false) :
    (body.foldl parseINILine st).2 = st.2 ∧
    mapGet (body.foldl parseINILine st).1 st.2 = some (.map (body.foldl sectionLine m)) := by
  induction body generalizing st m with
  | nil => exact ⟨rfl, hm⟩
  | cons l rest ih =>
    obtain ⟨h1, h2⟩ := parseINILine_in_section st l m hne hm (hb l (List.mem_cons_self _ _))
    have := ih (parseINILine st l) (sectionLine m l) (by rw [h1]; exact hne) (by rw [h1]; exact h2)
      (fun x hx => hb x (List.mem_cons_of_mem _ hx))
    rw [h1] at this
    exact this

theorem parseINILine_other_section (st : DataMap × String) (line name : String)
    (h1 : st.2 ≠ name) (h2 : st.2 ≠ "")
    (hl : isINISection (trimLine line) = true →
      extractINISection (trimLine line) ≠ name ∧ extractINISection (trimLine line) ≠ "") :
    (parseINILine st line).2 ≠ name ∧ (parseINILine st line).2 ≠ "" ∧
    mapGet (parseINILine st line).1 name = mapGet st.1 name := by
  rw [parseINILine_eq]
  by_cases hc : (isEmptyLine (trimLine line) || isINIComment (trimLine line)) = true
  · rw [if_pos hc]
    exact ⟨h1, h2, rfl⟩
  · rw [if_neg hc]
    by_cases hs : isINISection (trimLine line) = true
    · rw [if_pos hs]
      obtain ⟨hn1, hn2⟩ := hl hs
      refine ⟨hn1, hn2, ?_⟩
      simp [mapGet_mapSet, hn1]
    · rw [if_neg hs]
      cases hp : parseINIKeyValue (trimLine line) with
      | mk k rest =>
        cases rest with
        | mk v ok =>
          cases ok with
          | false => exact ⟨h1, h2, rfl⟩
          | true =>
            refine ⟨h1, h2, ?_⟩
            show mapGet (setINIValue st.1 st.2 k v) name = _
            unfold setINIValue
            simp only [ne_eq, h2, not_false_eq_true, if_true]
            split
            · simp [mapGet_mapSet, h1]
            · rfl

theorem foldl_other_sections (rest : List String) (st : DataMap × String) (name : String)
    (h1 : st.2 ≠ name) (h2 : st.2 ≠ "")
    (hr : ∀ l, l ∈ rest → isINISection (trimLine l) = true →
      extractINISection (trimLine l) ≠ name ∧ extractINISection (trimLine l) ≠ "") :
    mapGet (rest.foldl parseINILine st).1 name = mapGet st.1 name := by
  induction rest generalizing st with
  | nil => rfl
  | cons l t ih =>
    obtain ⟨a, b, c⟩ := parseINILine_other_section st l name h1 h2 (hr l (List.mem_cons_self _ _))
    rw [List.foldl_cons, ih (parseINILine st l) a b (fun x hx => hr x (List.mem_cons_of_mem _ hx)), c]

/-- C27 as stated fails. After the repeated header `[]` the line `k=v` lands
at the top level, so the mapping under the empty name holds none of the lines
that follow its last occurrence; and after `[a]`, `[a]`, `k=v` the lines `[]`,
`a=1` replace the section `a` by the scalar `1`. -/
theorem ini_repeated_section_fails :
    parseINIContent "[]\n[]\nk=v" = .ok [("", .map []), ("k", .str "v")] ∧
    parseINIContent "[a]\n[a]\nk=v\n[]\na=1" = .ok [("a", .str "1"), ("", .map [])] :=
  ⟨rfl, rfl⟩

/-- C27, as amended. A section header sets the key of its name to a new empty
mapping, whatever the key held before (the mapping of an earlier occurrence or
a top-level scalar). For lines `before`, a header `[name]` with a non-empty
name, the lines `body` up to the next header and the lines `rest` from that
header on, in which no header is named `name` or has the empty name: the
decoded result holds under `name` exactly the mapping made of the key-value
lines of `body`, nothing of `before` being kept. -/
theorem ini_repeated_section (before body rest : List String) (hdr name : String)
    (hh : isINISection (trimLine hdr) = true) (hn : extractINISection (trimLine hdr) = name)
    (hne : name ≠ "")
    (hb : ∀ l, l ∈ body → isINISection (trimLine l) = false)
    (hhead : ∀ l, rest.head? = some l → isINISection (trimLine l) = true)
    (hr : ∀ l, l ∈ rest → isINISection (trimLine l) = true →
      extractINISection (trimLine l) ≠ name ∧ extractINISection (trimLine l) ≠ "") :
    iniState (before ++ [hdr]) = (mapSet (iniState before).1 name (.map []), name) ∧
    mapGet (iniState (before ++ [hdr])).1 name = some (.map []) ∧
    mapGet (iniState (before ++ [hdr] ++ body)).1 name = some (.map (sectionBody body)) ∧
    mapGet (iniState (before ++ [hdr] ++ body ++ rest)).1 name =
      some (.map (sectionBody body)) := by
  have h0 : iniState (before ++ [hdr]) = (mapSet (iniState before).1 name (.map []), name) := by
    rw [iniState_append, parseINILine_header _ _ hh, hn]
  have h1 : mapGet (iniState (before ++ [hdr])).1 name = some (.map []) := by
    rw [h0]
    simp [mapGet_mapSet]
  have hsec : (iniState (before ++ [hdr])).2 = name := by rw [h0]
  have hbody := foldl_in_section body (iniState (before ++ [hdr])) []
    (by rw [hsec]; exact hne) (by rw [hsec]; exact h1) hb
  rw [hsec] at hbody
  have e1 : iniState (before ++ [hdr] ++ body) =
      body.foldl parseINILine (iniState (before ++ [hdr])) := by
    simp [iniState, List.foldl_append]
  have h2 : mapGet (iniState (before ++ [hdr] ++ body)).1 name =
      some (.map (sectionBody body)) := by
    rw [e1]
    exact hbody.2
  refine ⟨h0, h1, h2, ?_⟩
  have e2 : iniState (before ++ [hdr] ++ body ++ rest) =
      rest.foldl parseINILine (iniState (before ++ [hdr] ++ body)) := by
    simp [iniState, List.foldl_append]
  rw [e2]
  cases rest with
  | nil => exact h2
  | cons l t =>
    have hl := hhead l rfl
    obtain ⟨hl1, hl2⟩ := hr l (List.mem_cons_self _ _) hl
    rw [List.foldl_cons, parseINILine_header _ _ hl]
    rw [foldl_other_sections t _ name hl1 hl2 (fun x hx => hr x (List.mem_cons_of_mem _ hx))]
    simp only [mapGet_mapSet, hl1, if_false]
    exact h2

/-- Witness for C27: `[db]`, `host=a`, `[db]`, `port=1`, `[api]`, `k=v`. -/
theorem ini_repeated_section_witness :
    mapGet (iniState (["[db]", "host=a"] ++ ["[db]"] ++ ["port=1"] ++ ["[api]", "k=v"])).1 "db" =
      some (.map (sectionBody ["port=1"])) :=
  (ini_repeated_section ["[db]", "host=a"] ["port=1"] ["[api]", "k=v"] "[db]" "db"
    (by decide) (by decide) (by decide) (by decide) (by decide) (by decide)).2.2.2

/-! ## Well-formed output of the key-value decoders -/

theorem head_dropWhile_not (p : Char → Bool) (l : List Char) (c : Char)
    (h : (l.dropWhile p).head? = some c) : p c = false := by
  induction l with
  | nil => simp at h
  | cons d t ih =>
    by_cases hd : p d = true
    · rw [List.dropWhile_cons_of_pos hd] at h
      exact ih h
    · rw [List.dropWhile_cons_of_neg hd] at h
      simp only [List.head?_cons, Option.some.injEq] at h
      subst h
      simpa using hd

/-- The trimmed text is a piece of the text, and more precisely what is left
of the text without its leading blanks after dropping trailing characters. -/
theorem trimSpace_initial (s : String) :
    (TrimSpace s).data <+: s.data.dropWhile isSpace := by
  show ((s.data.dropWhile isSpace).reverse.dropWhile isSpace).reverse <+: _
  have h := List.dropWhile_suffix isSpace (l := (s.data.dropWhile isSpace).reverse)
  have := List.reverse_prefix.2 h
  rwa [List.reverse_reverse] at this

theorem trimSpace_ends (s : String) :
    (∀ c, (TrimSpace s).data.head? = some c → isSpace c = false) ∧
    (∀ c, (TrimSpace s).data.getLast? = some c → isSpace c = false) := by
  constructor
  · intro c hc
    obtain ⟨t, ht⟩ := trimSpace_initial s
    cases hl : (TrimSpace s).data with
    | nil => rw [hl] at hc; simp at hc
    | cons d rest =>
      rw [hl] at hc ht
      simp only [List.head?_cons, Option.some.injEq] at hc
      subst hc
      exact head_dropWhile_not isSpace s.data d (by rw [← ht]; rfl)
  · intro c hc
    have e : (TrimSpace s).data.getLast? =
        ((s.data.dropWhile isSpace).reverse.dropWhile isSpace).head? := by
      show (((s.data.dropWhile isSpace).reverse.dropWhile isSpace).reverse).getLast? = _
      rw [List.getLast?_reverse]
    rw [e] at hc
    exact head_dropWhile_not isSpace _ c hc

theorem trimSpace_idem (s : String) : TrimSpace (TrimSpace s) = TrimSpace s := by
  obtain ⟨h1, h2⟩ := trimSpace_ends s
  exact trimSpace_eq_self (TrimSpace s).data h1 h2

theorem mem_trimSpace (s : String) (c : Char) (h : c ∈ (TrimSpace s).data) : c ∈ s.data := by
  have h1 := (trimSpace_initial s).subset h
  exact (List.dropWhile_sublist isSpace).subset h1

/-- A trimmed text that is not empty starts with the first non-blank character
of the text. -/
theorem trimSpace_head (c : Char) (rest : List Char) (hc : isSpace c = false)
    (hne : TrimSpace ⟨c :: rest⟩ ≠ "") : (TrimSpace ⟨c :: rest⟩).data.head? = some c := by
  obtain ⟨t, ht⟩ := trimSpace_initial ⟨c :: rest⟩
  have hd : (c :: rest).dropWhile isSpace = c :: rest := by
    rw [List.dropWhile_cons_of_neg (by simp [hc])]
  rw [show (⟨c :: rest⟩ : String).data = c :: rest from rfl, hd] at ht
  cases hl : (TrimSpace ⟨c :: rest⟩).data with
  | nil =>
    exfalso
    apply hne
    exact String.ext hl
  | cons d r =>
    rw [hl] at ht
    simp only [List.cons_append, List.cons.injEq] at ht
    rw [ht.1]
    rfl

/-- The key of a reference entry is well formed. -/
theorem refLineEntry_key (line k v : String) (h : refLineEntry line = some (k, v)) :
    k ≠ "" ∧ TrimSpace k = k ∧ '=' ∉ k.data ∧ refIsComment k.data = false := by
  unfold refLineEntry at h
  simp only at h
  split at h
  · cases h
  · rename_i hcond
    simp only [not_or, not_not] at hcond
    obtain ⟨hne, hcom, _⟩ := hcond
    split at h
    · cases h
    · rename_i hk
      simp only [Option.some.injEq, Prod.mk.injEq] at h
      obtain ⟨hkey, _⟩ := h
      have hcomf : refIsComment (TrimSpace line).data = false := by
        cases hb : refIsComment (TrimSpace line).data
        · rfl
        · exact absurd hb hcom
      cases ht : (TrimSpace line).data with
      | nil => exact absurd ht hne
      | cons c rest =>
        rw [ht] at hkey hk hcomf
        have hcs : isSpace c = false := (trimSpace_ends line).1 c (by rw [ht]; rfl)
        have hceq : c ≠ '=' := by
          intro hc
          apply hk
          rw [hc, List.takeWhile_cons_of_neg (by simp)]
          rfl
        rw [List.takeWhile_cons_of_pos (by simpa using hceq)] at hkey hk
        refine ⟨?_, ?_, ?_, ?_⟩
        · rw [← hkey]
          exact hk
        · rw [← hkey]
          exact trimSpace_idem _
        · rw [← hkey]
          intro hmem
          have h1 := mem_trimSpace _ _ hmem
          rcases List.mem_cons.1 h1 with h2 | h2
          · exact hceq h2.symm
          · have := List.mem_takeWhile_imp h2
            simp at this
        · have hhead := trimSpace_head c (rest.takeWhile (fun c => c ≠ '=')) hcs hk
          rw [hkey] at hhead
          cases hkd : k.data with
          | nil => rw [hkd] at hhead; simp at hhead
          | cons d r =>
            rw [hkd] at hhead
            simp only [List.head?_cons, Option.some.injEq] at hhead
            subst hhead
            exact hcomf

theorem mapGet_of_mem_nodup {β : Type} (m : List (String × β)) (k : String) (v : β)
    (hnd : (m.map Prod.fst).Nodup) (h : (k, v) ∈ m) : mapGet m k = some v := by
  induction m with
  | nil => cases h
  | cons kv rest ih =>
    obtain ⟨k0, v0⟩ := kv
    rw [List.map_cons, List.nodup_cons] at hnd
    rcases List.mem_cons.1 h with h1 | h1
    · simp only [Prod.mk.injEq] at h1
      obtain ⟨rfl, rfl⟩ := h1
      simp [mapGet]
    · have hne : k0 ≠ k := by
        intro he
        apply hnd.1
        rw [he]
        exact List.mem_map.2 ⟨(k, v), h1, rfl⟩
      simp only [mapGet, hne, if_false]
      exact ih hnd.2 h1

theorem refLookup_some (content key value : String) (h : refLookup content key = some value) :
    ∃ line, refLineEntry line = some (key, value) := by
  unfold refLookup at h
  cases hf : (refEntries content).reverse.find? (fun kv => kv.1 = key) with
  | none => rw [hf] at h; cases h
  | some kv =>
    rw [hf] at h
    simp only [Option.map_some', Option.some.injEq] at h
    have h1 := List.find?_some hf
    have h2 := List.mem_of_find?_eq_some hf
    simp only [decide_eq_true_eq] at h1
    rw [List.mem_reverse] at h2
    unfold refEntries at h2
    rw [List.mem_filterMap] at h2
    obtain ⟨line, _, hl⟩ := h2
    refine ⟨line, ?_⟩
    rw [hl, ← h1, ← h]

/-- What holds of a mapping whose lookups are those of the reference
procedure. -/
theorem entries_wellformed (content : String) (m : DataMap)
    (hnd : (m.map Prod.fst).Nodup)
    (hl : ∀ key, mapGet m key = (refLookup content key).map Value.str) :
    (∀ k v, (k, v) ∈ m →
      k ≠ "" ∧ TrimSpace k = k ∧
      (∀ c, k.data.head? = some c → isSpace c = false) ∧
      (∀ c, k.data.getLast? = some c → isSpace c = false) ∧
      '=' ∉ k.data ∧
      startsWith k "#" = false ∧ startsWith k ";" = false ∧ startsWith k "!" = false ∧
      ∃ s, v = .str s) ∧
    hasNestedData m = false := by
  have key : ∀ k v, (k, v) ∈ m → (∃ s, v = Value.str s) ∧
      (k ≠ "" ∧ TrimSpace k = k ∧ '=' ∉ k.data ∧ refIsComment k.data = false) := by
    intro k v hkv
    have h1 := mapGet_of_mem_nodup m k v hnd hkv
    rw [hl k] at h1
    cases hr : refLookup content k with
    | none => rw [hr] at h1; cases h1
    | some s =>
      rw [hr] at h1
      simp only [Option.map_some', Option.some.injEq] at h1
      obtain ⟨line, hline⟩ := refLookup_some content k s hr
      exact ⟨⟨s, h1.symm⟩, refLineEntry_key line k s hline⟩
  constructor
  · intro k v hkv
    obtain ⟨hs, hk0, hkt, hke, hkc⟩ := key k v hkv
    obtain ⟨kd⟩ := k
    obtain ⟨e1, e2⟩ := ends_of_trimSpace_eq_self kd hkt
    refine ⟨hk0, hkt, e1, e2, hke, ?_, ?_, ?_, hs⟩
    all_goals
      cases kd with
      | nil => exact absurd rfl hk0
      | cons c rest =>
        simp only [refIsComment, Bool.or_eq_false_iff, decide_eq_false_iff_not] at hkc
        rw [startsWith_cons_single]
        simp [hkc]
  · unfold hasNestedData
    rw [List.any_eq_false]
    intro kv hkv
    obtain ⟨⟨s, hs⟩, _⟩ := key kv.1 kv.2 hkv
    rw [hs]
    simp [isNestedValue]

theorem processWith_keyValue (L : Externals) (format label : String)
    (parse : String → Except String DataMap) (filename content : String) (m : DataMap)
    (hf : filename ≠ "") (hp : parse content = .ok m) :
    processWith L format label parse none filename (some content) =
      .ok (createConfigData L filename format m) ∧
    mapGet (createConfigData L filename format m).Metadata "has_nested" =
      some (.bool (hasNestedData m)) := by
  constructor
  · simp [processWith, ValidateContextAndInput, hf, hp]
  · simp [createConfigData, createMetadata, hf, mapGet_mapSet, mapGet]

/-- C28. For every content, the ENV decoder and the Properties decoder return
a mapping in which every key is non-empty, has no blank at either end, has no
`=` and does not start with `#`, `;` or `!`, and every value is a string; the
mapping has no nested value, and the record `Process` returns for it has the
metadata `has_nested` false. -/
theorem keyValue_output_wellformed (content : String) :
    (∃ m, parseENVContent content = .ok m ∧
      (∀ k v, (k, v) ∈ m →
        k ≠ "" ∧ TrimSpace k = k ∧
        (∀ c, k.data.head? = some c → isSpace c = false) ∧
        (∀ c, k.data.getLast? = some c → isSpace c = false) ∧
        '=' ∉ k.data ∧
        startsWith k "#" = false ∧ startsWith k ";" = false ∧ startsWith k "!" = false ∧
        ∃ s, v = .str s) ∧
      hasNestedData m = false ∧
      ∀ (L : Externals) (filename : String), filename ≠ "" →
        ∃ record, (NewENVProcessor.toFileProcessor L).Process none filename (some content) =
          .ok record ∧ record.Data = m ∧
          mapGet record.Metadata "has_nested" = some (.bool false)) ∧
    (∃ m, parsePropertiesContent content = .ok m ∧
      (∀ k v, (k, v) ∈ m →
        k ≠ "" ∧ TrimSpace k = k ∧
        (∀ c, k.data.head? = some c → isSpace c = false) ∧
        (∀ c, k.data.getLast? = some c → isSpace c = false) ∧
        '=' ∉ k.data ∧
        startsWith k "#" = false ∧ startsWith k ";" = false ∧ startsWith k "!" = false ∧
        ∃ s, v = .str s) ∧
      hasNestedData m = false ∧
      ∀ (L : Externals) (filename : String), filename ≠ "" →
        ∃ record, (NewPropertiesProcessor.toFileProcessor L).Process none filename
          (some content) = .ok record ∧ record.Data = m ∧
          mapGet record.Metadata "has_nested" = some (.bool false)) := by
  constructor
  · obtain ⟨m, hm, hnd, hl⟩ := envContent_lookup content
    obtain ⟨h1, h2⟩ := entries_wellformed content m hnd hl
    refine ⟨m, hm, h1, h2, ?_⟩
    intro L filename hf
    obtain ⟨e1, e2⟩ := processWith_keyValue L "env" "ENV" parseENVContent filename content m hf hm
    rw [h2] at e2
    exact ⟨_, e1, rfl, e2⟩
  · obtain ⟨m, hm, hnd, hl⟩ := propertiesContent_lookup content
    obtain ⟨h1, h2⟩ := entries_wellformed content m hnd hl
    refine ⟨m, hm, h1, h2, ?_⟩
    intro L filename hf
    obtain ⟨e1, e2⟩ := processWith_keyValue L "properties" "Properties" parsePropertiesContent
      filename content m hf hm
    rw [h2] at e2
    exact ⟨_, e1, rfl, e2⟩

/-! ## The default registry and `CanProcess` -/

/-- `ValidateFilenameAndExtension` in terms of the lower-cased extension of the
final path element, for an extension set without the empty string. -/
theorem validateFilenameAndExtension_lowered (exts : List String) (hexts : "" ∉ exts)
    (filename : String) :
    ValidateFilenameAndExtension filename exts = true ↔
      (filename ≠ "" ∧ '.' ∈ finalElement filename.data ∧ loweredExtension filename ∈ exts) := by
  unfold ValidateFilenameAndExtension
  by_cases h0 : filename = ""
  · simp [h0]
  · rw [if_neg h0, supportsExtension_iff, GetFileExtension_eq]
    by_cases hd : '.' ∈ finalElement filename.data
    · rw [if_pos hd]
      simp [h0, hd]
    · rw [if_neg hd]
      simp [hd, hexts]

theorem wellFormed_registerEach (r : ParserRegistry) (ds : List FileProcessor)
    (hr : r.WellFormed) : (registerEach r ds).1.WellFormed := by
  induction ds generalizing r with
  | nil => exact hr
  | cons d rest ih =>
    have h := wellFormed_registerProcessor r (some d) hr
    unfold registerEach
    cases hreg : r.RegisterProcessor (some d) with
    | mk r1 err =>
      rw [hreg] at h
      cases err with
      | some e => exact h
      | none => exact ih r1 h

theorem defaultRegistry_wellFormed (L : Externals) :
    ∃ r, NewParserRegistry L = .ok r ∧ r.processors = builtinProcessors L ∧ r.WellFormed := by
  obtain ⟨r, hr, hproc⟩ :
      ∃ r, NewParserRegistry L = .ok r ∧ r.processors = builtinProcessors L := ⟨_, rfl, rfl⟩
  refine ⟨r, hr, hproc, ?_⟩
  have hwf := wellFormed_registerEach ParserRegistry.empty (builtinProcessors L) wellFormed_empty
  have hr2 : (match registerEach ParserRegistry.empty (builtinProcessors L) with
      | (_, some err) => Except.error ("Failed to register processors: " ++ err)
      | (registry, none) => Except.ok registry) = Except.ok r := hr
  cases hreg : registerEach ParserRegistry.empty (builtinProcessors L) with
  | mk r1 err =>
    rw [hreg] at hr2 hwf
    cases err with
    | some e => cases hr2
    | none =>
      simp only [Except.ok.injEq] at hr2
      rw [← hr2]
      exact hwf

/-- In a well-formed registry over the built-in decoders, the lookup of a
filename gives a decoder exactly when that decoder accepts the filename. -/
theorem getProcessor_iff_canProcess (L : Externals) (r : ParserRegistry)
    (hp : r.processors = builtinProcessors L) (hwf : r.WellFormed) (filename : String)
    (p : FileProcessor) :
    r.GetProcessor filename = .ok p ↔ (p ∈ builtinProcessors L ∧ p.CanProcess filename = true) := by
  have hcan : ∀ d, d ∈ builtinProcessors L →
      (d.CanProcess filename = true ↔
        (filename ≠ "" ∧ '.' ∈ finalElement filename.data ∧
          loweredExtension filename ∈ d.GetSupportedExtensions)) := by
    intro d hd
    rw [builtin_canProcess_eq L d hd]
    exact validateFilenameAndExtension_lowered _
      (fun h => (builtin_extensions_plain L d hd "" h).1 rfl) filename
  rw [getProcessor_eq]
  constructor
  · intro h
    by_cases h0 : filename = ""
    · rw [if_pos h0] at h
      cases h
    · rw [if_neg h0] at h
      by_cases h1 : '.' ∉ finalElement filename.data ∨
          afterLastDot (finalElement filename.data) = []
      · rw [if_pos h1] at h
        cases h
      · rw [if_neg h1] at h
        rw [not_or, not_not] at h1
        cases hm : mapGet r.byExtension (loweredExtension filename) with
        | none => rw [hm] at h; cases h
        | some d =>
          rw [hm] at h
          simp only [Except.ok.injEq] at h
          subst h
          obtain ⟨hmem, hext⟩ := (hwf.2 _ _).1 hm
          rw [hp] at hmem
          exact ⟨hmem, (hcan d hmem).2 ⟨h0, h1.1, hext⟩⟩
  · rintro ⟨hmem, hc⟩
    obtain ⟨h0, hd, hext⟩ := (hcan p hmem).1 hc
    have hne : afterLastDot (finalElement filename.data) ≠ [] := by
      intro he
      have : loweredExtension filename = "" := by
        unfold loweredExtension
        rw [he]
        rfl
      rw [this] at hext
      exact (builtin_extensions_plain L p hmem "" hext).1 rfl
    have h1 : ¬ ('.' ∉ finalElement filename.data ∨
        afterLastDot (finalElement filename.data) = []) := by
      rw [not_or, not_not]
      exact ⟨hd, hne⟩
    have hm : mapGet r.byExtension (loweredExtension filename) = some p :=
      (hwf.2 _ _).2 ⟨by rw [hp]; exact hmem, hext⟩
    rw [if_neg h0, if_neg h1, hm]

/-- C29. In the registry `NewParserRegistry` builds, `GetProcessor` on a
filename succeeds with a decoder exactly when that decoder is a built-in
decoder whose `CanProcess` accepts the filename; at most one built-in decoder
accepts a filename; and on every pipeline holding the eight built-in decoders
`findProcessor` returns the decoder `GetProcessor` returns, and nil exactly when
`GetProcessor` fails. -/
theorem registry_coherent_with_canProcess (L : Externals) :
    ∃ r, NewParserRegistry L = .ok r ∧
      (∀ filename p, r.GetProcessor filename = .ok p ↔
        (p ∈ builtinProcessors L ∧ p.CanProcess filename = true)) ∧
      (∀ filename p q, p ∈ builtinProcessors L → q ∈ builtinProcessors L →
        p.CanProcess filename = true → q.CanProcess filename = true → p = q) ∧
      (∀ (pl : FilePipeline) filename, pl.processors = builtinProcessors L →
        (∀ p, pl.findProcessor filename = some p ↔ r.GetProcessor filename = .ok p) ∧
        (pl.findProcessor filename = none ↔ ∃ err, r.GetProcessor filename = .error err)) := by
  obtain ⟨r, h1, h2, h3⟩ := defaultRegistry_wellFormed L
  refine ⟨r, h1, ?_, ?_, ?_⟩
  · intro filename p
    exact getProcessor_iff_canProcess L _ h2 h3 filename p
  · intro filename p q hp hq hcp hcq
    have e1 := (getProcessor_iff_canProcess L _ h2 h3 filename p).2 ⟨hp, hcp⟩
    have e2 := (getProcessor_iff_canProcess L _ h2 h3 filename q).2 ⟨hq, hcq⟩
    rw [e1] at e2
    simp only [Except.ok.injEq] at e2
    exact e2
  · intro pl filename hpl
    have hfind : pl.findProcessor filename =
        (builtinProcessors L).find? (fun d => d.CanProcess filename) := by
      unfold FilePipeline.findProcessor
      rw [hpl]
      rfl
    have key : ∀ p, pl.findProcessor filename = some p ↔
        r.GetProcessor filename = .ok p := by
      intro p
      rw [getProcessor_iff_canProcess L _ h2 h3 filename p, hfind]
      constructor
      · intro h
        exact ⟨List.mem_of_find?_eq_some h, by simpa using List.find?_some h⟩
      · rintro ⟨hmem, hc⟩
        cases hf : (builtinProcessors L).find? (fun d => d.CanProcess filename) with
        | none =>
          rw [List.find?_eq_none] at hf
          exact absurd hc (hf p hmem)
        | some q =>
          have hq1 := List.mem_of_find?_eq_some hf
          have hq2 : q.CanProcess filename = true := by simpa using List.find?_some hf
          have e1 := (getProcessor_iff_canProcess L _ h2 h3 filename p).2 ⟨hmem, hc⟩
          have e2 := (getProcessor_iff_canProcess L _ h2 h3 filename q).2 ⟨hq1, hq2⟩
          rw [e1] at e2
          simp only [Except.ok.injEq] at e2
          rw [e2]
    refine ⟨key, ?_⟩
    constructor
    · intro hnone
      cases hg : r.GetProcessor filename with
      | error err => exact ⟨err, rfl⟩
      | ok p =>
        have := (key p).2 hg
        rw [hnone] at this
        cases this
    · rintro ⟨err, herr⟩
      cases hf : pl.findProcessor filename with
      | none => rfl
      | some p =>
        have := (key p).1 hf
        rw [herr] at this
        cases this

end Praetorian
